import Mathlib

/-!
# Formal model of the multi-agent warehouse simulation

A shallow embedding of `src/code_simulation.py`.  Python objects become Lean
structures; in-place mutation becomes functional update; Python dicts (which
preserve insertion order) become association lists where updating an existing
key rewrites it in place and a new key is appended at the end; Python sets
become duplicate-free lists.  The 2-D grid (a Python list of lists, indexed
`grid[x][y]`, always accessed in bounds in the verified flows) is represented
as a total function `Int × Int → Nat`.  Random choices (`random.randint`,
`random.random`, `random.shuffle`) are externalized as explicit parameters of
the step relation, so the reachable-state relation covers every outcome of
the random number generator.
-/

namespace Warehouse0

/-- A grid coordinate `(x, y)`, as in the Python source (integers). -/
abbrev Pos := Int × Int

/-- Association-list lookup, modelling `d[k]` / `k in d` for a Python dict. -/
def alGet? {κ ν : Type} [DecidableEq κ] (k : κ) : List (κ × ν) → Option ν
  | [] => none
  | (k', v') :: rest => if k' = k then some v' else alGet? k rest

/-- Association-list update, modelling `d[k] = v`: an existing key keeps its
position (insertion order), a new key is appended at the end. -/
def alSet {κ ν : Type} [DecidableEq κ] (k : κ) (v : ν) : List (κ × ν) → List (κ × ν)
  | [] => [(k, v)]
  | (k', v') :: rest => if k' = k then (k, v) :: rest else (k', v') :: alSet k v rest

/-- Association-list deletion, modelling `del d[k]`. -/
def alErase {κ ν : Type} [DecidableEq κ] (k : κ) (l : List (κ × ν)) : List (κ × ν) :=
  l.filter (fun e => decide (e.1 ≠ k))

/-- Map a function over the value stored at key `k` (models in-place mutation
of the object `d[k]`; a no-op when the key is absent, which never happens in
the verified flows). -/
def alUpd {κ ν : Type} [DecidableEq κ] (k : κ) (f : ν → ν) (l : List (κ × ν)) :
    List (κ × ν) :=
  l.map (fun e => if e.1 = k then (e.1, f e.2) else e)

/-- `s.add(x)` for a Python set modelled as a duplicate-free list. -/
def setAdd {α : Type} [DecidableEq α] (x : α) (l : List α) : List α :=
  if x ∈ l then l else l ++ [x]

/-- Pointwise update of the grid function, modelling `grid[x][y] = v`. -/
def gset (g : Pos → Nat) (p : Pos) (v : Nat) : Pos → Nat :=
  fun q => if q = p then v else g q

/-- The three agent states of the Python state machine. -/
inductive AgentState
  | SEARCHING
  | DELIVERING
  | PICKING_UP
deriving DecidableEq, Repr

/-- Message tags (`msg['type']`). -/
inductive MsgType
  | BOX_DISCOVERED
  | TARGET_CLAIMED
  | TARGET_RELEASED
  | BOX_PICKED
deriving DecidableEq, Repr

/-- A broadcast message (the Python dicts
`{'type': ..., 'position': ..., 'from_agent': ...}`). -/
structure Message where
  type : MsgType
  position : Pos
  from_agent : Nat
deriving DecidableEq, Repr

/-- class `Box` of the source. -/
structure Box where
  id : Nat
  x : Int
  y : Int
  in_stack : Bool
  stack_size : Nat
deriving DecidableEq, Repr

/-- class `Agent` of the source (without the back-reference to the warehouse,
which in this embedding is passed explicitly to every method). -/
structure Agent where
  id : Nat
  x : Int
  y : Int
  carrying_box : Bool
  carried_box_id : Option Nat
  movements : Nat
  state : AgentState
  target : Option Pos
  path : List Pos
  known_unassigned_boxes : List Pos
  sensor_range : Nat
  communication_range : Nat
  messages : List Message
  claimed_targets : List (Pos × Nat)
deriving DecidableEq, Repr

/-- class `Warehouse` of the source (timing/statistics fields that are pure
output are omitted). -/
structure Warehouse where
  width : Int
  height : Int
  num_boxes : Nat
  num_agents : Nat
  grid : Pos → Nat
  agents : List Agent
  boxes : List (Nat × Box)
  box_locations : List (Pos × List Nat)
  processed_boxes : List Nat
  agent_deliveries : List (Nat × Nat)

/-- Fetch the (unique) agent with a given id, modelling the Python aliasing of
the agent object inside `warehouse.agents`. -/
def getAgent? (w : Warehouse) (i : Nat) : Option Agent :=
  w.agents.find? (fun a => a.id == i)

/-- Write back an update of the agent with id `i`. -/
def updAgent (w : Warehouse) (i : Nat) (f : Agent → Agent) : Warehouse :=
  { w with agents := w.agents.map (fun a => if a.id = i then f a else a) }

/-- `Warehouse.is_valid_position`. -/
def Warehouse.is_valid_position (w : Warehouse) (x y : Int) : Bool :=
  decide (0 ≤ x) && decide (x < w.width) && decide (0 ≤ y) && decide (y < w.height)

/-- `Warehouse.get_cell_type`. -/
def Warehouse.get_cell_type (w : Warehouse) (x y : Int) : String :=
  if ¬ w.is_valid_position x y then "wall"
  else
    let cell := w.grid (x, y)
    if cell = 0 then "empty"
    else if cell = 1 then "wall"
    else if cell = 2 then "box"
    else if cell ≥ 3 then "robot"
    else "unknown"

/-- `Warehouse.can_move_to`. -/
def Warehouse.can_move_to (w : Warehouse) (x y : Int) (_agent_id : Nat) : Bool :=
  if ¬ w.is_valid_position x y then false
  else
    let cell := w.grid (x, y)
    cell == 0 || cell == 2

/-- `Warehouse.count_stack_size`. -/
def Warehouse.count_stack_size (w : Warehouse) (x y : Int) : Nat :=
  match alGet? (x, y) w.box_locations with
  | some ids => ids.length
  | none => 0

/-- `Warehouse.get_box_at` (the top box object at a position). -/
def Warehouse.get_box_at (w : Warehouse) (x y : Int) : Option Box :=
  match alGet? (x, y) w.box_locations with
  | some ids =>
      match ids.getLast? with
      | some bid => alGet? bid w.boxes
      | none => none
  | none => none

/-- `Warehouse.can_pick_up_box`: only unstacked boxes (depth exactly 1). -/
def Warehouse.can_pick_up_box (w : Warehouse) (x y : Int) : Bool :=
  w.count_stack_size x y == 1

/-- `Warehouse.can_place_box` (stack limit is 5; a cell holding a different
agent refuses placement, the placing agent's own cell is fine). -/
def Warehouse.can_place_box (w : Warehouse) (x y : Int) (agent_id : Nat) : Bool :=
  let cell := w.grid (x, y)
  if w.count_stack_size x y ≥ 5 then false
  else if cell ≥ 3 then cell - 3 == agent_id
  else true

/-- `Warehouse.remove_box_from_grid`: pop the top box of the stack at `(x,y)`,
mark it processed, and clear the cell / delete the dict entry when the stack
becomes empty. -/
def Warehouse.remove_box_from_grid (w : Warehouse) (x y : Int) : Warehouse :=
  match alGet? (x, y) w.box_locations with
  | none => w
  | some [] => w
  | some (id0 :: ids) =>
      let box_id := (id0 :: ids).getLast (by simp)
      let rest := (id0 :: ids).dropLast
      let w1 : Warehouse :=
        { w with
          box_locations := alSet (x, y) rest w.box_locations
          processed_boxes := setAdd box_id w.processed_boxes
          boxes := alUpd box_id (fun b => { b with in_stack := false, stack_size := 1 }) w.boxes }
      if rest = [] then
        let g := if w1.grid (x, y) = 2 then gset w1.grid (x, y) 0 else w1.grid
        { w1 with grid := g, box_locations := alErase (x, y) w1.box_locations }
      else w1

/-- `Warehouse.place_box`: push `box_id` on the stack at `(x,y)`, mark the
cell as a box unless an agent stands there, update the box object, and credit
the delivery counter. -/
def Warehouse.place_box (w : Warehouse) (x y : Int) (box_id : Nat)
    (agent_id : Option Nat) : Warehouse :=
  let cur := (alGet? (x, y) w.box_locations).getD []
  let newStack := cur ++ [box_id]
  let w1 := { w with box_locations := alSet (x, y) newStack w.box_locations }
  let w2 :=
    if w1.grid (x, y) < 3 then { w1 with grid := gset w1.grid (x, y) 2 } else w1
  let setBox := fun (b : Box) =>
    { b with x := x, y := y, in_stack := true, stack_size := newStack.length }
  let w3 := { w2 with boxes := alUpd box_id setBox w2.boxes }
  match agent_id with
  | some i => { w3 with agent_deliveries := alUpd i (fun n => n + 1) w3.agent_deliveries }
  | none => w3

/-- `Agent.receive_message`: append to the inbox. -/
def Agent.receive_message (a : Agent) (m : Message) : Agent :=
  { a with messages := a.messages ++ [m] }

/-- `Agent.broadcast_message`: deliver to every other agent within the
sender's communication range (Manhattan distance). -/
def Agent.broadcast_message (w : Warehouse) (selfId : Nat) (msg : Message) : Warehouse :=
  match getAgent? w selfId with
  | none => w
  | some self =>
    { w with agents := w.agents.map (fun a =>
        if a.id ≠ selfId then
          if (a.x - self.x).natAbs + (a.y - self.y).natAbs ≤ self.communication_range then
            a.receive_message msg
          else a
        else a) }

/-- Effect of one inbox message on `(known_unassigned_boxes, claimed_targets)`
(the body of the loop of `Agent.process_messages`). -/
def processOneMessage (selfId : Nat) (st : List Pos × List (Pos × Nat)) (msg : Message) :
    List Pos × List (Pos × Nat) :=
  let known := st.1
  let claims := st.2
  let pos := msg.position
  match msg.type with
  | MsgType.BOX_DISCOVERED =>
      (if pos ∈ known then known else known ++ [pos], claims)
  | MsgType.TARGET_CLAIMED =>
      let claims' := alSet pos msg.from_agent claims
      let known' := if msg.from_agent ≠ selfId ∧ pos ∈ known then known.erase pos else known
      (known', claims')
  | MsgType.TARGET_RELEASED =>
      (known, if (alGet? pos claims).isSome then alErase pos claims else claims)
  | MsgType.BOX_PICKED =>
      (if pos ∈ known then known.erase pos else known, claims)

/-- `Agent.process_messages`: drain the inbox into local knowledge.  It only
touches the agent's own fields, so it is a pure `Agent → Agent` function. -/
def Agent.process_messages (a : Agent) : Agent :=
  let res := a.messages.foldl (processOneMessage a.id)
      (a.known_unassigned_boxes, a.claimed_targets)
  { a with known_unassigned_boxes := res.1, claimed_targets := res.2, messages := [] }

/-- `Agent.is_target_available`. -/
def Agent.is_target_available (a : Agent) (position : Pos) : Bool :=
  match alGet? position a.claimed_targets with
  | none => true
  | some i => i == a.id

/-- `Agent.claim_target`. -/
def Agent.claim_target (w : Warehouse) (selfId : Nat) (position : Pos) : Warehouse :=
  let w1 := updAgent w selfId (fun a =>
    { a with claimed_targets := alSet position a.id a.claimed_targets })
  Agent.broadcast_message w1 selfId ⟨MsgType.TARGET_CLAIMED, position, selfId⟩

/-- `Agent.release_target`. -/
def Agent.release_target (w : Warehouse) (selfId : Nat) (position : Pos) : Warehouse :=
  match getAgent? w selfId with
  | none => w
  | some a =>
    if alGet? position a.claimed_targets = some selfId then
      let w1 := updAgent w selfId (fun b =>
        { b with claimed_targets := alErase position b.claimed_targets })
      Agent.broadcast_message w1 selfId ⟨MsgType.TARGET_RELEASED, position, selfId⟩
    else w

/-- The fixed direction enumeration of the source: up, down, left, right
(as `(dx, dy)` offsets `(0,-1), (0,1), (-1,0), (1,0)`). -/
def directions : List Pos := [(0, -1), (0, 1), (-1, 0), (1, 0)]

/-- Process one ray of `Agent.sense_environment`: walk outward along direction
`d` through the given list of distances; returning early models the `break`
statements (grid edge or wall).  A freshly sensed single box is recorded in
`known_unassigned_boxes`, and broadcast as BOX_DISCOVERED only when the
sensing agent is in the SEARCHING state. -/
def senseRay (selfId : Nat) (d : Pos) : List Nat → Warehouse → Warehouse
  | [], w => w
  | dist :: rest, w =>
    match getAgent? w selfId with
    | none => w
    | some a =>
      let nx := a.x + d.1 * (dist : Int)
      let ny := a.y + d.2 * (dist : Int)
      if ¬ w.is_valid_position nx ny then w
      else if w.get_cell_type nx ny = "wall" then w
      else
        let w' :=
          if w.get_cell_type nx ny = "box" then
            if w.count_stack_size nx ny = 1 then
              let is_shelf_target := w.agents.any (fun ag =>
                ag.id != selfId &&
                  (ag.state == AgentState.DELIVERING && ag.target == some (nx, ny)))
              if ¬ is_shelf_target ∧ (nx, ny) ∉ a.known_unassigned_boxes then
                let w2 := updAgent w selfId (fun b =>
                  { b with known_unassigned_boxes := b.known_unassigned_boxes ++ [(nx, ny)] })
                if a.state = AgentState.SEARCHING then
                  Agent.broadcast_message w2 selfId ⟨MsgType.BOX_DISCOVERED, (nx, ny), selfId⟩
                else w2
              else w
            else w
          else w
        senseRay selfId d rest w'

/-- `Agent.sense_environment`: cast the four cardinal rays up to
`sensor_range`. -/
def Agent.sense_environment (w : Warehouse) (selfId : Nat) : Warehouse :=
  match getAgent? w selfId with
  | none => w
  | some a =>
    let dists := (List.range a.sensor_range).map (fun k => k + 1)
    directions.foldl (fun wacc d => senseRay selfId d dists wacc) w

/-- Python tuple comparison (the order used by `list.sort`) on integer
triples. -/
def tripleLe (a b : Int × Int × Int) : Bool :=
  decide (a.1 < b.1) ||
    (a.1 == b.1 &&
      (decide (a.2.1 < b.2.1) || (a.2.1 == b.2.1 && decide (a.2.2 ≤ b.2.2))))

/-- Stable insertion of one triple into a sorted list (the building block of
the embedding of the stable Python `list.sort()`). -/
def insertLe (le : Int × Int × Int → Int × Int × Int → Bool) (x : Int × Int × Int) :
    List (Int × Int × Int) → List (Int × Int × Int)
  | [] => [x]
  | y :: ys => if le x y then x :: y :: ys else y :: insertLe le x ys

/-- Stable sort of a list of triples (insertion sort: like `list.sort()`, it
orders by `le` and keeps the original order of equal elements). -/
def sortLe (le : Int × Int × Int → Int × Int × Int → Bool)
    (l : List (Int × Int × Int)) : List (Int × Int × Int) :=
  l.foldr (insertLe le) []

/-- `candidates.sort(); candidates[0]`: the least triple, if any. -/
def sortedHead? (l : List (Int × Int × Int)) : Option (Int × Int × Int) :=
  (sortLe tripleLe l).head?

/-- `candidates.sort(reverse=True); candidates[0]`: the greatest triple. -/
def sortedRevHead? (l : List (Int × Int × Int)) : Option (Int × Int × Int) :=
  (sortLe (fun a b => tripleLe b a) l).head?

/-- Python `range(lo, lo+n)` as a list of integers. -/
def intRange (lo : Int) (n : Nat) : List Int :=
  (List.range n).map (fun k => lo + (k : Int))

/-- `Agent.find_empty_spot_for_new_shelf`.  The Python score
`-distance_to_center - distance_to_agent * 0.5` is a half-integer float; it
is represented here doubled (`-2*dc - da`), which preserves the comparison
order exactly, so the sorted maximum is the same spot. -/
def Agent.find_empty_spot_for_new_shelf (w : Warehouse) (a : Agent) : Option Pos :=
  let center_x := Int.fdiv w.width 2
  let center_y := Int.fdiv w.height 2
  let xs := intRange 1 (w.width - 2).toNat
  let ys := intRange 1 (w.height - 2).toNat
  let candidates := xs.foldl (fun acc x =>
    ys.foldl (fun acc2 y =>
      if w.get_cell_type x y = "empty" ∧ a.is_target_available (x, y) then
        let dc : Int := (((x - center_x).natAbs + (y - center_y).natAbs : Nat) : Int)
        let da : Int := (((a.x - x).natAbs + (a.y - y).natAbs : Nat) : Int)
        let score2 := -2 * dc - da
        acc2 ++ [(score2, x, y)]
      else acc2) acc) []
  match sortedRevHead? candidates with
  | some t => some (t.2.1, t.2.2)
  | none => none

/-- `Agent.find_nearest_shelf`: nearest non-full existing stack (depth 1-4)
that is unclaimed / claimed by this agent / already its target; otherwise an
empty spot for a new shelf. -/
def Agent.find_nearest_shelf (w : Warehouse) (a : Agent) : Option Pos :=
  let candidates := w.box_locations.foldl (fun acc e =>
    let sx := e.1.1
    let sy := e.1.2
    let stack_size := e.2.length
    if 1 ≤ stack_size ∧ stack_size < 5 then
      let distance : Int := (((a.x - sx).natAbs + (a.y - sy).natAbs : Nat) : Int)
      if a.is_target_available (sx, sy) || a.target == some (sx, sy) then
        acc ++ [(-distance, sx, sy)]
      else acc
    else acc) []
  match sortedRevHead? candidates with
  | some t => some (t.2.1, t.2.2)
  | none => Agent.find_empty_spot_for_new_shelf w a

/-- `Agent.find_nearest_known_box`: scan a snapshot of
`known_unassigned_boxes`, dropping entries that are gone or stacked, and
return the updated agent together with the nearest remaining candidate. -/
def Agent.find_nearest_known_box (w : Warehouse) (a : Agent) : Agent × Option Pos :=
  if a.known_unassigned_boxes = [] then (a, none)
  else
    let step := fun (st : Agent × List (Int × Int × Int)) (bp : Pos) =>
      let self := st.1
      let candidates := st.2
      let bx := bp.1
      let byv := bp.2
      if w.is_valid_position bx byv then
        let stack_size := w.count_stack_size bx byv
        if stack_size = 0 ∨ stack_size > 1 then
          let self' :=
            if (bx, byv) ∈ self.known_unassigned_boxes then
              { self with known_unassigned_boxes :=
                  self.known_unassigned_boxes.erase (bx, byv) }
            else self
          (self', candidates)
        else if stack_size = 1 then
          let is_shelf_target := w.agents.any (fun other =>
            other.id != a.id &&
              (other.state == AgentState.DELIVERING && other.target == some (bx, byv)))
          if ¬ is_shelf_target ∧ self.is_target_available (bx, byv) then
            let distance : Int := (((a.x - bx).natAbs + (a.y - byv).natAbs : Nat) : Int)
            (self, candidates ++ [(distance, bx, byv)])
          else (self, candidates)
        else (self, candidates)
      else (self, candidates)
    let res := a.known_unassigned_boxes.foldl step (a, [])
    match sortedHead? res.2 with
    | some t => (res.1, some (t.2.1, t.2.2))
    | none => (res.1, none)

/-- A BFS queue entry: a position together with the list of direction steps
that reached it. -/
abbrev BfsEntry := Pos × List Pos

/-- The inner `for dx, dy in directions` loop of one BFS dequeue: either the
target is generated (early return of the completed path, `Sum.inl`) or the
updated visited set and the entries appended to the queue are produced. -/
def bfsExpand (w : Warehouse) (tgt : Pos) (p : Pos) (path : List Pos) :
    List Pos → List Pos → List BfsEntry → (List Pos ⊕ (List Pos × List BfsEntry))
  | [], visited, acc => Sum.inr (visited, acc)
  | d :: ds, visited, acc =>
    let n : Pos := (p.1 + d.1, p.2 + d.2)
    if n ∈ visited then bfsExpand w tgt p path ds visited acc
    else if ¬ w.is_valid_position n.1 n.2 then bfsExpand w tgt p path ds visited acc
    else
      let cell := w.grid n
      if cell = 0 ∨ cell = 2 ∨ n = tgt then
        if n = tgt then Sum.inl (path ++ [d])
        else bfsExpand w tgt p path ds (visited ++ [n]) (acc ++ [(n, path ++ [d])])
      else bfsExpand w tgt p path ds visited acc

/-- The `while queue:` loop of the BFS.  The Python loop needs no fuel: every
enqueue inserts a fresh in-bounds position into `visited`, so the number of
iterations is bounded by the cell count; the fuel passed by `find_path_to`
is proved sufficient and only realizes this termination argument. -/
def bfsLoop (w : Warehouse) (tgt : Pos) :
    Nat → List BfsEntry → List Pos → List Pos
  | 0, _, _ => []
  | _ + 1, [], _ => []
  | fuel + 1, e :: rest, visited =>
    match bfsExpand w tgt e.1 e.2 directions visited [] with
    | Sum.inl found => found
    | Sum.inr st => bfsLoop w tgt fuel (rest ++ st.2) st.1

/-- `Agent.find_path_to`: breadth-first search from `(selfx, selfy)` to
`(target_x, target_y)` over the current grid. -/
def Agent.find_path_to (w : Warehouse) (selfx selfy target_x target_y : Int) : List Pos :=
  if (selfx, selfy) = (target_x, target_y) then []
  else
    bfsLoop w (target_x, target_y) (w.width.toNat * w.height.toNat + 1)
      [((selfx, selfy), [])] [(selfx, selfy)]

/-- `Agent.pick_up_box`. -/
def Agent.pick_up_box (w : Warehouse) (selfId : Nat) (x y : Int) : Warehouse × Bool :=
  match getAgent? w selfId with
  | none => (w, false)
  | some a =>
    if a.carrying_box then (w, false)
    else
      match w.get_box_at x y with
      | some box =>
        if w.can_pick_up_box x y then
          let w1 := updAgent w selfId (fun b =>
            { b with carrying_box := true, carried_box_id := some box.id })
          let w2 := w1.remove_box_from_grid x y
          let w3 := updAgent w2 selfId (fun b =>
            { b with known_unassigned_boxes :=
                if (x, y) ∈ b.known_unassigned_boxes then
                  b.known_unassigned_boxes.erase (x, y)
                else b.known_unassigned_boxes })
          (Agent.broadcast_message w3 selfId ⟨MsgType.BOX_PICKED, (x, y), selfId⟩, true)
        else (w, false)
      | none => (w, false)

/-- `Agent.drop_box`: drop the carried box at the current position when
legal.  (`carried_box_id` is always `some` while `carrying_box` holds; the
`getD 0` default is never taken in the verified flows.) -/
def Agent.drop_box (w : Warehouse) (selfId : Nat) : Warehouse × Bool :=
  match getAgent? w selfId with
  | none => (w, false)
  | some a =>
    if ¬ a.carrying_box then (w, false)
    else if w.can_place_box a.x a.y a.id then
      let w1 := w.place_box a.x a.y (a.carried_box_id.getD 0) (some a.id)
      let w2 := updAgent w1 selfId (fun b =>
        { b with carrying_box := false, carried_box_id := none })
      (w2, true)
    else (w, false)

/-- `Agent.move`: step in a direction if the destination is free, updating
the grid markers of the old and new cells, then re-sense. -/
def Agent.move (w : Warehouse) (selfId : Nat) (direction : Pos) : Warehouse × Bool :=
  match getAgent? w selfId with
  | none => (w, false)
  | some a =>
    let nx := a.x + direction.1
    let ny := a.y + direction.2
    if w.can_move_to nx ny a.id then
      let old_value := w.grid (a.x, a.y)
      let w1 :=
        if old_value ≥ 3 then
          if w.count_stack_size a.x a.y > 0 then { w with grid := gset w.grid (a.x, a.y) 2 }
          else { w with grid := gset w.grid (a.x, a.y) 0 }
        else w
      let w2 := updAgent w1 selfId (fun b => { b with x := nx, y := ny })
      let w3 := { w2 with grid := gset w2.grid (nx, ny) (3 + selfId) }
      let w4 := updAgent w3 selfId (fun b => { b with movements := b.movements + 1 })
      (Agent.sense_environment w4 selfId, true)
    else (w, false)

/-- Retarget helper shared by `decide_action`: claim `kb`, compute a route
to it, and store it (the common tail `self.target = kb; self.claim_target(kb);
self.path = self.find_path_to(kb)` of the Python branches). -/
def Agent.retarget (w : Warehouse) (selfId : Nat) (kb : Pos) : Warehouse :=
  let w5 := Agent.claim_target w selfId kb
  match getAgent? w5 selfId with
  | none => w5
  | some a2 =>
    let path := Agent.find_path_to w5 a2.x a2.y kb.1 kb.2
    updAgent w5 selfId (fun b => { b with path := path })

/-- The `SEARCHING` branch of `Agent.decide_action` (given the already
looked-up agent `a`). -/
def Agent.decide_searching (w : Warehouse) (selfId : Nat) (a : Agent)
    (jitter : Bool) (searchPoint : Pos) : Warehouse :=
  let fk := Agent.find_nearest_known_box w a
  let w3 := updAgent w selfId (fun b =>
    { b with known_unassigned_boxes := fk.1.known_unassigned_boxes })
  match fk.2 with
  | some kb =>
    let w4 := updAgent w3 selfId (fun b =>
      { b with state := AgentState.PICKING_UP, target := some kb })
    Agent.retarget w4 selfId kb
  | none =>
    if a.path = [] ∨ jitter then
      let w4 := updAgent w3 selfId (fun b => { b with target := some searchPoint })
      match getAgent? w4 selfId with
      | none => w4
      | some a2 =>
        let path := Agent.find_path_to w4 a2.x a2.y searchPoint.1 searchPoint.2
        updAgent w4 selfId (fun b => { b with path := path })
    else w3

/-- The `DELIVERING` branch of `Agent.decide_action`. -/
def Agent.decide_delivering (w : Warehouse) (selfId : Nat) (a : Agent) : Warehouse :=
  match Agent.find_nearest_shelf w a with
  | some shelf =>
    if a.target ≠ some shelf then
      let w3 :=
        match a.target with
        | some t => Agent.release_target w selfId t
        | none => w
      let w4 := updAgent w3 selfId (fun b => { b with target := some shelf })
      Agent.retarget w4 selfId shelf
    else if a.path = [] then
      let path := Agent.find_path_to w a.x a.y shelf.1 shelf.2
      updAgent w selfId (fun b => { b with path := path })
    else w
  | none =>
    let db := Agent.drop_box w selfId
    updAgent db.1 selfId (fun b => { b with state := AgentState.SEARCHING })

/-- The `PICKING_UP` branch of `Agent.decide_action`. -/
def Agent.decide_picking_up (w : Warehouse) (selfId : Nat) (a : Agent) : Warehouse :=
  let avail :=
    match a.target with
    | some tgt => a.is_target_available tgt
    | none => false
  if avail then
    if a.path = [] then
      let tgt := a.target.getD (0, 0)
      let path := Agent.find_path_to w a.x a.y tgt.1 tgt.2
      updAgent w selfId (fun b => { b with path := path })
    else w
  else
    let w3 :=
      match a.target with
      | some t => Agent.release_target w selfId t
      | none => w
    match getAgent? w3 selfId with
    | none => w3
    | some a2 =>
      let fk := Agent.find_nearest_known_box w3 a2
      let w4 := updAgent w3 selfId (fun b =>
        { b with known_unassigned_boxes := fk.1.known_unassigned_boxes })
      match fk.2 with
      | some kb =>
        let w5 := updAgent w4 selfId (fun b => { b with target := some kb })
        Agent.retarget w5 selfId kb
      | none =>
        updAgent w4 selfId (fun b =>
          { b with state := AgentState.SEARCHING, target := none })

/-- `Agent.decide_action`: the per-turn state machine evaluation.  The two
random draws of the Python code are externalized: `jitter` stands for
`random.random() < 0.1` and `searchPoint` for the result of
`find_random_search_point` (a `while True` retry loop over `random.randint`
that returns some non-wall interior point; the step relation quantifies over
every possible point, which covers every run of the loop). -/
def Agent.decide_action (w : Warehouse) (selfId : Nat) (jitter : Bool)
    (searchPoint : Pos) : Warehouse :=
  let w1 := updAgent w selfId Agent.process_messages
  let w2 := Agent.sense_environment w1 selfId
  match getAgent? w2 selfId with
  | none => w2
  | some a =>
    match a.state with
    | AgentState.SEARCHING => Agent.decide_searching w2 selfId a jitter searchPoint
    | AgentState.DELIVERING => Agent.decide_delivering w2 selfId a
    | AgentState.PICKING_UP => Agent.decide_picking_up w2 selfId a

/-- The arrival bookkeeping of `Agent.execute_action` (reached when the path
is exhausted on the target cell), given the already looked-up agent `a2`. -/
def Agent.execute_arrival (w : Warehouse) (selfId : Nat) (a2 : Agent) (tgt : Pos) :
    Warehouse :=
  match a2.state with
  | AgentState.PICKING_UP =>
    let pu := Agent.pick_up_box w selfId a2.x a2.y
    let w5 := Agent.release_target pu.1 selfId tgt
    updAgent w5 selfId (fun b =>
      { b with
        state := if pu.2 then AgentState.DELIVERING else AgentState.SEARCHING,
        target := none })
  | AgentState.DELIVERING =>
    let db := Agent.drop_box w selfId
    let w4 := Agent.release_target db.1 selfId tgt
    let w5 := updAgent w4 selfId (fun b => { b with target := none })
    match getAgent? w5 selfId with
    | none => w5
    | some a3 =>
      let fk := Agent.find_nearest_known_box w5 a3
      let w6 := updAgent w5 selfId (fun b =>
        { b with known_unassigned_boxes := fk.1.known_unassigned_boxes })
      match fk.2 with
      | some kb =>
        let w7 := updAgent w6 selfId (fun b =>
          { b with state := AgentState.PICKING_UP, target := some kb })
        Agent.retarget w7 selfId kb
      | none =>
        updAgent w6 selfId (fun b => { b with state := AgentState.SEARCHING })
  | AgentState.SEARCHING =>
    updAgent w selfId (fun b => { b with target := none })

/-- `Agent.execute_action`: pop and execute one path step, and on arrival at
the target perform the pickup / drop-off bookkeeping of the state machine. -/
def Agent.execute_action (w : Warehouse) (selfId : Nat) : Warehouse :=
  match getAgent? w selfId with
  | none => w
  | some a =>
    match a.path with
    | [] => Agent.sense_environment w selfId
    | direction :: restPath =>
      let w1 := updAgent w selfId (fun b => { b with path := restPath })
      let mv := Agent.move w1 selfId direction
      let w3 := if ¬ mv.2 then updAgent mv.1 selfId (fun b => { b with path := [] }) else mv.1
      match getAgent? w3 selfId with
      | none => w3
      | some a2 =>
        match a2.target with
        | none => w3
        | some tgt =>
          if a2.path = [] ∧ (a2.x, a2.y) = tgt then
            Agent.execute_arrival w3 selfId a2 tgt
          else w3

/-- The initial grid of `initialize_warehouse`: all cells 0, with the four
perimeter loops setting the boundary cells to 1 (loops only write in-bounds
cells). -/
def initGrid (width height : Int) : Pos → Nat :=
  fun p =>
    if (0 ≤ p.1 ∧ p.1 < width ∧ 0 ≤ p.2 ∧ p.2 < height) ∧
        (p.2 = 0 ∨ p.2 = height - 1 ∨ p.1 = 0 ∨ p.1 = width - 1) then 1
    else 0

/-- The support of `random.randint(1, width-2) × random.randint(1, height-2)`:
the candidate positions the placement loops of `initialize_warehouse` can
draw. -/
def randintSupport (w : Warehouse) (p : Pos) : Bool :=
  decide (1 ≤ p.1) && decide (p.1 ≤ w.width - 2) &&
    decide (1 ≤ p.2) && decide (p.2 ≤ w.height - 2)

/-- The box-placement retry loop of `initialize_warehouse` for one box id:
try the drawn candidate positions in order (the Python code gives up after
200 attempts; an arbitrary finite trial list covers every possible run). -/
def tryPlaceBox (w : Warehouse) (box_id : Nat) : List Pos → Warehouse
  | [] => w
  | p :: rest =>
    if randintSupport w p ∧ w.grid p = 0 then
      let w1 := { w with boxes := alSet box_id ⟨box_id, p.1, p.2, false, 1⟩ w.boxes }
      let w2 := { w1 with grid := gset w1.grid p 2 }
      { w2 with box_locations := alSet p [box_id] w2.box_locations }
    else tryPlaceBox w box_id rest

/-- A fresh agent as built by `Agent.__init__`. -/
def mkAgent (agent_id : Nat) (x y : Int) : Agent :=
  { id := agent_id, x := x, y := y, carrying_box := false, carried_box_id := none,
    movements := 0, state := AgentState.SEARCHING, target := none, path := [],
    known_unassigned_boxes := [], sensor_range := 3, communication_range := 8,
    messages := [], claimed_targets := [] }

/-- The agent-placement retry loop of `initialize_warehouse` for one agent id
(`placed` is the `agent_positions` list). -/
def tryPlaceAgent (w : Warehouse) (placed : List Pos) (agent_id : Nat) :
    List Pos → Warehouse × List Pos
  | [] => (w, placed)
  | p :: rest =>
    let too_close := placed.any (fun q => (p.1 - q.1).natAbs + (p.2 - q.2).natAbs < 3)
    if randintSupport w p ∧ w.grid p = 0 ∧ ¬ too_close then
      let w1 := { w with agents := w.agents ++ [mkAgent agent_id p.1 p.2] }
      let w2 := { w1 with grid := gset w1.grid p (3 + agent_id) }
      let w3 :=
        if (alGet? agent_id w2.agent_deliveries).isSome then w2
        else { w2 with agent_deliveries := alSet agent_id 0 w2.agent_deliveries }
      (w3, placed ++ [p])
    else tryPlaceAgent w placed agent_id rest

/-- `Warehouse.__init__` / `initialize_warehouse`, parametrized by the random
draws of the placement loops (one trial list per box and per agent). -/
def initialize_warehouse (width height : Int) (num_boxes num_agents : Nat)
    (boxTrials agentTrials : List (List Pos)) : Warehouse :=
  let w0 : Warehouse :=
    { width := width, height := height, num_boxes := num_boxes,
      num_agents := num_agents, grid := initGrid width height, agents := [],
      boxes := [], box_locations := [], processed_boxes := [],
      agent_deliveries := (List.range num_agents).map (fun i => (i, 0)) }
  let w1 := (List.range num_boxes).foldl
    (fun w i => tryPlaceBox w i (boxTrials.getD i [])) w0
  ((List.range num_agents).foldl
    (fun st i => tryPlaceAgent st.1 st.2 i (agentTrials.getD i [])) (w1, [])).1

/-- One full turn of one agent in `run_simulation`:
`agent.decide_action(); agent.execute_action()`. -/
def turn (w : Warehouse) (i : Nat) (jitter : Bool) (searchPoint : Pos) : Warehouse :=
  Agent.execute_action (Agent.decide_action w i jitter searchPoint) i

/-- The states reachable from `w0` by the simulation loop: any sequence of
single-agent turns (this covers every shuffle `random.shuffle(self.agents)`
can produce, and every outcome of the two random draws inside
`decide_action`). -/
inductive ReachableFrom (w0 : Warehouse) : Warehouse → Prop
  | refl : ReachableFrom w0 w0
  | step {w : Warehouse} (i : Nat) (jitter : Bool) (searchPoint : Pos) :
      ReachableFrom w0 w → ReachableFrom w0 (turn w i jitter searchPoint)

/-! ## Derived quantities and step decomposition -/

/-- Number of boxes currently contained in stacks (the sum of all stack
depths of `box_locations`). -/
def stackSum (w : Warehouse) : Nat :=
  (w.box_locations.map (fun e => e.2.length)).sum

/-- Number of agents whose `carrying_box` flag is set. -/
def carriedCount (w : Warehouse) : Nat :=
  w.agents.countP (fun a => a.carrying_box)

/-- The physical footprint of an agent: the fields that the shared-world
invariants read (identity, coordinate, carried flag). -/
def agentPhys (a : Agent) : Nat × Int × Int × Bool :=
  (a.id, a.x, a.y, a.carrying_box)

/-- The primitive mutations out of which one agent turn is composed: a
knowledge-only rewrite of the agent list (message passing, claims, sensing
records, plans, state tags — everything that leaves `agentPhys`, the grid
and the stacks untouched), or one of the three world-mutating operations
`pick_up_box`, `drop_box`, `move`. -/
inductive Prim : Warehouse → Warehouse → Prop
  | agents {w : Warehouse} (g : Agent → Agent) (h : ∀ a, agentPhys (g a) = agentPhys a) :
      Prim w { w with agents := w.agents.map g }
  | pick {w : Warehouse} (i : Nat) (x y : Int) : Prim w (Agent.pick_up_box w i x y).1
  | drop {w : Warehouse} (i : Nat) : Prim w (Agent.drop_box w i).1
  | mv {w : Warehouse} (i : Nat) (d : Pos) : Prim w (Agent.move w i d).1

/-- Reflexive-transitive closure of the primitive mutations: every turn of
the simulation factors through `Steps`. -/
def Steps : Warehouse → Warehouse → Prop :=
  Relation.ReflTransGen Prim

/-- A small concrete warehouse used by the witnesses: 5×5 grid with walled
perimeter, one agent (id 0) standing at (1,1), one single box (id 0) at
(3,1). -/
def sampleW : Warehouse :=
  { width := 5, height := 5, num_boxes := 1, num_agents := 1,
    grid := fun p => if p = (1, 1) then 3 else if p = (3, 1) then 2 else initGrid 5 5 p,
    agents := [mkAgent 0 1 1],
    boxes := [(0, ⟨0, 3, 1, false, 1⟩)],
    box_locations := [((3, 1), [0])],
    processed_boxes := [], agent_deliveries := [(0, 0)] }

/-- The agent of `sampleW`, carrying box 1 in the DELIVERING state (used by
the drop-box witnesses). -/
def sampleCarryAgent : Agent :=
  { mkAgent 0 1 1 with carrying_box := true, carried_box_id := some 1, state := AgentState.DELIVERING }

/-- `sampleW` with the agent carrying box 1. -/
def sampleCarry : Warehouse :=
  { sampleW with
    num_boxes := 2,
    agents := [sampleCarryAgent],
    boxes := [(0, ⟨0, 3, 1, false, 1⟩), (1, ⟨1, 1, 1, false, 1⟩)] }

/-- A 5×5 warehouse whose agent is one step away from picking up the single
box at (2,1): used to witness the pickup-step theorems. -/
def samplePick : Warehouse :=
  { width := 5, height := 5, num_boxes := 1, num_agents := 1,
    grid := fun p => if p = (1, 1) then 3 else if p = (2, 1) then 2 else initGrid 5 5 p,
    agents := [{ mkAgent 0 1 1 with state := AgentState.PICKING_UP, target := some (2, 1), path := [(1, 0)] }],
    boxes := [(0, ⟨0, 2, 1, false, 1⟩)],
    box_locations := [((2, 1), [0])],
    processed_boxes := [], agent_deliveries := [(0, 0)] }

/-- The core of an agent read by the shared-world invariants: identity,
coordinate, carried flag and behavioural state. -/
def agentCore (a : Agent) : Nat × Int × Int × Bool × AgentState :=
  (a.id, a.x, a.y, a.carrying_box, a.state)

/-- `kshape w w'`: `w'` differs from `w` only in knowledge fields (inboxes,
claims, known boxes, plans, counters) — the dimensions, the grid, the stacks
and every agent's core are untouched.  All message/claim/sensing operations
have this shape. -/
def kshape (w w' : Warehouse) : Prop :=
  w'.width = w.width ∧ w'.height = w.height ∧ w'.grid = w.grid ∧
    w'.box_locations = w.box_locations ∧
    w'.agents.map agentCore = w.agents.map agentCore

/-- Stack-capacity invariant of C2: no stack of `box_locations` is deeper
than 5. -/
def stacksLe5 (w : Warehouse) : Prop :=
  ∀ p stack, alGet? p w.box_locations = some stack → stack.length ≤ 5

/-- The agent ids, in list order. -/
def idsOf (w : Warehouse) : List Nat :=
  w.agents.map Agent.id

/-- Keys of `box_locations` are pairwise distinct (Python dicts cannot hold
duplicate keys; the association list of the embedding keeps that invariant
along every run). -/
def blKeysNodup (w : Warehouse) : Prop :=
  (w.box_locations.map Prod.fst).Nodup

/-- Agent ids are pairwise distinct (they are `range(num_agents)` at
initialization and never change). -/
def idsNodup (w : Warehouse) : Prop :=
  (w.agents.map Agent.id).Nodup

/-- The bundle of bookkeeping invariants for item conservation. -/
def consInv (w : Warehouse) : Prop :=
  blKeysNodup w ∧ idsNodup w

/-- The id and coordinate of every agent, in list order. -/
def aposOf (w : Warehouse) : List (Nat × Int × Int) :=
  w.agents.map (fun a => (a.id, a.x, a.y))

/-- The grid-consistency invariant: agent ids are distinct, every agent
stands on an in-bounds cell, and the grid stores the agent marker `3 + id`
at each agent's coordinate. -/
def invCore (w : Warehouse) : Prop :=
  idsNodup w ∧
    ∀ t ∈ aposOf w, w.is_valid_position t.2.1 t.2.2 = true ∧
      w.grid (t.2.1, t.2.2) = 3 + t.1

/-- `cshape w w'`: the conserved-count footprint is unchanged between `w` and
`w'` (stacks, number of carrying agents, agent id list). -/
def cshape (w w' : Warehouse) : Prop :=
  w'.box_locations = w.box_locations ∧ carriedCount w' = carriedCount w ∧
    idsOf w' = idsOf w

/-- The carry/state footprint of every agent: id, carrying flag and state, in
list order. -/
def cslOf (w : Warehouse) : List (Nat × Bool × AgentState) :=
  w.agents.map (fun a => (a.id, a.carrying_box, a.state))

/-- C9's invariant as a predicate on warehouses: every agent in the
`DELIVERING` state is carrying a box. -/
def delivering_implies_carrying (w : Warehouse) : Prop :=
  ∀ a ∈ w.agents, a.state = AgentState.DELIVERING → a.carrying_box = true

/-- The same invariant read off the carry/state footprint. -/
def delivInv (w : Warehouse) : Prop :=
  ∀ t ∈ cslOf w, t.2.2 = AgentState.DELIVERING → t.2.1 = true

/-- The invariant away from agent `i` (the form that survives while agent `i`
is mid-update inside one turn). -/
def delivExcept (w : Warehouse) (i : Nat) : Prop :=
  ∀ t ∈ cslOf w, t.1 ≠ i → t.2.2 = AgentState.DELIVERING → t.2.1 = true

/-- Every agent with id `i` is carrying a box. -/
def carryAt (w : Warehouse) (i : Nat) : Prop :=
  ∀ t ∈ cslOf w, t.1 = i → t.2.1 = true

/-- A crafted delivering agent for exercising the `DELIVERING` fallback of
`decide_action`: it carries box 5 while standing at (1, 1). -/
def c6agent : Agent :=
  { id := 0, x := 1, y := 1, carrying_box := true, carried_box_id := some 5,
    movements := 0, state := AgentState.DELIVERING, target := none, path := [],
    known_unassigned_boxes := [], sensor_range := 3, communication_range := 8,
    messages := [], claimed_targets := [] }

/-- A 3×3 warehouse whose single interior cell (1, 1) holds a full stack of
five boxes with the delivering agent standing on top of it: every shelf
candidate list is empty and `can_place_box` refuses the agent's own cell. -/
def c6w : Warehouse :=
  { width := 3, height := 3, num_boxes := 6, num_agents := 1,
    grid := fun p => if p = (1, 1) then 3 else initGrid 3 3 p,
    agents := [c6agent],
    boxes := [(0, ⟨0, 1, 1, true, 5⟩), (1, ⟨1, 1, 1, true, 5⟩), (2, ⟨2, 1, 1, true, 5⟩),
      (3, ⟨3, 1, 1, true, 5⟩), (4, ⟨4, 1, 1, true, 5⟩), (5, ⟨5, 1, 1, false, 1⟩)],
    box_locations := [((1, 1), [0, 1, 2, 3, 4])],
    processed_boxes := [], agent_deliveries := [(0, 0)] }

/-- The BOX_DISCOVERED message agent `i` broadcasts for a freshly sensed
single box at `p`. -/
def msgOfDiscovery (i : Nat) (p : Pos) : Message :=
  { type := MsgType.BOX_DISCOVERED, position := p, from_agent := i }

/-- The effect of one sensing pass of agent `i` on one agent record, given
the sensing agent's state `st`, coordinate `(sx, sy)`, communication range
`cr` and list of newly discovered coordinates: the sensing agent itself logs
the coordinates locally; every other agent within range receives exactly one
BOX_DISCOVERED message per coordinate — and only when the sensing agent is
SEARCHING. -/
def sensedAgent (i : Nat) (st : AgentState) (sx sy : Int) (cr : Nat)
    (newly : List Pos) (b : Agent) : Agent :=
  let k := b.known_unassigned_boxes ++ (if b.id = i then newly else [])
  let m := b.messages ++
    (if b.id ≠ i ∧ st = AgentState.SEARCHING ∧
        (b.x - sx).natAbs + (b.y - sy).natAbs ≤ cr
     then newly.map (msgOfDiscovery i) else [])
  { b with known_unassigned_boxes := k, messages := m }

/-- The whole-warehouse effect of one sensing pass of agent `i` (applied to
every agent record). -/
def sensedView (w : Warehouse) (i : Nat) (st : AgentState) (sx sy : Int)
    (cr : Nat) (newly : List Pos) : Warehouse :=
  { w with agents := w.agents.map (sensedAgent i st sx sy cr newly) }

/-- The index of a direction in the fixed enumeration up, down, left,
right of the source (`directions`). -/
def dirIdx (d : Pos) : Nat :=
  if d = (0, -1) then 0
  else if d = (0, 1) then 1
  else if d = (-1, 0) then 2
  else 3

/-- Lexicographic strict order on direction sequences by `dirIdx`
(compared position by position; used only on sequences of equal length). -/
def lexLtB : List Pos → List Pos → Bool
  | _, [] => false
  | [], _ :: _ => true
  | a :: as, b :: bs =>
    decide (dirIdx a < dirIdx b) || (dirIdx a == dirIdx b && lexLtB as bs)

/-- The strict order in which BFS discovers paths: shorter first, and among
equal lengths the one earlier in the direction enumeration order. -/
def pathLtB (p q : List Pos) : Bool :=
  decide (p.length < q.length) || (p.length == q.length && lexLtB p q)

/-- Reflexive closure of `pathLtB`. -/
def pathLeB (p q : List Pos) : Bool :=
  pathLtB p q || decide (p = q)

/-- One unit step from a position. -/
def stepPos (p d : Pos) : Pos :=
  (p.1 + d.1, p.2 + d.2)

/-- A cell the BFS of `find_path_to` may enter: in bounds and empty, a box,
or the target itself. -/
def okPos (w : Warehouse) (tgt p : Pos) : Prop :=
  w.is_valid_position p.1 p.2 = true ∧ (w.grid p = 0 ∨ w.grid p = 2 ∨ p = tgt)

/-- A cell the BFS may pass through without stopping: in bounds, empty or a
box, and not the target. -/
def freePos (w : Warehouse) (tgt p : Pos) : Prop :=
  w.is_valid_position p.1 p.2 = true ∧ (w.grid p = 0 ∨ w.grid p = 2) ∧ p ≠ tgt

/-- The claim's notion of a 4-connected route: a sequence of unit direction
steps from `s` whose every visited cell is Empty, Box or the target, ending
at the stated position.  (Spec-side definition, against which the BFS result
is compared.) -/
inductive OkPath (w : Warehouse) (tgt s : Pos) : Pos → List Pos → Prop
  | nil : OkPath w tgt s s []
  | snoc {m : Pos} {q : List Pos} {d : Pos} :
      OkPath w tgt s m q → d ∈ directions → okPos w tgt (stepPos m d) →
      OkPath w tgt s (stepPos m d) (q ++ [d])

/-- A route that never touches the target before its end: what the BFS
frontier traverses. -/
inductive FreePath (w : Warehouse) (tgt s : Pos) : Pos → List Pos → Prop
  | nil : FreePath w tgt s s []
  | snoc {m : Pos} {q : List Pos} {d : Pos} :
      FreePath w tgt s m q → d ∈ directions → freePos w tgt (stepPos m d) →
      FreePath w tgt s (stepPos m d) (q ++ [d])

/-- The enqueue condition of one BFS expansion step: the neighbour in
direction `d` of `n0` is fresh, in bounds, an enterable non-target cell. -/
def enqCond (w : Warehouse) (tgt n0 : Pos) (Vc : List Pos) (d : Pos) : Bool :=
  decide ((n0.1 + d.1, n0.2 + d.2) ∉ Vc) &&
    w.is_valid_position (n0.1 + d.1) (n0.2 + d.2) &&
    (decide (w.grid (n0.1 + d.1, n0.2 + d.2) = 0) ||
      decide (w.grid (n0.1 + d.1, n0.2 + d.2) = 2)) &&
    decide ((n0.1 + d.1, n0.2 + d.2) ≠ tgt)

/-- The invariant of the BFS loop of `find_path_to`, tying the queue `Q` and
the visited list `V` (for a search from `s` towards `tgt`). -/
structure BfsInv (w : Warehouse) (tgt s : Pos) (Q : List BfsEntry) (V : List Pos) : Prop where
  entries : ∀ e ∈ Q, FreePath w tgt s e.1 e.2
  entriesV : ∀ e ∈ Q, e.1 ∈ V
  sorted : List.Pairwise (fun e1 e2 => pathLtB e1.2 e2.2 = true) Q
  bound : ∀ e ∈ Q, ∀ e' ∈ Q, ∀ d ∈ directions, pathLtB e'.2 (e.2 ++ [d]) = true
  minimal : ∀ e ∈ Q, ∀ q, FreePath w tgt s e.1 q → pathLeB e.2 q = true
  tgtV : tgt ∉ V
  sV : s ∈ V
  nodupV : V.Nodup
  validV : ∀ v ∈ V, w.is_valid_position v.1 v.2 = true
  nodupQ : (Q.map Prod.fst).Nodup
  closure : ∀ m ∈ V, (∀ e ∈ Q, e.1 ≠ m) → ∀ d ∈ directions,
    w.is_valid_position (stepPos m d).1 (stepPos m d).2 = true →
    stepPos m d ≠ tgt ∧
      ((w.grid (stepPos m d) = 0 ∨ w.grid (stepPos m d) = 2) → stepPos m d ∈ V)

/-! ## Association-list and agent-list lemmas -/

theorem alGet?_alSet_self {κ ν : Type} [DecidableEq κ] (k : κ) (v : ν) (l : List (κ × ν)) :
    alGet? k (alSet k v l) = some v := by
  induction l with
  | nil => simp [alGet?, alSet]
  | cons e rest ih =>
    by_cases h : e.1 = k
    · simp [alGet?, alSet, h]
    · simp [alGet?, alSet, h, ih]

theorem alGet?_alSet_ne {κ ν : Type} [DecidableEq κ] {k k' : κ} (v : ν) (l : List (κ × ν))
    (h : k' ≠ k) : alGet? k' (alSet k v l) = alGet? k' l := by
  have hkk' : ¬ (k = k') := fun he => h he.symm
  induction l with
  | nil => simp [alGet?, alSet, hkk']
  | cons e rest ih =>
    obtain ⟨ek, ev⟩ := e
    by_cases he : ek = k
    · have he' : ¬ (ek = k') := by
        rw [he]; exact hkk'
      simp [alGet?, alSet, he, he', hkk']
    · simp [alGet?, alSet, he, ih]

theorem findAgent_map (l : List Agent) (i : Nat) (g : Agent → Agent)
    (h : ∀ a, (g a).id = a.id) :
    (l.map g).find? (fun a => a.id == i) = (l.find? (fun a => a.id == i)).map g := by
  induction l with
  | nil => rfl
  | cons a rest ih =>
    by_cases hai : a.id = i
    · simp [List.find?, h, hai]
    · have hb : (a.id == i) = false := by simp [hai]
      simp [List.find?, h, hb, ih]

theorem getAgent?_agents_map (w : Warehouse) (i : Nat) (g : Agent → Agent)
    (h : ∀ a, (g a).id = a.id) :
    getAgent? { w with agents := w.agents.map g } i = (getAgent? w i).map g := by
  unfold getAgent?
  exact findAgent_map w.agents i g h

theorem getAgent?_updAgent_self (w : Warehouse) (i : Nat) (f : Agent → Agent)
    (h : ∀ a, (f a).id = a.id) :
    getAgent? (updAgent w i f) i =
      (getAgent? w i).map (fun a => if a.id = i then f a else a) := by
  unfold updAgent
  exact getAgent?_agents_map w i _ (fun a => by by_cases hai : a.id = i <;> simp [hai, h])

theorem getAgent?_id {w : Warehouse} {i : Nat} {a : Agent} (ha : getAgent? w i = some a) :
    a.id = i := by
  unfold getAgent? at ha
  have := List.find?_some ha
  simpa using this

theorem place_box_agents (w : Warehouse) (x y : Int) (bid : Nat) (aid : Option Nat) :
    (w.place_box x y bid aid).agents = w.agents := by
  cases aid <;> by_cases h : w.grid (x, y) < 3 <;> simp [Warehouse.place_box, h]

theorem place_box_box_locations (w : Warehouse) (x y : Int) (bid : Nat) (aid : Option Nat) :
    (w.place_box x y bid aid).box_locations =
      alSet (x, y) ((alGet? (x, y) w.box_locations).getD [] ++ [bid]) w.box_locations := by
  unfold Warehouse.place_box
  cases aid <;> by_cases h : w.grid (x, y) < 3 <;> simp [h]

/-! ## Claim theorems: placement legality and drop atomicity -/

/-- C8: for every in-bounds position and every agent id, `can_place_box`
returns true if and only if the stack depth there is strictly below the
capacity 5 and the cell is not an agent marker of a different agent; in
particular placing onto the cell marked with the placing agent's own marker
is legal. -/
theorem C8_can_place_box_iff (w : Warehouse) (x y : Int) (agent_id : Nat)
    (hv : w.is_valid_position x y = true) :
    w.can_place_box x y agent_id = true ↔
      (w.count_stack_size x y < 5 ∧
        (3 ≤ w.grid (x, y) → w.grid (x, y) = 3 + agent_id)) := by
  clear hv
  unfold Warehouse.can_place_box
  by_cases h5 : w.count_stack_size x y ≥ 5
  · rw [if_pos h5]
    constructor
    · intro h
      cases h
    · rintro ⟨h, -⟩
      omega
  · rw [if_neg h5]
    by_cases h3 : w.grid (x, y) ≥ 3
    · rw [if_pos h3, beq_iff_eq]
      constructor
      · intro h
        exact ⟨by omega, fun _ => by omega⟩
      · rintro ⟨-, h⟩
        have := h h3
        omega
    · rw [if_neg h3]
      constructor
      · intro _
        exact ⟨by omega, fun hc => absurd hc h3⟩
      · intro _
        rfl

/-- Witness for C8 at a concrete input: the agent's own cell (1,1) of
`sampleW` (marker 3, empty stack) is a legal placement for agent 0. -/
theorem C8_can_place_box_iff_witness :
    sampleW.is_valid_position 1 1 = true ∧
      (sampleW.can_place_box 1 1 0 = true ↔
        (sampleW.count_stack_size 1 1 < 5 ∧
          (3 ≤ sampleW.grid (1, 1) → sampleW.grid (1, 1) = 3 + 0))) :=
  ⟨by decide, C8_can_place_box_iff sampleW 1 1 0 (by decide)⟩

/-- C10: `drop_box` is atomic.  Called while not carrying, or while
`can_place_box` fails at the agent's cell, it returns `False` and leaves the
whole warehouse (grid, stacks, boxes, counters, agent flags) unchanged; when
it returns `True` the carried box is appended to the stack at the agent's
coordinate and the agent stops carrying. -/
theorem C10_drop_box_atomic (w : Warehouse) (i : Nat) (a : Agent)
    (ha : getAgent? w i = some a) :
    (a.carrying_box = false → Agent.drop_box w i = (w, false)) ∧
    (w.can_place_box a.x a.y a.id = false → Agent.drop_box w i = (w, false)) ∧
    (a.carrying_box = true → w.can_place_box a.x a.y a.id = true →
      ∀ bid, a.carried_box_id = some bid →
        (Agent.drop_box w i).2 = true ∧
        alGet? (a.x, a.y) (Agent.drop_box w i).1.box_locations =
          some ((alGet? (a.x, a.y) w.box_locations).getD [] ++ [bid]) ∧
        ∃ a2, getAgent? (Agent.drop_box w i).1 i = some a2 ∧
          a2.carrying_box = false ∧ a2.carried_box_id = none) := by
  refine ⟨?_, ?_, ?_⟩
  · intro hcb
    simp [Agent.drop_box, ha, hcb]
  · intro hcp
    by_cases hcb : a.carrying_box
    · simp [Agent.drop_box, ha, hcb, hcp]
    · simp [Agent.drop_box, ha, hcb]
  · intro hcb hcp bid hbid
    have hdrop : Agent.drop_box w i =
        (updAgent (w.place_box a.x a.y bid (some a.id)) i
          (fun b => { b with carrying_box := false, carried_box_id := none }), true) := by
      simp [Agent.drop_box, ha, hcb, hcp, hbid]
    rw [hdrop]
    refine ⟨rfl, ?_, ?_⟩
    · show alGet? (a.x, a.y) (updAgent (w.place_box a.x a.y bid (some a.id)) i _).box_locations = _
      have hbl : (updAgent (w.place_box a.x a.y bid (some a.id)) i
          (fun b => { b with carrying_box := false, carried_box_id := none })).box_locations
          = (w.place_box a.x a.y bid (some a.id)).box_locations := rfl
      rw [hbl, place_box_box_locations]
      exact alGet?_alSet_self _ _ _
    · have hag : getAgent? (w.place_box a.x a.y bid (some a.id)) i = some a := by
        have heq : getAgent? (w.place_box a.x a.y bid (some a.id)) i = getAgent? w i := by
          unfold getAgent?
          rw [place_box_agents]
        rw [heq, ha]
      have hid : a.id = i := getAgent?_id ha
      have hfin := getAgent?_updAgent_self (w.place_box a.x a.y bid (some a.id))
        i (fun b => { b with carrying_box := false, carried_box_id := none }) (fun _ => rfl)
      rw [hag] at hfin
      refine ⟨{ a with carrying_box := false, carried_box_id := none }, ?_, rfl, rfl⟩
      rw [hfin]
      simp [hid]

/-- Witness for C10 at a concrete state: the carrying agent of `sampleCarry`
successfully drops box 1 onto its own cell (1,1). -/
theorem C10_drop_box_atomic_witness :
    (Agent.drop_box sampleCarry 0).2 = true ∧
    alGet? (1, 1) (Agent.drop_box sampleCarry 0).1.box_locations = some [1] ∧
    ∃ a2, getAgent? (Agent.drop_box sampleCarry 0).1 0 = some a2 ∧
      a2.carrying_box = false ∧ a2.carried_box_id = none := by
  have h := (C10_drop_box_atomic sampleCarry 0 sampleCarryAgent (by decide)).2.2
    (by decide) (by decide) 1 (by decide)
  exact ⟨h.1, by simpa using h.2.1, h.2.2⟩

/-! ## Every turn factors through the primitive step relation -/

theorem Steps.rfl {w : Warehouse} : Steps w w :=
  Relation.ReflTransGen.refl

theorem Steps.one {w w' : Warehouse} (h : Prim w w') : Steps w w' :=
  Relation.ReflTransGen.single h

theorem Steps.comp {w1 w2 w3 : Warehouse} (h : Steps w1 w2) (h' : Steps w2 w3) :
    Steps w1 w3 :=
  Relation.ReflTransGen.trans h h'

theorem steps_agents_map (w : Warehouse) (g : Agent → Agent)
    (h : ∀ a, agentPhys (g a) = agentPhys a) :
    Steps w { w with agents := w.agents.map g } :=
  Steps.one (Prim.agents g h)

theorem steps_updAgent (w : Warehouse) (i : Nat) (f : Agent → Agent)
    (h : ∀ a, a.id = i → agentPhys (f a) = agentPhys a) :
    Steps w (updAgent w i f) := by
  refine Steps.one (Prim.agents (fun a => if a.id = i then f a else a) ?_)
  intro a
  by_cases hai : a.id = i
  · simpa [hai] using h a hai
  · simp [hai]

theorem steps_broadcast (w : Warehouse) (i : Nat) (m : Message) :
    Steps w (Agent.broadcast_message w i m) := by
  unfold Agent.broadcast_message
  cases hg : getAgent? w i with
  | none => exact Steps.rfl
  | some self =>
    refine steps_agents_map w _ ?_
    intro a
    by_cases h1 : a.id ≠ i
    · by_cases h2 : (a.x - self.x).natAbs + (a.y - self.y).natAbs ≤ self.communication_range
      · simp [h1, h2, Agent.receive_message, agentPhys]
      · simp [h1, h2]
    · simp [h1]

theorem steps_process_messages (w : Warehouse) (i : Nat) :
    Steps w (updAgent w i Agent.process_messages) :=
  steps_updAgent w i _ (fun a _ => rfl)

theorem steps_claim_target (w : Warehouse) (i : Nat) (p : Pos) :
    Steps w (Agent.claim_target w i p) := by
  unfold Agent.claim_target
  exact Steps.comp
    (steps_updAgent w i (fun a => { a with claimed_targets := alSet p a.id a.claimed_targets })
      (fun a _ => rfl))
    (steps_broadcast _ i _)

theorem steps_release_target (w : Warehouse) (i : Nat) (p : Pos) :
    Steps w (Agent.release_target w i p) := by
  unfold Agent.release_target
  cases hg : getAgent? w i with
  | none => exact Steps.rfl
  | some a =>
    dsimp only
    by_cases hc : alGet? p a.claimed_targets = some i
    · rw [if_pos hc]
      exact Steps.comp
        (steps_updAgent w i (fun b => { b with claimed_targets := alErase p b.claimed_targets })
          (fun a _ => rfl))
        (steps_broadcast _ i _)
    · rw [if_neg hc]
      exact Steps.rfl

theorem steps_pick_up_box (w : Warehouse) (i : Nat) (x y : Int) :
    Steps w (Agent.pick_up_box w i x y).1 :=
  Steps.one (Prim.pick i x y)

theorem steps_drop_box (w : Warehouse) (i : Nat) :
    Steps w (Agent.drop_box w i).1 :=
  Steps.one (Prim.drop i)

theorem steps_move (w : Warehouse) (i : Nat) (d : Pos) :
    Steps w (Agent.move w i d).1 :=
  Steps.one (Prim.mv i d)

theorem steps_to_updAgent {w w' : Warehouse} (i : Nat) (f : Agent → Agent)
    (h : Steps w w') (hf : ∀ a, a.id = i → agentPhys (f a) = agentPhys a) :
    Steps w (updAgent w' i f) :=
  Steps.comp h (steps_updAgent w' i f hf)

theorem steps_to_broadcast {w w' : Warehouse} (i : Nat) (m : Message)
    (h : Steps w w') : Steps w (Agent.broadcast_message w' i m) :=
  Steps.comp h (steps_broadcast w' i m)

theorem steps_to_claim {w w' : Warehouse} (i : Nat) (p : Pos) (h : Steps w w') :
    Steps w (Agent.claim_target w' i p) :=
  Steps.comp h (steps_claim_target w' i p)

theorem steps_to_release {w w' : Warehouse} (i : Nat) (p : Pos) (h : Steps w w') :
    Steps w (Agent.release_target w' i p) :=
  Steps.comp h (steps_release_target w' i p)

theorem steps_to_pick {w w' : Warehouse} (i : Nat) (x y : Int) (h : Steps w w') :
    Steps w (Agent.pick_up_box w' i x y).1 :=
  Steps.comp h (steps_pick_up_box w' i x y)

theorem steps_to_drop {w w' : Warehouse} (i : Nat) (h : Steps w w') :
    Steps w (Agent.drop_box w' i).1 :=
  Steps.comp h (steps_drop_box w' i)

theorem steps_to_move {w w' : Warehouse} (i : Nat) (d : Pos) (h : Steps w w') :
    Steps w (Agent.move w' i d).1 :=
  Steps.comp h (steps_move w' i d)

theorem steps_senseRay (i : Nat) (d : Pos) (dists : List Nat) (w : Warehouse) :
    Steps w (senseRay i d dists w) := by
  induction dists generalizing w with
  | nil => exact Steps.rfl
  | cons dist rest ih =>
    rw [senseRay]
    cases hg : getAgent? w i with
    | none => exact Steps.rfl
    | some a =>
      dsimp only
      by_cases hval : ¬ w.is_valid_position (a.x + d.1 * (dist : Int)) (a.y + d.2 * (dist : Int))
      · rw [if_pos hval]
        exact Steps.rfl
      · rw [if_neg hval]
        by_cases hwall : w.get_cell_type (a.x + d.1 * (dist : Int)) (a.y + d.2 * (dist : Int)) = "wall"
        · rw [if_pos hwall]
          exact Steps.rfl
        · rw [if_neg hwall]
          refine Steps.comp ?_ (ih _)
          split
          · split
            · split
              · split
                · exact steps_to_broadcast _ _ (steps_to_updAgent _ _ Steps.rfl (fun a _ => rfl))
                · exact steps_to_updAgent _ _ Steps.rfl (fun a _ => rfl)
              · exact Steps.rfl
            · exact Steps.rfl
          · exact Steps.rfl

theorem steps_foldl {α : Type} (f : Warehouse → α → Warehouse) (l : List α)
    (h : ∀ w a, Steps w (f w a)) (w : Warehouse) :
    Steps w (l.foldl f w) := by
  induction l generalizing w with
  | nil => exact Steps.rfl
  | cons x xs ih => exact Steps.comp (h w x) (ih _)

theorem steps_sense (w : Warehouse) (i : Nat) :
    Steps w (Agent.sense_environment w i) := by
  unfold Agent.sense_environment
  cases hg : getAgent? w i with
  | none => exact Steps.rfl
  | some a =>
    dsimp only
    exact steps_foldl _ _ (fun w d => steps_senseRay i d _ w) w

theorem steps_to_sense {w w' : Warehouse} (i : Nat) (h : Steps w w') :
    Steps w (Agent.sense_environment w' i) :=
  Steps.comp h (steps_sense w' i)

theorem steps_retarget (w : Warehouse) (i : Nat) (kb : Pos) :
    Steps w (Agent.retarget w i kb) := by
  unfold Agent.retarget
  dsimp only
  cases hg : getAgent? (Agent.claim_target w i kb) i with
  | none => exact steps_claim_target w i kb
  | some a2 =>
    dsimp only
    exact steps_to_updAgent _ _ (steps_claim_target w i kb) (fun a _ => rfl)

theorem steps_to_retarget {w w' : Warehouse} (i : Nat) (kb : Pos) (h : Steps w w') :
    Steps w (Agent.retarget w' i kb) :=
  Steps.comp h (steps_retarget w' i kb)

theorem steps_decide_searching (w : Warehouse) (i : Nat) (a : Agent)
    (j : Bool) (sp : Pos) : Steps w (Agent.decide_searching w i a j sp) := by
  unfold Agent.decide_searching
  dsimp only
  split
  · exact steps_to_retarget _ _
      (steps_to_updAgent _ _ (steps_to_updAgent _ _ Steps.rfl (fun a _ => rfl)) (fun a _ => rfl))
  · split
    · cases hg : getAgent? (updAgent (updAgent w i _) i _) i with
      | none => exact steps_to_updAgent _ _ (steps_to_updAgent _ _ Steps.rfl (fun a _ => rfl)) (fun a _ => rfl)
      | some a2 =>
        dsimp only
        exact steps_to_updAgent _ _
          (steps_to_updAgent _ _ (steps_to_updAgent _ _ Steps.rfl (fun a _ => rfl)) (fun a _ => rfl))
          (fun a _ => rfl)
    · exact steps_to_updAgent _ _ Steps.rfl (fun a _ => rfl)

theorem steps_decide_delivering (w : Warehouse) (i : Nat) (a : Agent) :
    Steps w (Agent.decide_delivering w i a) := by
  unfold Agent.decide_delivering
  dsimp only
  split
  · split
    · refine steps_to_retarget _ _ (steps_to_updAgent _ _ ?_ (fun a _ => rfl))
      split
      · exact steps_release_target _ i _
      · exact Steps.rfl
    · split
      · exact steps_to_updAgent _ _ Steps.rfl (fun a _ => rfl)
      · exact Steps.rfl
  · exact steps_to_updAgent _ _ (steps_drop_box w i) (fun a _ => rfl)

theorem steps_decide_picking_up (w : Warehouse) (i : Nat) (a : Agent) :
    Steps w (Agent.decide_picking_up w i a) := by
  unfold Agent.decide_picking_up
  dsimp only
  split
  · split
    · exact steps_to_updAgent _ _ Steps.rfl (fun a _ => rfl)
    · exact Steps.rfl
  · have h3 : Steps w (match a.target with
        | some t => Agent.release_target w i t
        | none => w) := by
      split
      · exact steps_release_target _ i _
      · exact Steps.rfl
    split
    · exact h3
    · split
      · exact steps_to_retarget _ _
          (steps_to_updAgent _ _ (steps_to_updAgent _ _ h3 (fun a _ => rfl)) (fun a _ => rfl))
      · exact steps_to_updAgent _ _ (steps_to_updAgent _ _ h3 (fun a _ => rfl)) (fun a _ => rfl)

theorem steps_decide_action (w : Warehouse) (i : Nat) (j : Bool) (sp : Pos) :
    Steps w (Agent.decide_action w i j sp) := by
  unfold Agent.decide_action
  dsimp only
  have base : Steps w (Agent.sense_environment (updAgent w i Agent.process_messages) i) :=
    steps_to_sense i (steps_process_messages w i)
  split
  · exact base
  · split
    · exact Steps.comp base (steps_decide_searching _ i _ j sp)
    · exact Steps.comp base (steps_decide_delivering _ i _)
    · exact Steps.comp base (steps_decide_picking_up _ i _)

theorem steps_execute_arrival (w : Warehouse) (i : Nat) (a2 : Agent) (tgt : Pos) :
    Steps w (Agent.execute_arrival w i a2 tgt) := by
  unfold Agent.execute_arrival
  dsimp only
  split
  · exact steps_to_updAgent _ _ (steps_to_release _ _ (steps_pick_up_box w i _ _)) (fun a _ => rfl)
  · have h5 : Steps w (updAgent (Agent.release_target (Agent.drop_box w i).1 i tgt) i
        (fun b => { b with target := none })) :=
      steps_to_updAgent _ _ (steps_to_release _ _ (steps_drop_box w i)) (fun a _ => rfl)
    split
    · exact h5
    · split
      · exact steps_to_retarget _ _
          (steps_to_updAgent _ _ (steps_to_updAgent _ _ h5 (fun a _ => rfl)) (fun a _ => rfl))
      · exact steps_to_updAgent _ _ (steps_to_updAgent _ _ h5 (fun a _ => rfl)) (fun a _ => rfl)
  · exact steps_to_updAgent _ _ Steps.rfl (fun a _ => rfl)

theorem steps_execute_action (w : Warehouse) (i : Nat) :
    Steps w (Agent.execute_action w i) := by
  unfold Agent.execute_action
  dsimp only
  split
  · exact Steps.rfl
  · split
    · exact steps_sense _ i
    · rename_i a direction restPath heq
      have hmv : Steps w (if ¬ (Agent.move (updAgent w i fun b => { b with path := restPath }) i direction).2
          then updAgent (Agent.move (updAgent w i fun b => { b with path := restPath }) i direction).1 i
            (fun b => { b with path := [] })
          else (Agent.move (updAgent w i fun b => { b with path := restPath }) i direction).1) := by
        split
        · exact steps_to_updAgent _ _
            (steps_to_move _ _ (steps_to_updAgent _ _ Steps.rfl (fun a _ => rfl))) (fun a _ => rfl)
        · exact steps_to_move _ _ (steps_to_updAgent _ _ Steps.rfl (fun a _ => rfl))
      split
      · exact hmv
      · split
        · exact hmv
        · split
          · exact Steps.comp hmv (steps_execute_arrival _ i _ _)
          · exact hmv

theorem steps_turn (w : Warehouse) (i : Nat) (j : Bool) (sp : Pos) :
    Steps w (turn w i j sp) :=
  Steps.comp (steps_decide_action w i j sp) (steps_execute_action _ i)

/-! ## Knowledge-shape lemmas -/

theorem kshape_refl (w : Warehouse) : kshape w w :=
  ⟨rfl, rfl, rfl, rfl, rfl⟩

theorem kshape_trans {w1 w2 w3 : Warehouse} (h : kshape w1 w2) (h' : kshape w2 w3) :
    kshape w1 w3 :=
  ⟨h'.1.trans h.1, h'.2.1.trans h.2.1, h'.2.2.1.trans h.2.2.1,
    h'.2.2.2.1.trans h.2.2.2.1, h'.2.2.2.2.trans h.2.2.2.2⟩

theorem kshape_agents_map (w : Warehouse) (g : Agent → Agent)
    (h : ∀ a, agentCore (g a) = agentCore a) :
    kshape w { w with agents := w.agents.map g } := by
  refine ⟨rfl, rfl, rfl, rfl, ?_⟩
  simp [List.map_map, Function.comp_def, h]

theorem kshape_updAgent (w : Warehouse) (i : Nat) (f : Agent → Agent)
    (h : ∀ a, a.id = i → agentCore (f a) = agentCore a) :
    kshape w (updAgent w i f) := by
  refine kshape_agents_map w _ ?_
  intro a
  by_cases hai : a.id = i
  · simpa [hai] using h a hai
  · simp [hai]

theorem kshape_broadcast (w : Warehouse) (i : Nat) (m : Message) :
    kshape w (Agent.broadcast_message w i m) := by
  unfold Agent.broadcast_message
  cases hg : getAgent? w i with
  | none => exact kshape_refl w
  | some self =>
    refine kshape_agents_map w _ ?_
    intro a
    by_cases h1 : a.id ≠ i
    · by_cases h2 : (a.x - self.x).natAbs + (a.y - self.y).natAbs ≤ self.communication_range
      · simp [h1, h2, Agent.receive_message, agentCore]
      · simp [h1, h2]
    · simp [h1]

theorem kshape_to_broadcast {w w' : Warehouse} (i : Nat) (m : Message)
    (h : kshape w w') : kshape w (Agent.broadcast_message w' i m) :=
  kshape_trans h (kshape_broadcast w' i m)

theorem kshape_to_updAgent {w w' : Warehouse} (i : Nat) (f : Agent → Agent)
    (h : kshape w w') (hf : ∀ a, a.id = i → agentCore (f a) = agentCore a) :
    kshape w (updAgent w' i f) :=
  kshape_trans h (kshape_updAgent w' i f hf)

theorem kshape_claim (w : Warehouse) (i : Nat) (p : Pos) :
    kshape w (Agent.claim_target w i p) := by
  unfold Agent.claim_target
  exact kshape_to_broadcast _ _ (kshape_updAgent w i _ (fun a _ => rfl))

theorem kshape_release (w : Warehouse) (i : Nat) (p : Pos) :
    kshape w (Agent.release_target w i p) := by
  unfold Agent.release_target
  cases hg : getAgent? w i with
  | none => exact kshape_refl w
  | some a =>
    dsimp only
    split
    · exact kshape_to_broadcast _ _ (kshape_updAgent w i _ (fun a _ => rfl))
    · exact kshape_refl w

theorem kshape_retarget (w : Warehouse) (i : Nat) (kb : Pos) :
    kshape w (Agent.retarget w i kb) := by
  unfold Agent.retarget
  dsimp only
  cases hg : getAgent? (Agent.claim_target w i kb) i with
  | none => exact kshape_claim w i kb
  | some a2 =>
    dsimp only
    exact kshape_to_updAgent _ _ (kshape_claim w i kb) (fun a _ => rfl)

theorem kshape_senseRay (i : Nat) (d : Pos) (dists : List Nat) (w : Warehouse) :
    kshape w (senseRay i d dists w) := by
  induction dists generalizing w with
  | nil => exact kshape_refl w
  | cons dist rest ih =>
    rw [senseRay]
    cases hg : getAgent? w i with
    | none => exact kshape_refl w
    | some a =>
      dsimp only
      by_cases hval : ¬ w.is_valid_position (a.x + d.1 * (dist : Int)) (a.y + d.2 * (dist : Int))
      · rw [if_pos hval]
        exact kshape_refl w
      · rw [if_neg hval]
        by_cases hwall : w.get_cell_type (a.x + d.1 * (dist : Int)) (a.y + d.2 * (dist : Int)) = "wall"
        · rw [if_pos hwall]
          exact kshape_refl w
        · rw [if_neg hwall]
          refine kshape_trans ?_ (ih _)
          split
          · split
            · split
              · split
                · exact kshape_to_broadcast _ _ (kshape_updAgent _ _ _ (fun a _ => rfl))
                · exact kshape_updAgent _ _ _ (fun a _ => rfl)
              · exact kshape_refl w
            · exact kshape_refl w
          · exact kshape_refl w

theorem kshape_foldl {α : Type} (f : Warehouse → α → Warehouse) (l : List α)
    (h : ∀ w a, kshape w (f w a)) (w : Warehouse) :
    kshape w (l.foldl f w) := by
  induction l generalizing w with
  | nil => exact kshape_refl w
  | cons x xs ih => exact kshape_trans (h w x) (ih _)

theorem kshape_sense (w : Warehouse) (i : Nat) :
    kshape w (Agent.sense_environment w i) := by
  unfold Agent.sense_environment
  cases hg : getAgent? w i with
  | none => exact kshape_refl w
  | some a =>
    dsimp only
    exact kshape_foldl _ _ (fun w d => kshape_senseRay i d _ w) w

/-! ## Stack-capacity invariant (C2) -/

theorem alErase_cons_self {κ ν : Type} [DecidableEq κ] {k ek : κ} (ev : ν)
    (rest : List (κ × ν)) (he : ek = k) :
    alErase k ((ek, ev) :: rest) = alErase k rest := by
  simp [alErase, he]

theorem alErase_cons_ne {κ ν : Type} [DecidableEq κ] {k ek : κ} (ev : ν)
    (rest : List (κ × ν)) (he : ¬ ek = k) :
    alErase k ((ek, ev) :: rest) = (ek, ev) :: alErase k rest := by
  simp [alErase, he]

theorem alGet?_alErase_self {κ ν : Type} [DecidableEq κ] (k : κ) (l : List (κ × ν)) :
    alGet? k (alErase k l) = none := by
  induction l with
  | nil => rfl
  | cons e rest ih =>
    obtain ⟨ek, ev⟩ := e
    by_cases he : ek = k
    · rw [alErase_cons_self ev rest he, ih]
    · rw [alErase_cons_ne ev rest he]
      simp [alGet?, he, ih]

theorem alGet?_alErase_ne {κ ν : Type} [DecidableEq κ] {k k' : κ} (l : List (κ × ν))
    (h : k' ≠ k) : alGet? k' (alErase k l) = alGet? k' l := by
  induction l with
  | nil => rfl
  | cons e rest ih =>
    obtain ⟨ek, ev⟩ := e
    by_cases he : ek = k
    · have he' : ¬ (ek = k') := by
        rw [he]
        exact fun hh => h hh.symm
      rw [alErase_cons_self ev rest he, ih]
      simp [alGet?, he']
    · rw [alErase_cons_ne ev rest he]
      by_cases he' : ek = k'
      · simp [alGet?, he']
      · simp [alGet?, he', ih]

theorem remove_box_bl_le (w : Warehouse) (x y : Int) (p : Pos) (stack' : List Nat)
    (h : alGet? p (w.remove_box_from_grid x y).box_locations = some stack') :
    ∃ stack, alGet? p w.box_locations = some stack ∧ stack'.length ≤ stack.length := by
  unfold Warehouse.remove_box_from_grid at h
  cases hxy : alGet? (x, y) w.box_locations with
  | none =>
    rw [hxy] at h
    exact ⟨stack', h, le_rfl⟩
  | some ids =>
    cases ids with
    | nil =>
      rw [hxy] at h
      exact ⟨stack', h, le_rfl⟩
    | cons id0 ids' =>
      rw [hxy] at h
      dsimp only at h
      by_cases hrest : (id0 :: ids').dropLast = []
      · rw [if_pos hrest] at h
        by_cases hp : p = (x, y)
        · subst hp
          rw [alGet?_alErase_self] at h
          cases h
        · rw [alGet?_alErase_ne _ hp, alGet?_alSet_ne _ _ hp] at h
          exact ⟨stack', h, le_rfl⟩
      · rw [if_neg hrest] at h
        by_cases hp : p = (x, y)
        · subst hp
          rw [alGet?_alSet_self] at h
          refine ⟨id0 :: ids', hxy, ?_⟩
          have : stack' = (id0 :: ids').dropLast := by
            injection h with h
            exact h.symm
          rw [this]
          simp [List.length_dropLast]
        · rw [alGet?_alSet_ne _ _ hp] at h
          exact ⟨stack', h, le_rfl⟩

theorem broadcast_bl (w : Warehouse) (i : Nat) (m : Message) :
    (Agent.broadcast_message w i m).box_locations = w.box_locations :=
  (kshape_broadcast w i m).2.2.2.1

theorem sense_bl (w : Warehouse) (i : Nat) :
    (Agent.sense_environment w i).box_locations = w.box_locations :=
  (kshape_sense w i).2.2.2.1

theorem can_place_box_lt (w : Warehouse) (x y : Int) (i : Nat)
    (h : w.can_place_box x y i = true) : w.count_stack_size x y < 5 := by
  unfold Warehouse.can_place_box at h
  by_cases h5 : w.count_stack_size x y ≥ 5
  · rw [if_pos h5] at h
    cases h
  · omega

theorem move_bl (w : Warehouse) (i : Nat) (d : Pos) :
    (Agent.move w i d).1.box_locations = w.box_locations := by
  unfold Agent.move
  cases hg : getAgent? w i with
  | none => rfl
  | some a =>
    dsimp only
    split
    · rw [sense_bl]
      split
      · split <;> rfl
      · rfl
    · rfl

theorem pick_bl_le (w : Warehouse) (i : Nat) (x y : Int) (p : Pos) (stack' : List Nat)
    (h : alGet? p (Agent.pick_up_box w i x y).1.box_locations = some stack') :
    ∃ stack, alGet? p w.box_locations = some stack ∧ stack'.length ≤ stack.length := by
  unfold Agent.pick_up_box at h
  cases hg : getAgent? w i with
  | none =>
    rw [hg] at h
    exact ⟨stack', h, le_rfl⟩
  | some a =>
    rw [hg] at h
    dsimp only at h
    by_cases hcb : a.carrying_box
    · rw [if_pos hcb] at h
      exact ⟨stack', h, le_rfl⟩
    · rw [if_neg hcb] at h
      cases hb : w.get_box_at x y with
      | none =>
        rw [hb] at h
        exact ⟨stack', h, le_rfl⟩
      | some box =>
        rw [hb] at h
        dsimp only at h
        by_cases hcp : w.can_pick_up_box x y = true
        · rw [if_pos hcp] at h
          rw [broadcast_bl] at h
          have h2 : alGet? p (Warehouse.remove_box_from_grid
              (updAgent w i fun b => { b with carrying_box := true, carried_box_id := some box.id })
              x y).box_locations = some stack' := h
          obtain ⟨stack, hs, hle⟩ := remove_box_bl_le _ x y p stack' h2
          exact ⟨stack, hs, hle⟩
        · rw [if_neg hcp] at h
          exact ⟨stack', h, le_rfl⟩

theorem drop_bl_le (w : Warehouse) (i : Nat) (p : Pos) (stack' : List Nat)
    (hw : stacksLe5 w)
    (h : alGet? p (Agent.drop_box w i).1.box_locations = some stack') :
    stack'.length ≤ 5 := by
  unfold Agent.drop_box at h
  cases hg : getAgent? w i with
  | none =>
    rw [hg] at h
    exact hw p stack' h
  | some a =>
    rw [hg] at h
    dsimp only at h
    by_cases hcb : ¬ a.carrying_box
    · rw [if_pos hcb] at h
      exact hw p stack' h
    · rw [if_neg hcb] at h
      by_cases hcp : w.can_place_box a.x a.y a.id = true
      · rw [if_pos hcp] at h
        have hlt := can_place_box_lt w a.x a.y a.id hcp
        have hbl : alGet? p (w.place_box a.x a.y (a.carried_box_id.getD 0) (some a.id)).box_locations
            = some stack' := h
        rw [place_box_box_locations] at hbl
        by_cases hp : p = (a.x, a.y)
        · subst hp
          rw [alGet?_alSet_self] at hbl
          injection hbl with hbl
          subst hbl
          have hc : ((alGet? ((a.x : Int), (a.y : Int)) w.box_locations).getD []).length
              = w.count_stack_size a.x a.y := by
            unfold Warehouse.count_stack_size
            cases hxy : alGet? ((a.x : Int), (a.y : Int)) w.box_locations <;> simp [hxy]
          simp only [List.length_append, List.length_cons, List.length_nil]
          omega
        · rw [alGet?_alSet_ne _ _ hp] at hbl
          exact hw p stack' hbl
      · rw [if_neg hcp] at h
        exact hw p stack' h

theorem prim_stacksLe5 {w w' : Warehouse} (h : Prim w w') (hs : stacksLe5 w) :
    stacksLe5 w' := by
  cases h with
  | agents g hg => exact fun p stack hp => hs p stack hp
  | pick i x y =>
    intro p stack' hp
    obtain ⟨stack, hst, hle⟩ := pick_bl_le w i x y p stack' hp
    exact hle.trans (hs p stack hst)
  | drop i => exact fun p stack' hp => drop_bl_le w i p stack' hs hp
  | mv i d =>
    intro p stack' hp
    rw [move_bl] at hp
    exact hs p stack' hp

theorem steps_stacksLe5 {w w' : Warehouse} (h : Steps w w') (hs : stacksLe5 w) :
    stacksLe5 w' := by
  induction h with
  | refl => exact hs
  | tail hsteps hprim ih => exact prim_stacksLe5 hprim ih

theorem reach_stacksLe5 {w0 w : Warehouse} (h : ReachableFrom w0 w)
    (hs : stacksLe5 w0) : stacksLe5 w := by
  induction h with
  | refl => exact hs
  | step i j sp hr ih => exact steps_stacksLe5 (steps_turn _ i j sp) ih

theorem tryPlaceBox_bl (w : Warehouse) (bid : Nat) (trials : List Pos)
    (hs : stacksLe5 w) : stacksLe5 (tryPlaceBox w bid trials) := by
  induction trials with
  | nil => exact hs
  | cons p rest ih =>
    rw [tryPlaceBox]
    split
    · intro q stack hq
      by_cases hqp : q = p
      · subst hqp
        rw [alGet?_alSet_self] at hq
        injection hq with hq
        subst hq
        simp
      · rw [alGet?_alSet_ne _ _ hqp] at hq
        exact hs q stack hq
    · exact ih

theorem tryPlaceAgent_bl (w : Warehouse) (placed : List Pos) (aid : Nat)
    (trials : List Pos) :
    (tryPlaceAgent w placed aid trials).1.box_locations = w.box_locations := by
  induction trials generalizing placed with
  | nil => rfl
  | cons p rest ih =>
    rw [tryPlaceAgent]
    split
    · dsimp only
      split <;> rfl
    · exact ih placed

theorem init_stacksLe5 (width height : Int) (nb na : Nat)
    (boxTrials agentTrials : List (List Pos)) :
    stacksLe5 (initialize_warehouse width height nb na boxTrials agentTrials) := by
  unfold initialize_warehouse
  dsimp only
  have hboxes : ∀ (l : List Nat) (w : Warehouse), stacksLe5 w →
      stacksLe5 (l.foldl (fun w i => tryPlaceBox w i (boxTrials.getD i [])) w) := by
    intro l
    induction l with
    | nil => exact fun w hw => hw
    | cons i rest ih => exact fun w hw => ih _ (tryPlaceBox_bl w i _ hw)
  have hagents : ∀ (l : List Nat) (st : Warehouse × List Pos),
      ((l.foldl (fun st i => tryPlaceAgent st.1 st.2 i (agentTrials.getD i [])) st)).1.box_locations
        = st.1.box_locations := by
    intro l
    induction l with
    | nil => exact fun st => rfl
    | cons i rest ih =>
      intro st
      rw [List.foldl_cons, ih]
      exact tryPlaceAgent_bl st.1 st.2 i _
  intro p stack hp
  rw [hagents] at hp
  refine hboxes _ _ ?_ p stack hp
  intro q st hq
  cases hq

/-- C2: in every state reachable from an initialized warehouse every stack of
`box_locations` has depth at most 5, and `drop_box` (the only caller of
`place_box` in the simulation) reaches `place_box` only when the destination
stack is strictly below depth 5. -/
theorem C2_stack_capacity (width height : Int) (nb na : Nat)
    (boxTrials agentTrials : List (List Pos)) (w : Warehouse)
    (hreach : ReachableFrom (initialize_warehouse width height nb na boxTrials agentTrials) w) :
    (∀ x y : Int, w.count_stack_size x y ≤ 5) ∧
    (∀ (v : Warehouse) (i : Nat) (a : Agent), getAgent? v i = some a →
      (Agent.drop_box v i).2 = true → v.count_stack_size a.x a.y < 5) := by
  constructor
  · intro x y
    have hs := reach_stacksLe5 hreach (init_stacksLe5 width height nb na boxTrials agentTrials)
    unfold Warehouse.count_stack_size
    cases hxy : alGet? ((x : Int), (y : Int)) w.box_locations with
    | none => simp
    | some stack => exact hs (x, y) stack hxy
  · intro v i a ha hdrop
    unfold Agent.drop_box at hdrop
    rw [ha] at hdrop
    dsimp only at hdrop
    by_cases hcb : ¬ a.carrying_box
    · rw [if_pos hcb] at hdrop
      cases hdrop
    · rw [if_neg hcb] at hdrop
      by_cases hcp : v.can_place_box a.x a.y a.id = true
      · exact can_place_box_lt v a.x a.y a.id hcp
      · rw [if_neg hcp] at hdrop
        cases hdrop

/-- Witness for C2 at a concrete input: the initialized 5×5 warehouse with one
box placed at (3,1) (trial lists supplied explicitly), reachable by zero
turns. -/
theorem C2_stack_capacity_witness :
    ((initialize_warehouse 5 5 1 1 [[(3, 1)]] [[(1, 1)]]).count_stack_size 3 1 ≤ 5) ∧
    ((Agent.drop_box sampleCarry 0).2 = true →
      sampleCarry.count_stack_size 1 1 < 5) := by
  have h := C2_stack_capacity 5 5 1 1 [[(3, 1)]] [[(1, 1)]] _ ReachableFrom.refl
  exact ⟨h.1 3 1, fun hd => h.2 sampleCarry 0 sampleCarryAgent (by decide) hd⟩

/-! ## Item conservation (C1): association-list sums and keys -/

theorem mem_keys_of_alGet?_some {κ ν : Type} [DecidableEq κ] {k : κ} {v : ν}
    {l : List (κ × ν)} (h : alGet? k l = some v) : k ∈ l.map Prod.fst := by
  induction l with
  | nil => cases h
  | cons e rest ih =>
    obtain ⟨ek, ev⟩ := e
    by_cases he : ek = k
    · simp [he]
    · rw [alGet?, if_neg he] at h
      simp [ih h]

theorem alGet?_eq_none_of_not_mem {κ ν : Type} [DecidableEq κ] {k : κ}
    {l : List (κ × ν)} (h : k ∉ l.map Prod.fst) : alGet? k l = none := by
  induction l with
  | nil => rfl
  | cons e rest ih =>
    obtain ⟨ek, ev⟩ := e
    simp only [List.map_cons, List.mem_cons] at h
    push_neg at h
    rw [alGet?, if_neg (fun hh => h.1 hh.symm)]
    exact ih h.2

theorem alErase_not_mem {κ ν : Type} [DecidableEq κ] {k : κ} {l : List (κ × ν)}
    (h : k ∉ l.map Prod.fst) : alErase k l = l := by
  induction l with
  | nil => rfl
  | cons e rest ih =>
    obtain ⟨ek, ev⟩ := e
    simp only [List.map_cons, List.mem_cons] at h
    push_neg at h
    rw [alErase_cons_ne ev rest (fun hh => h.1 hh.symm), ih h.2]

theorem keys_alSet_mem {κ ν : Type} [DecidableEq κ] {k : κ} {old : ν} (v : ν)
    {l : List (κ × ν)} (h : alGet? k l = some old) :
    (alSet k v l).map Prod.fst = l.map Prod.fst := by
  induction l with
  | nil => cases h
  | cons e rest ih =>
    obtain ⟨ek, ev⟩ := e
    by_cases he : ek = k
    · simp [alSet, he]
    · rw [alGet?, if_neg he] at h
      simp [alSet, he, ih h]

theorem keys_alSet_new {κ ν : Type} [DecidableEq κ] {k : κ} (v : ν)
    {l : List (κ × ν)} (h : alGet? k l = none) :
    (alSet k v l).map Prod.fst = l.map Prod.fst ++ [k] := by
  induction l with
  | nil => rfl
  | cons e rest ih =>
    obtain ⟨ek, ev⟩ := e
    by_cases he : ek = k
    · rw [alGet?, if_pos he] at h
      cases h
    · rw [alGet?, if_neg he] at h
      simp [alSet, he, ih h]

theorem keys_alErase_sublist {κ ν : Type} [DecidableEq κ] (k : κ) (l : List (κ × ν)) :
    ((alErase k l).map Prod.fst).Sublist (l.map Prod.fst) :=
  ((List.filter_sublist l).map Prod.fst)

theorem blSum_alSet {k : Pos} {old : List Nat} (v : List Nat)
    {l : List (Pos × List Nat)} (h : alGet? k l = some old) :
    ((alSet k v l).map (fun e => e.2.length)).sum + old.length
      = (l.map (fun e => e.2.length)).sum + v.length := by
  induction l with
  | nil => cases h
  | cons e rest ih =>
    obtain ⟨ek, ev⟩ := e
    by_cases he : ek = k
    · rw [alGet?, if_pos he] at h
      injection h with h
      subst h
      simp [alSet, he]
      omega
    · rw [alGet?, if_neg he] at h
      have := ih h
      simp [alSet, he]
      omega

theorem blSum_alSet_new {k : Pos} (v : List Nat) {l : List (Pos × List Nat)}
    (h : alGet? k l = none) :
    ((alSet k v l).map (fun e => e.2.length)).sum
      = (l.map (fun e => e.2.length)).sum + v.length := by
  induction l with
  | nil => simp [alSet]
  | cons e rest ih =>
    obtain ⟨ek, ev⟩ := e
    by_cases he : ek = k
    · rw [alGet?, if_pos he] at h
      cases h
    · rw [alGet?, if_neg he] at h
      have := ih h
      simp [alSet, he]
      omega

theorem blSum_alErase {k : Pos} {old : List Nat} {l : List (Pos × List Nat)}
    (hnodup : (l.map Prod.fst).Nodup) (h : alGet? k l = some old) :
    ((alErase k l).map (fun e => e.2.length)).sum + old.length
      = (l.map (fun e => e.2.length)).sum := by
  induction l with
  | nil => cases h
  | cons e rest ih =>
    obtain ⟨ek, ev⟩ := e
    simp only [List.map_cons, List.nodup_cons] at hnodup
    by_cases he : ek = k
    · rw [alGet?, if_pos he] at h
      injection h with h
      subst h
      rw [alErase_cons_self _ rest he]
      have hkr : k ∉ rest.map Prod.fst := by
        rw [← he]
        exact hnodup.1
      rw [alErase_not_mem hkr]
      simp
      omega
    · rw [alGet?, if_neg he] at h
      have := ih hnodup.2 h
      rw [alErase_cons_ne ev rest he]
      simp
      omega

/-! ## Item conservation (C1): per-operation accounting -/

theorem ids_from_core (l : List Agent) :
    l.map Agent.id = (l.map agentCore).map (fun c => c.1) := by
  rw [List.map_map]
  rfl

theorem carried_from_core (l : List Agent) :
    l.countP (fun a => a.carrying_box) = (l.map agentCore).countP (fun c => c.2.2.2.1) := by
  rw [List.countP_map]
  rfl

theorem kshape_idsOf {w w' : Warehouse} (h : kshape w w') : idsOf w' = idsOf w := by
  unfold idsOf
  rw [ids_from_core, ids_from_core, h.2.2.2.2]

theorem kshape_carried {w w' : Warehouse} (h : kshape w w') :
    carriedCount w' = carriedCount w := by
  unfold carriedCount
  rw [carried_from_core, carried_from_core, h.2.2.2.2]

theorem kshape_stackSum {w w' : Warehouse} (h : kshape w w') :
    stackSum w' = stackSum w := by
  unfold stackSum
  rw [h.2.2.2.1]

theorem carried_agents_map (w : Warehouse) (g : Agent → Agent)
    (h : ∀ a, (g a).carrying_box = a.carrying_box) :
    carriedCount { w with agents := w.agents.map g } = carriedCount w := by
  unfold carriedCount
  dsimp only
  rw [List.countP_map]
  exact List.countP_congr (fun a _ => by simp [Function.comp, h])

theorem ids_agents_map (w : Warehouse) (g : Agent → Agent)
    (h : ∀ a, (g a).id = a.id) :
    idsOf { w with agents := w.agents.map g } = idsOf w := by
  unfold idsOf
  dsimp only
  rw [List.map_map]
  exact List.map_congr_left (fun a _ => by simp [Function.comp, h])

theorem map_upd_skip (l : List Agent) (i : Nat) (f : Agent → Agent)
    (h : ∀ b ∈ l, b.id ≠ i) :
    l.map (fun b => if b.id = i then f b else b) = l :=
  List.map_congr_left (fun b hb => by simp [h b hb]) |>.trans (List.map_id l)

theorem countP_map_upd (l : List Agent) (i : Nat) (f : Agent → Agent) (a : Agent)
    (hnd : (l.map Agent.id).Nodup)
    (ha : l.find? (fun b => b.id == i) = some a) :
    (l.map (fun b => if b.id = i then f b else b)).countP (fun b => b.carrying_box)
        + (if a.carrying_box then 1 else 0)
      = l.countP (fun b => b.carrying_box) + (if (f a).carrying_box then 1 else 0) := by
  induction l with
  | nil => cases ha
  | cons b rest ih =>
    simp only [List.map_cons, List.nodup_cons] at hnd
    by_cases hbi : b.id = i
    · have hab : a = b := by
        rw [List.find?] at ha
        simp only [hbi, beq_self_eq_true] at ha
        injection ha with ha
        exact ha.symm
      have hrest : ∀ c ∈ rest, c.id ≠ i := by
        intro c hc hci
        apply hnd.1
        rw [hbi, ← hci]
        exact List.mem_map_of_mem Agent.id hc
      rw [List.map_cons, if_pos hbi, map_upd_skip rest i f hrest]
      simp only [List.countP_cons, hab]
      omega
    · have hbeq : (b.id == i) = false := by simp [hbi]
      rw [List.find?, hbeq] at ha
      have hrec := ih hnd.2 ha
      rw [List.map_cons, if_neg hbi]
      simp only [List.countP_cons]
      omega

theorem carried_updAgent (w : Warehouse) (i : Nat) (f : Agent → Agent) (a : Agent)
    (hnd : idsNodup w) (ha : getAgent? w i = some a) :
    carriedCount (updAgent w i f) + (if a.carrying_box then 1 else 0)
      = carriedCount w + (if (f a).carrying_box then 1 else 0) :=
  countP_map_upd w.agents i f a hnd ha

theorem ids_updAgent (w : Warehouse) (i : Nat) (f : Agent → Agent)
    (h : ∀ a, (f a).id = a.id) : idsOf (updAgent w i f) = idsOf w := by
  unfold updAgent
  refine ids_agents_map w _ ?_
  intro a
  by_cases hai : a.id = i <;> simp [hai, h]

theorem consSum_agents_map (w : Warehouse) (g : Agent → Agent)
    (h : ∀ a, agentPhys (g a) = agentPhys a) :
    stackSum { w with agents := w.agents.map g } + carriedCount { w with agents := w.agents.map g }
      = stackSum w + carriedCount w := by
  have hcb : ∀ a, (g a).carrying_box = a.carrying_box := by
    intro a
    have := congrArg (fun t => t.2.2.2) (h a)
    simpa [agentPhys] using this
  rw [carried_agents_map w g hcb]
  rfl

theorem blKeys_agents_map (w : Warehouse) (g : Agent → Agent) (hb : blKeysNodup w) :
    blKeysNodup { w with agents := w.agents.map g } := hb

theorem idsNodup_agents_map (w : Warehouse) (g : Agent → Agent)
    (h : ∀ a, agentPhys (g a) = agentPhys a) (hi : idsNodup w) :
    idsNodup { w with agents := w.agents.map g } := by
  have hid : ∀ a, (g a).id = a.id := by
    intro a
    have := congrArg (fun t => t.1) (h a)
    simpa [agentPhys] using this
  unfold idsNodup
  have hmm : (w.agents.map g).map Agent.id = w.agents.map Agent.id := by
    rw [List.map_map]
    exact List.map_congr_left (fun a _ => by simp [Function.comp, hid])
  rw [show ({ w with agents := w.agents.map g } : Warehouse).agents = w.agents.map g from rfl,
    hmm]
  exact hi

theorem cshape_refl (w : Warehouse) : cshape w w :=
  ⟨rfl, rfl, rfl⟩

theorem cshape_trans {w1 w2 w3 : Warehouse} (h : cshape w1 w2) (h' : cshape w2 w3) :
    cshape w1 w3 :=
  ⟨h'.1.trans h.1, h'.2.1.trans h.2.1, h'.2.2.trans h.2.2⟩

theorem cshape_of_kshape {w w' : Warehouse} (h : kshape w w') : cshape w w' :=
  ⟨h.2.2.2.1, kshape_carried h, kshape_idsOf h⟩

theorem cshape_to_updAgent {w w' : Warehouse} (i : Nat) (f : Agent → Agent)
    (h : cshape w w')
    (hf : ∀ a, (f a).carrying_box = a.carrying_box ∧ (f a).id = a.id) :
    cshape w (updAgent w' i f) := by
  refine cshape_trans h ⟨rfl, ?_, ?_⟩
  · refine carried_agents_map w' _ ?_
    intro a
    by_cases hai : a.id = i <;> simp [hai, (hf a).1]
  · refine ids_agents_map w' _ ?_
    intro a
    by_cases hai : a.id = i <;> simp [hai, (hf a).2]

theorem cshape_to_grid {w w' : Warehouse} (g' : Pos → Nat) (h : cshape w w') :
    cshape w { w' with grid := g' } :=
  cshape_trans h ⟨rfl, rfl, rfl⟩

theorem cshape_to_sense {w w' : Warehouse} (i : Nat) (h : cshape w w') :
    cshape w (Agent.sense_environment w' i) :=
  cshape_trans h (cshape_of_kshape (kshape_sense w' i))

theorem cshape_to_broadcast {w w' : Warehouse} (i : Nat) (m : Message)
    (h : cshape w w') : cshape w (Agent.broadcast_message w' i m) :=
  cshape_trans h (cshape_of_kshape (kshape_broadcast w' i m))

theorem move_cshape (w : Warehouse) (i : Nat) (d : Pos) :
    cshape w (Agent.move w i d).1 := by
  unfold Agent.move
  cases hg : getAgent? w i with
  | none => exact cshape_refl w
  | some a =>
    dsimp only
    split
    · refine cshape_to_sense _ ?_
      refine cshape_to_updAgent _ _ ?_ (fun b => ⟨rfl, rfl⟩)
      refine cshape_to_grid _ ?_
      refine cshape_to_updAgent _ _ ?_ (fun b => ⟨rfl, rfl⟩)
      split
      · split
        · exact cshape_to_grid _ (cshape_refl w)
        · exact cshape_to_grid _ (cshape_refl w)
      · exact cshape_refl w
    · exact cshape_refl w

theorem can_pick_up_eq_one (w : Warehouse) (x y : Int)
    (h : w.can_pick_up_box x y = true) :
    ∃ l, alGet? ((x : Int), (y : Int)) w.box_locations = some l ∧ l.length = 1 := by
  unfold Warehouse.can_pick_up_box Warehouse.count_stack_size at h
  cases hxy : alGet? ((x : Int), (y : Int)) w.box_locations with
  | none =>
    rw [hxy] at h
    simp at h
  | some l =>
    rw [hxy] at h
    exact ⟨l, rfl, by simpa using h⟩

theorem remove_depth1 (w : Warehouse) (x y : Int) (l : List Nat)
    (hb : blKeysNodup w)
    (hxy : alGet? ((x : Int), (y : Int)) w.box_locations = some l) (hlen : l.length = 1) :
    stackSum (w.remove_box_from_grid x y) + 1 = stackSum w ∧
    blKeysNodup (w.remove_box_from_grid x y) ∧
    (w.remove_box_from_grid x y).agents = w.agents := by
  cases l with
  | nil => cases hlen
  | cons b0 l' =>
    have hl' : l' = [] := by
      simpa using hlen
    subst hl'
    unfold Warehouse.remove_box_from_grid
    rw [hxy]
    dsimp only
    rw [if_pos (by simp : ([b0] : List Nat).dropLast = [])]
    have hkeysSet : (alSet ((x : Int), (y : Int)) (([b0] : List Nat).dropLast)
        w.box_locations).map Prod.fst = w.box_locations.map Prod.fst :=
      keys_alSet_mem _ hxy
    have hndSet : ((alSet ((x : Int), (y : Int)) (([b0] : List Nat).dropLast)
        w.box_locations).map Prod.fst).Nodup := by
      rw [hkeysSet]
      exact hb
    refine ⟨?_, ?_, rfl⟩
    · have h1 := @blSum_alSet _ [b0] (([b0] : List Nat).dropLast) _ hxy
      have h2 := blSum_alErase (k := ((x : Int), (y : Int))) hndSet
        (alGet?_alSet_self _ _ _)
      unfold stackSum
      dsimp only
      simp only [List.length_cons, List.length_nil] at h1 h2 ⊢
      omega
    · unfold blKeysNodup
      dsimp only
      refine List.Nodup.sublist ?_ hndSet
      exact keys_alErase_sublist _ _

theorem pick_up_box_success (w : Warehouse) (i : Nat) (x y : Int) (a : Agent) (box : Box)
    (hg : getAgent? w i = some a) (hcb : a.carrying_box = false)
    (hbox : w.get_box_at x y = some box) (hcp : w.can_pick_up_box x y = true) :
    Agent.pick_up_box w i x y =
      (Agent.broadcast_message
        (updAgent (Warehouse.remove_box_from_grid
            (updAgent w i (fun b => { b with carrying_box := true, carried_box_id := some box.id }))
            x y) i
          (fun b => { b with known_unassigned_boxes :=
              if (x, y) ∈ b.known_unassigned_boxes then b.known_unassigned_boxes.erase (x, y)
              else b.known_unassigned_boxes }))
        i ⟨MsgType.BOX_PICKED, (x, y), i⟩, true) := by
  simp [Agent.pick_up_box, hg, hcb, hbox, hcp]

theorem pick_cons (w : Warehouse) (i : Nat) (x y : Int) (hc : consInv w) :
    consInv (Agent.pick_up_box w i x y).1 ∧
    stackSum (Agent.pick_up_box w i x y).1 + carriedCount (Agent.pick_up_box w i x y).1
      = stackSum w + carriedCount w := by
  cases hg : getAgent? w i with
  | none =>
    rw [show Agent.pick_up_box w i x y = (w, false) by simp [Agent.pick_up_box, hg]]
    exact ⟨hc, rfl⟩
  | some a =>
    by_cases hcb : a.carrying_box
    · rw [show Agent.pick_up_box w i x y = (w, false) by simp [Agent.pick_up_box, hg, hcb]]
      exact ⟨hc, rfl⟩
    · cases hbox : w.get_box_at x y with
      | none =>
        rw [show Agent.pick_up_box w i x y = (w, false) by simp [Agent.pick_up_box, hg, hcb, hbox]]
        exact ⟨hc, rfl⟩
      | some box =>
        by_cases hcp : w.can_pick_up_box x y = true
        · have hcb' : a.carrying_box = false := by simpa using hcb
          rw [pick_up_box_success w i x y a box hg hcb' hbox hcp]
          obtain ⟨l, hxy, hlen⟩ := can_pick_up_eq_one w x y hcp
          set f1 : Agent → Agent := fun b => { b with carrying_box := true, carried_box_id := some box.id } with hf1
          set f2 : Agent → Agent := fun b => { b with known_unassigned_boxes := if (x, y) ∈ b.known_unassigned_boxes then b.known_unassigned_boxes.erase (x, y) else b.known_unassigned_boxes } with hf2
          have hw1 := carried_updAgent w i f1 a hc.2 hg
          rw [hcb'] at hw1
          have hw1' : carriedCount (updAgent w i f1) = carriedCount w + 1 := by
            have hft : (f1 a).carrying_box = true := rfl
            rw [hft] at hw1
            simpa using hw1
          have hids1 : idsOf (updAgent w i f1) = idsOf w := ids_updAgent w i _ (fun b => rfl)
          have hnd1 : idsNodup (updAgent w i f1) := by
            unfold idsNodup
            rw [show (updAgent w i f1).agents.map Agent.id = idsOf (updAgent w i f1) from rfl, hids1]
            exact hc.2
          have hbl1 : (updAgent w i f1).box_locations = w.box_locations := rfl
          have hrem := remove_depth1 (updAgent w i f1) x y l (by unfold blKeysNodup; rw [hbl1]; exact hc.1) (by rw [hbl1]; exact hxy) hlen
          have hcar2 : carriedCount ((updAgent w i f1).remove_box_from_grid x y) = carriedCount w + 1 := by
            have hca : carriedCount ((updAgent w i f1).remove_box_from_grid x y) = carriedCount (updAgent w i f1) := by
              unfold carriedCount
              rw [hrem.2.2]
            rw [hca, hw1']
          have hids2 : idsOf ((updAgent w i f1).remove_box_from_grid x y) = idsOf w := by
            have hia : idsOf ((updAgent w i f1).remove_box_from_grid x y) = idsOf (updAgent w i f1) := by
              unfold idsOf
              rw [hrem.2.2]
            rw [hia, hids1]
          have hnd2 : idsNodup ((updAgent w i f1).remove_box_from_grid x y) := by
            unfold idsNodup
            rw [show ((updAgent w i f1).remove_box_from_grid x y).agents.map Agent.id = idsOf ((updAgent w i f1).remove_box_from_grid x y) from rfl, hids2]
            exact hc.2
          have hsum1 : stackSum (updAgent w i f1) = stackSum w := rfl
          have hsum2 : stackSum ((updAgent w i f1).remove_box_from_grid x y) + 1 = stackSum w := by
            have := hrem.1
            omega
          have hfin : cshape ((updAgent w i f1).remove_box_from_grid x y) (Agent.broadcast_message (updAgent ((updAgent w i f1).remove_box_from_grid x y) i f2) i ⟨MsgType.BOX_PICKED, (x, y), i⟩) :=
            cshape_to_broadcast _ _ (cshape_to_updAgent _ _ (cshape_refl _) (fun b => ⟨rfl, rfl⟩))
          refine ⟨⟨?_, ?_⟩, ?_⟩
          · unfold blKeysNodup
            rw [hfin.1]
            exact hrem.2.1
          · unfold idsNodup
            have hi3 := hfin.2.2
            unfold idsOf at hi3
            rw [hi3]
            exact hnd2
          · have hbleq : stackSum (Agent.broadcast_message (updAgent ((updAgent w i f1).remove_box_from_grid x y) i f2) i ⟨MsgType.BOX_PICKED, (x, y), i⟩) = stackSum ((updAgent w i f1).remove_box_from_grid x y) := by
              unfold stackSum
              rw [hfin.1]
            rw [hbleq, hfin.2.1, hcar2]
            omega
        · rw [show Agent.pick_up_box w i x y = (w, false) by simp [Agent.pick_up_box, hg, hcb, hbox, hcp]]
          exact ⟨hc, rfl⟩

theorem drop_box_success (w : Warehouse) (i : Nat) (a : Agent)
    (hg : getAgent? w i = some a) (hcb : a.carrying_box = true)
    (hcp : w.can_place_box a.x a.y a.id = true) :
    Agent.drop_box w i = (updAgent (w.place_box a.x a.y (a.carried_box_id.getD 0) (some a.id)) i (fun b => { b with carrying_box := false, carried_box_id := none }), true) := by
  simp [Agent.drop_box, hg, hcb, hcp]

theorem alGet?_isSome_of_mem {κ ν : Type} [DecidableEq κ] {k : κ} {l : List (κ × ν)}
    (h : k ∈ l.map Prod.fst) : (alGet? k l).isSome := by
  induction l with
  | nil => cases h
  | cons e rest ih =>
    obtain ⟨ek, ev⟩ := e
    by_cases he : ek = k
    · rw [alGet?, if_pos he]
      rfl
    · rw [alGet?, if_neg he]
      simp only [List.map_cons, List.mem_cons] at h
      rcases h with h | h
      · exact absurd h.symm he
      · exact ih h

theorem nodup_append_singleton {α : Type} (l : List α) (a : α) (h : l.Nodup)
    (ha : a ∉ l) : (l ++ [a]).Nodup := by
  rw [List.nodup_append]
  refine ⟨h, List.nodup_singleton a, ?_⟩
  intro x hx hxa
  rw [List.mem_singleton] at hxa
  subst hxa
  exact ha hx

theorem place_box_count (w : Warehouse) (x y : Int) (bid : Nat) (aid : Option Nat)
    (hb : blKeysNodup w) :
    stackSum (w.place_box x y bid aid) = stackSum w + 1 ∧
    blKeysNodup (w.place_box x y bid aid) := by
  have hbl := place_box_box_locations w x y bid aid
  constructor
  · unfold stackSum
    rw [hbl]
    cases halx : alGet? ((x : Int), (y : Int)) w.box_locations with
    | some l =>
      have hk := @blSum_alSet _ l (((alGet? ((x : Int), (y : Int)) w.box_locations).getD []) ++ [bid]) _ halx
      rw [halx] at hk
      simp only [Option.getD_some, List.length_append, List.length_cons, List.length_nil] at hk ⊢
      omega
    | none =>
      have hk := blSum_alSet_new (k := ((x : Int), (y : Int))) (((alGet? ((x : Int), (y : Int)) w.box_locations).getD []) ++ [bid]) halx
      rw [halx] at hk
      simp only [Option.getD_none, List.nil_append, List.length_cons, List.length_nil] at hk ⊢
      omega
  · unfold blKeysNodup
    rw [hbl]
    cases halx : alGet? ((x : Int), (y : Int)) w.box_locations with
    | some l =>
      rw [keys_alSet_mem _ halx]
      exact hb
    | none =>
      rw [keys_alSet_new _ halx]
      have hnm : ((x : Int), (y : Int)) ∉ w.box_locations.map Prod.fst := by
        intro hmem
        have hsome := alGet?_isSome_of_mem hmem
        rw [halx] at hsome
        cases hsome
      exact nodup_append_singleton _ _ hb hnm

theorem drop_cons (w : Warehouse) (i : Nat) (hc : consInv w) :
    consInv (Agent.drop_box w i).1 ∧
    stackSum (Agent.drop_box w i).1 + carriedCount (Agent.drop_box w i).1
      = stackSum w + carriedCount w := by
  cases hg : getAgent? w i with
  | none =>
    rw [show Agent.drop_box w i = (w, false) by simp [Agent.drop_box, hg]]
    exact ⟨hc, rfl⟩
  | some a =>
    by_cases hcb : a.carrying_box
    · by_cases hcp : w.can_place_box a.x a.y a.id = true
      · rw [drop_box_success w i a hg hcb hcp]
        dsimp only
        have hpl := place_box_count w a.x a.y (a.carried_box_id.getD 0) (some a.id) hc.1
        have hag : (w.place_box a.x a.y (a.carried_box_id.getD 0) (some a.id)).agents = w.agents :=
          place_box_agents w a.x a.y _ _
        have hgp : getAgent? (w.place_box a.x a.y (a.carried_box_id.getD 0) (some a.id)) i = some a := by
          unfold getAgent?
          rw [hag]
          exact hg
        have hcarp : carriedCount (w.place_box a.x a.y (a.carried_box_id.getD 0) (some a.id)) = carriedCount w := by
          unfold carriedCount
          rw [hag]
        have hndp : idsNodup (w.place_box a.x a.y (a.carried_box_id.getD 0) (some a.id)) := by
          unfold idsNodup
          rw [hag]
          exact hc.2
        have hupd0 := carried_updAgent (w.place_box a.x a.y (a.carried_box_id.getD 0) (some a.id)) i (fun b => { b with carrying_box := false, carried_box_id := none }) a hndp hgp
        have hone : (if a.carrying_box = true then 1 else 0) = 1 := by simp [hcb]
        have hzero : (if ((fun (b : Agent) => { b with carrying_box := false, carried_box_id := none }) a).carrying_box = true then 1 else 0) = 0 := rfl
        have hupd : carriedCount (updAgent (w.place_box a.x a.y (a.carried_box_id.getD 0) (some a.id)) i (fun b => { b with carrying_box := false, carried_box_id := none })) + 1 = carriedCount (w.place_box a.x a.y (a.carried_box_id.getD 0) (some a.id)) := by
          omega
        refine ⟨⟨?_, ?_⟩, ?_⟩
        · unfold blKeysNodup
          exact hpl.2
        · unfold idsNodup
          rw [show (updAgent (w.place_box a.x a.y (a.carried_box_id.getD 0) (some a.id)) i (fun b => { b with carrying_box := false, carried_box_id := none })).agents.map Agent.id = idsOf (updAgent (w.place_box a.x a.y (a.carried_box_id.getD 0) (some a.id)) i (fun b => { b with carrying_box := false, carried_box_id := none })) from rfl]
          rw [ids_updAgent (w.place_box a.x a.y (a.carried_box_id.getD 0) (some a.id)) i (fun b => { b with carrying_box := false, carried_box_id := none }) (fun b => rfl)]
          exact hndp
        · have hsu : stackSum (updAgent (w.place_box a.x a.y (a.carried_box_id.getD 0) (some a.id)) i (fun b => { b with carrying_box := false, carried_box_id := none })) = stackSum (w.place_box a.x a.y (a.carried_box_id.getD 0) (some a.id)) := rfl
          rw [hsu, hpl.1]
          omega
      · rw [show Agent.drop_box w i = (w, false) by simp [Agent.drop_box, hg, hcb, hcp]]
        exact ⟨hc, rfl⟩
    · have hcb' : a.carrying_box = false := by simpa using hcb
      rw [show Agent.drop_box w i = (w, false) by simp [Agent.drop_box, hg, hcb']]
      exact ⟨hc, rfl⟩

theorem prim_cons {w w' : Warehouse} (h : Prim w w') (hc : consInv w) :
    consInv w' ∧ stackSum w' + carriedCount w' = stackSum w + carriedCount w := by
  cases h with
  | agents g hg =>
    exact ⟨⟨blKeys_agents_map w g hc.1, idsNodup_agents_map w g hg hc.2⟩,
      consSum_agents_map w g hg⟩
  | pick i x y => exact pick_cons w i x y hc
  | drop i => exact drop_cons w i hc
  | mv i d =>
    have hcs := move_cshape w i d
    refine ⟨⟨?_, ?_⟩, ?_⟩
    · unfold blKeysNodup
      rw [hcs.1]
      exact hc.1
    · unfold idsNodup
      have hi := hcs.2.2
      unfold idsOf at hi
      rw [hi]
      exact hc.2
    · have hs : stackSum (Agent.move w i d).1 = stackSum w := by
        unfold stackSum
        rw [hcs.1]
      rw [hs, hcs.2.1]

theorem steps_cons {w w' : Warehouse} (h : Steps w w') (hc : consInv w) :
    consInv w' ∧ stackSum w' + carriedCount w' = stackSum w + carriedCount w := by
  induction h with
  | refl => exact ⟨hc, rfl⟩
  | tail hst hp ih =>
    obtain ⟨hc2, he⟩ := ih
    obtain ⟨hc3, he2⟩ := prim_cons hp hc2
    exact ⟨hc3, by omega⟩

theorem reach_cons {w0 w : Warehouse} (h : ReachableFrom w0 w) (hc : consInv w0) :
    consInv w ∧ stackSum w + carriedCount w = stackSum w0 + carriedCount w0 := by
  induction h with
  | refl => exact ⟨hc, rfl⟩
  | step i j sp hr ih =>
    obtain ⟨hc2, he⟩ := ih
    obtain ⟨hc3, he2⟩ := steps_cons (steps_turn _ i j sp) hc2
    exact ⟨hc3, by omega⟩

theorem tryPlaceBox_inv (w : Warehouse) (bid : Nat) (trials : List Pos)
    (hP : blKeysNodup w ∧ (∀ p ∈ w.box_locations.map Prod.fst, w.grid p ≠ 0) ∧
      w.agents = []) :
    blKeysNodup (tryPlaceBox w bid trials) ∧
    (∀ p ∈ (tryPlaceBox w bid trials).box_locations.map Prod.fst,
      (tryPlaceBox w bid trials).grid p ≠ 0) ∧
    (tryPlaceBox w bid trials).agents = [] := by
  induction trials with
  | nil => exact hP
  | cons p rest ih =>
    rw [tryPlaceBox]
    split
    case isTrue h =>
      have hnm : p ∉ w.box_locations.map Prod.fst := fun hm => hP.2.1 p hm h.2
      have hget : alGet? p w.box_locations = none := alGet?_eq_none_of_not_mem hnm
      refine ⟨?_, ?_, hP.2.2⟩
      · unfold blKeysNodup
        dsimp only
        rw [keys_alSet_new _ hget]
        exact nodup_append_singleton _ _ hP.1 hnm
      · intro q hq
        dsimp only at hq ⊢
        rw [keys_alSet_new _ hget] at hq
        rcases List.mem_append.mp hq with hq | hq
        · by_cases hqp : q = p
          · subst hqp
            simp [gset]
          · unfold gset
            rw [if_neg hqp]
            exact hP.2.1 q hq
        · rw [List.mem_singleton] at hq
          subst hq
          simp [gset]
    case isFalse => exact ih

theorem box_fold_inv (trialsAll : List (List Pos)) (l : List Nat) (w : Warehouse)
    (hP : blKeysNodup w ∧ (∀ p ∈ w.box_locations.map Prod.fst, w.grid p ≠ 0) ∧
      w.agents = []) :
    blKeysNodup (l.foldl (fun w i => tryPlaceBox w i (trialsAll.getD i [])) w) ∧
    (∀ p ∈ (l.foldl (fun w i => tryPlaceBox w i (trialsAll.getD i [])) w).box_locations.map Prod.fst,
      (l.foldl (fun w i => tryPlaceBox w i (trialsAll.getD i [])) w).grid p ≠ 0) ∧
    (l.foldl (fun w i => tryPlaceBox w i (trialsAll.getD i [])) w).agents = [] := by
  induction l generalizing w with
  | nil => exact hP
  | cons i rest ih =>
    rw [List.foldl_cons]
    exact ih _ (tryPlaceBox_inv w i _ hP)

theorem tryPlaceAgent_agents (w : Warehouse) (placed : List Pos) (aid : Nat)
    (trials : List Pos) :
    (tryPlaceAgent w placed aid trials).1.agents = w.agents ∨
    ∃ p : Pos, (tryPlaceAgent w placed aid trials).1.agents = w.agents ++ [mkAgent aid p.1 p.2] := by
  induction trials generalizing placed with
  | nil => exact Or.inl rfl
  | cons p rest ih =>
    rw [tryPlaceAgent]
    split
    · refine Or.inr ⟨p, ?_⟩
      dsimp only
      split <;> rfl
    · exact ih placed

theorem agent_fold_bl (trialsAll : List (List Pos)) (l : List Nat)
    (st : Warehouse × List Pos) :
    (l.foldl (fun st i => tryPlaceAgent st.1 st.2 i (trialsAll.getD i [])) st).1.box_locations
      = st.1.box_locations := by
  induction l generalizing st with
  | nil => rfl
  | cons i rest ih =>
    rw [List.foldl_cons, ih]
    exact tryPlaceAgent_bl st.1 st.2 i _

theorem agent_fold_inv (trialsAll : List (List Pos)) (l : List Nat)
    (st : Warehouse × List Pos) (hnd : idsNodup st.1) (hcar : carriedCount st.1 = 0)
    (hfresh : ∀ a ∈ st.1.agents, a.id ∉ l) (hl : l.Nodup) :
    idsNodup (l.foldl (fun st i => tryPlaceAgent st.1 st.2 i (trialsAll.getD i [])) st).1 ∧
    carriedCount (l.foldl (fun st i => tryPlaceAgent st.1 st.2 i (trialsAll.getD i [])) st).1 = 0 := by
  induction l generalizing st with
  | nil => exact ⟨hnd, hcar⟩
  | cons i rest ih =>
    rw [List.foldl_cons]
    simp only [List.nodup_cons] at hl
    rcases tryPlaceAgent_agents st.1 st.2 i (trialsAll.getD i []) with h | ⟨p, h⟩
    · refine ih _ ?_ ?_ ?_ hl.2
      · unfold idsNodup
        rw [h]
        exact hnd
      · unfold carriedCount
        rw [h]
        exact hcar
      · rw [h]
        intro a ha hai
        exact hfresh a ha (List.mem_cons_of_mem i hai)
    · refine ih _ ?_ ?_ ?_ hl.2
      · unfold idsNodup
        rw [h, List.map_append]
        refine nodup_append_singleton _ _ hnd ?_
        intro hmem
        rw [List.mem_map] at hmem
        obtain ⟨a, ha, hid⟩ := hmem
        exact hfresh a ha (by rw [show (mkAgent i p.1 p.2).id = i from rfl] at hid; rw [← hid]; exact List.mem_cons_self a.id rest)
      · unfold carriedCount
        rw [h, List.countP_append]
        unfold carriedCount at hcar
        rw [hcar]
        rfl
      · rw [h]
        intro a ha hai
        rcases List.mem_append.mp ha with ha | ha
        · exact hfresh a ha (List.mem_cons_of_mem i hai)
        · rw [List.mem_singleton] at ha
          subst ha
          exact hl.1 hai

theorem init_consInv (width height : Int) (nb na : Nat)
    (boxTrials agentTrials : List (List Pos)) :
    consInv (initialize_warehouse width height nb na boxTrials agentTrials) ∧
    carriedCount (initialize_warehouse width height nb na boxTrials agentTrials) = 0 := by
  unfold initialize_warehouse
  dsimp only
  have hbox := box_fold_inv boxTrials (List.range nb)
    { width := width, height := height, num_boxes := nb, num_agents := na,
      grid := initGrid width height, agents := [], boxes := [], box_locations := [],
      processed_boxes := [],
      agent_deliveries := (List.range na).map (fun i => (i, 0)) }
    ⟨List.nodup_nil, fun p hp => absurd hp (List.not_mem_nil p), rfl⟩
  have hagent := agent_fold_inv agentTrials (List.range na)
    ((List.range nb).foldl (fun w i => tryPlaceBox w i (boxTrials.getD i []))
      { width := width, height := height, num_boxes := nb, num_agents := na,
        grid := initGrid width height, agents := [], boxes := [], box_locations := [],
        processed_boxes := [],
        agent_deliveries := (List.range na).map (fun i => (i, 0)) }, [])
    (by unfold idsNodup; rw [hbox.2.2]; exact List.nodup_nil)
    (by unfold carriedCount; rw [hbox.2.2]; rfl)
    (by rw [hbox.2.2]; exact fun a ha => absurd ha (List.not_mem_nil a))
    (List.nodup_range na)
  refine ⟨⟨?_, hagent.1⟩, hagent.2⟩
  unfold blKeysNodup
  rw [agent_fold_bl]
  exact hbox.1

/-- C1: item conservation.  In every state reachable from a fully
initialized warehouse (all `num_boxes` boxes placed), the number of boxes
contained in stacks of `box_locations` plus the number of agents with
`carrying_box` true equals the initial total box count — `pick_up_box` and
`place_box` (via `drop_box`) only relocate boxes. -/
theorem C1_item_conservation (width height : Int) (nb na : Nat)
    (boxTrials agentTrials : List (List Pos)) (w : Warehouse)
    (hfull : stackSum (initialize_warehouse width height nb na boxTrials agentTrials) = nb)
    (hreach : ReachableFrom (initialize_warehouse width height nb na boxTrials agentTrials) w) :
    stackSum w + carriedCount w = nb := by
  have hinit := init_consInv width height nb na boxTrials agentTrials
  have hcons := reach_cons hreach hinit.1
  rw [hcons.2, hinit.2, hfull]
  omega

/-- Witness for C1 at a concrete input: a 5×5 warehouse whose single box is
placed at (3,1), after zero turns. -/
theorem C1_item_conservation_witness :
    stackSum (initialize_warehouse 5 5 1 1 [[(3, 1)]] [[(1, 1)]]) = 1 ∧
    stackSum (initialize_warehouse 5 5 1 1 [[(3, 1)]] [[(1, 1)]])
      + carriedCount (initialize_warehouse 5 5 1 1 [[(3, 1)]] [[(1, 1)]]) = 1 :=
  ⟨by decide, C1_item_conservation 5 5 1 1 [[(3, 1)]] [[(1, 1)]] _ (by decide) ReachableFrom.refl⟩

/-! ## Single-pickup legality (C4) -/

theorem count_of_bl {w w' : Warehouse} (h : w'.box_locations = w.box_locations)
    (x y : Int) : w'.count_stack_size x y = w.count_stack_size x y := by
  unfold Warehouse.count_stack_size
  rw [h]

theorem pick_count (w : Warehouse) (i : Nat) (x y q1 q2 : Int) :
    (Agent.pick_up_box w i x y).1.count_stack_size q1 q2 = w.count_stack_size q1 q2 ∨
    ((q1, q2) = ((x : Int), (y : Int)) ∧ w.count_stack_size q1 q2 = 1 ∧
      (Agent.pick_up_box w i x y).1.count_stack_size q1 q2 = 0) := by
  cases hg : getAgent? w i with
  | none =>
    left
    rw [show Agent.pick_up_box w i x y = (w, false) by simp [Agent.pick_up_box, hg]]
  | some a =>
    by_cases hcb : a.carrying_box
    · left
      rw [show Agent.pick_up_box w i x y = (w, false) by simp [Agent.pick_up_box, hg, hcb]]
    · cases hbox : w.get_box_at x y with
      | none =>
        left
        rw [show Agent.pick_up_box w i x y = (w, false) by
          simp [Agent.pick_up_box, hg, hcb, hbox]]
      | some box =>
        by_cases hcp : w.can_pick_up_box x y = true
        · have hcb' : a.carrying_box = false := by simpa using hcb
          rw [pick_up_box_success w i x y a box hg hcb' hbox hcp]
          obtain ⟨l, hxy, hlen⟩ := can_pick_up_eq_one w x y hcp
          cases l with
          | nil => cases hlen
          | cons b0 l' =>
            have hl' : l' = [] := by simpa using hlen
            subst hl'
            dsimp only
            have hbl2 : (Agent.broadcast_message (updAgent (Warehouse.remove_box_from_grid (updAgent w i (fun b => { b with carrying_box := true, carried_box_id := some box.id })) x y) i (fun b => { b with known_unassigned_boxes := if (x, y) ∈ b.known_unassigned_boxes then b.known_unassigned_boxes.erase (x, y) else b.known_unassigned_boxes })) i ⟨MsgType.BOX_PICKED, (x, y), i⟩).box_locations = (Warehouse.remove_box_from_grid (updAgent w i (fun b => { b with carrying_box := true, carried_box_id := some box.id })) x y).box_locations := by
              rw [broadcast_bl]
              rfl
            have hrembl : (Warehouse.remove_box_from_grid (updAgent w i (fun b => { b with carrying_box := true, carried_box_id := some box.id })) x y).box_locations = alErase ((x : Int), (y : Int)) (alSet ((x : Int), (y : Int)) (([b0] : List Nat).dropLast) (updAgent w i (fun b => { b with carrying_box := true, carried_box_id := some box.id })).box_locations) := by
              unfold Warehouse.remove_box_from_grid
              rw [show alGet? ((x : Int), (y : Int)) (updAgent w i (fun b => { b with carrying_box := true, carried_box_id := some box.id })).box_locations = some [b0] from hxy]
              dsimp only
              rw [if_pos (by simp : ([b0] : List Nat).dropLast = [])]
            by_cases hq : ((q1 : Int), (q2 : Int)) = ((x : Int), (y : Int))
            · right
              refine ⟨hq, ?_, ?_⟩
              · unfold Warehouse.count_stack_size
                rw [show alGet? ((q1 : Int), (q2 : Int)) w.box_locations = some [b0] from hq ▸ hxy]
                rfl
              · unfold Warehouse.count_stack_size
                rw [hbl2, hrembl, hq, alGet?_alErase_self]
            · left
              unfold Warehouse.count_stack_size
              rw [hbl2, hrembl, alGet?_alErase_ne _ hq, alGet?_alSet_ne _ _ hq]
              rfl
        · left
          rw [show Agent.pick_up_box w i x y = (w, false) by
            simp [Agent.pick_up_box, hg, hcb, hbox, hcp]]

theorem drop_count_ge (w : Warehouse) (i : Nat) (q1 q2 : Int) :
    w.count_stack_size q1 q2 ≤ (Agent.drop_box w i).1.count_stack_size q1 q2 := by
  cases hg : getAgent? w i with
  | none =>
    rw [show Agent.drop_box w i = (w, false) by simp [Agent.drop_box, hg]]
  | some a =>
    by_cases hcb : a.carrying_box
    · by_cases hcp : w.can_place_box a.x a.y a.id = true
      · rw [drop_box_success w i a hg hcb hcp]
        dsimp only
        have hbl : (updAgent (w.place_box a.x a.y (a.carried_box_id.getD 0) (some a.id)) i (fun b => { b with carrying_box := false, carried_box_id := none })).box_locations = alSet ((a.x : Int), (a.y : Int)) ((alGet? ((a.x : Int), (a.y : Int)) w.box_locations).getD [] ++ [a.carried_box_id.getD 0]) w.box_locations := place_box_box_locations w a.x a.y _ _
        unfold Warehouse.count_stack_size
        rw [hbl]
        by_cases hq : ((q1 : Int), (q2 : Int)) = ((a.x : Int), (a.y : Int))
        · rw [hq, alGet?_alSet_self]
          cases halx : alGet? ((a.x : Int), (a.y : Int)) w.box_locations with
          | none => simp
          | some l => simp [halx]
        · rw [alGet?_alSet_ne _ _ hq]
      · rw [show Agent.drop_box w i = (w, false) by simp [Agent.drop_box, hg, hcb, hcp]]
    · have hcb' : a.carrying_box = false := by simpa using hcb
      rw [show Agent.drop_box w i = (w, false) by simp [Agent.drop_box, hg, hcb']]

theorem prim_count_dec {w w' : Warehouse} (h : Prim w w') (x y : Int)
    (hlt : w'.count_stack_size x y < w.count_stack_size x y) :
    w.count_stack_size x y = 1 ∧ w'.count_stack_size x y = 0 := by
  cases h with
  | agents g hg =>
    have hce : ({ w with agents := w.agents.map g } : Warehouse).count_stack_size x y
        = w.count_stack_size x y := count_of_bl rfl x y
    omega
  | pick i px py =>
    rcases pick_count w i px py x y with h | ⟨hq, h1, h0⟩
    · rw [h] at hlt
      omega
    · exact ⟨h1, h0⟩
  | drop i =>
    have := drop_count_ge w i x y
    omega
  | mv i d =>
    rw [count_of_bl (move_bl w i d) x y] at hlt
    omega

theorem steps_count_dec {w w' : Warehouse} (h : Steps w w') (x y : Int)
    (hlt : w'.count_stack_size x y < w.count_stack_size x y) :
    w.count_stack_size x y = 1 ∧ w'.count_stack_size x y = 0 := by
  induction h with
  | refl => omega
  | @tail wmid wfin hst hp ih =>
    by_cases hmid : wmid.count_stack_size x y < w.count_stack_size x y
    · obtain ⟨h1, h0⟩ := ih hmid
      have hle : wfin.count_stack_size x y ≤ wmid.count_stack_size x y ∨
          wmid.count_stack_size x y ≤ wfin.count_stack_size x y := le_total _ _
      constructor
      · exact h1
      · omega
    · have h2 := prim_count_dec hp x y (by omega)
      constructor <;> omega

/-- C4: a box is removed from a coordinate (by `remove_box_from_grid`,
invoked from `pick_up_box`) only when that coordinate's stack depth is
exactly 1: whenever a turn of the simulation decreases a stack depth, the
depth was 1 before and is 0 after. -/
theorem C4_single_pickup_legality (w0 w : Warehouse)
    (hreach : ReachableFrom w0 w) (i : Nat) (j : Bool) (sp : Pos) (x y : Int)
    (hdec : (turn w i j sp).count_stack_size x y < w.count_stack_size x y) :
    w.count_stack_size x y = 1 ∧ (turn w i j sp).count_stack_size x y = 0 :=
  steps_count_dec (steps_turn w i j sp) x y hdec

/-- Witness for C4: in `samplePick` the agent walks onto (2,1) and picks the
box up, shrinking that stack from depth 1 to 0. -/
theorem C4_single_pickup_legality_witness :
    samplePick.count_stack_size 2 1 = 1 ∧
    (turn samplePick 0 false (2, 2)).count_stack_size 2 1 = 0 :=
  C4_single_pickup_legality samplePick samplePick ReachableFrom.refl 0 false (2, 2) 2 1
    (by decide)

/-! ## Core grid invariant (C5): markers, validity, distinct positions -/

theorem apos_of_core (w : Warehouse) :
    aposOf w = (w.agents.map agentCore).map (fun c => (c.1, c.2.1, c.2.2.1)) := by
  unfold aposOf
  rw [List.map_map]
  rfl

theorem kshape_apos {w w' : Warehouse} (h : kshape w w') : aposOf w' = aposOf w := by
  rw [apos_of_core, apos_of_core, h.2.2.2.2]

theorem ids_of_apos (w : Warehouse) :
    w.agents.map Agent.id = (aposOf w).map (fun t => t.1) := by
  unfold aposOf
  rw [List.map_map]
  rfl

theorem idsNodup_of_apos {w w' : Warehouse} (ha : aposOf w' = aposOf w)
    (h : idsNodup w) : idsNodup w' := by
  unfold idsNodup
  rw [ids_of_apos, ha, ← ids_of_apos]
  exact h

theorem valid_congr {w w' : Warehouse} (hw : w'.width = w.width)
    (hh : w'.height = w.height) (x y : Int) :
    w'.is_valid_position x y = w.is_valid_position x y := by
  unfold Warehouse.is_valid_position
  rw [hw, hh]

theorem invCore_transport {w w' : Warehouse} (hw : w'.width = w.width)
    (hh : w'.height = w.height) (hg : w'.grid = w.grid) (ha : aposOf w' = aposOf w)
    (hc : invCore w) : invCore w' := by
  refine ⟨idsNodup_of_apos ha hc.1, ?_⟩
  intro t ht
  rw [ha] at ht
  have h2 := hc.2 t ht
  exact ⟨by rw [valid_congr hw hh]; exact h2.1, by rw [hg]; exact h2.2⟩

theorem invCore_from_gset {w w' : Warehouse} (p : Pos) (v : Nat)
    (hw : w'.width = w.width) (hh : w'.height = w.height)
    (ha : aposOf w' = aposOf w) (hg : w'.grid = gset w.grid p v)
    (hmarker : w.grid p < 3) (hc : invCore w) : invCore w' := by
  refine ⟨idsNodup_of_apos ha hc.1, ?_⟩
  intro t ht
  rw [ha] at ht
  have h2 := hc.2 t ht
  refine ⟨by rw [valid_congr hw hh]; exact h2.1, ?_⟩
  rw [hg]
  unfold gset
  have hne : (t.2.1, t.2.2) ≠ p := by
    intro he
    rw [he] at h2
    omega
  rw [if_neg hne]
  exact h2.2

theorem apos_agents_map (w : Warehouse) (g : Agent → Agent)
    (h : ∀ a, (g a).id = a.id ∧ (g a).x = a.x ∧ (g a).y = a.y) :
    aposOf { w with agents := w.agents.map g } = aposOf w := by
  unfold aposOf
  dsimp only
  rw [List.map_map]
  exact List.map_congr_left (fun a _ => by simp [Function.comp, (h a).1, (h a).2.1, (h a).2.2])

theorem apos_updAgent_keep (w : Warehouse) (i : Nat) (f : Agent → Agent)
    (h : ∀ b, (f b).id = b.id ∧ (f b).x = b.x ∧ (f b).y = b.y) :
    aposOf (updAgent w i f) = aposOf w := by
  unfold updAgent
  refine apos_agents_map w _ ?_
  intro a
  by_cases hai : a.id = i <;> simp [hai, (h a).1, (h a).2.1, (h a).2.2]

theorem apos_updAgent_move (w : Warehouse) (i : Nat) (f : Agent → Agent) (nx ny : Int)
    (h : ∀ b, (f b).id = b.id ∧ (f b).x = nx ∧ (f b).y = ny) :
    aposOf (updAgent w i f)
      = (aposOf w).map (fun t => if t.1 = i then (t.1, nx, ny) else t) := by
  unfold aposOf updAgent
  dsimp only
  rw [List.map_map, List.map_map]
  refine List.map_congr_left ?_
  intro b _
  by_cases hbi : b.id = i <;> simp [Function.comp, hbi, (h b).1, (h b).2.1, (h b).2.2]

theorem remove_agents (w : Warehouse) (x y : Int) :
    (w.remove_box_from_grid x y).agents = w.agents := by
  unfold Warehouse.remove_box_from_grid
  cases halx : alGet? ((x : Int), (y : Int)) w.box_locations with
  | none => rfl
  | some ids =>
    cases ids with
    | nil => rfl
    | cons id0 ids' =>
      dsimp only
      split <;> rfl

theorem remove_dims (w : Warehouse) (x y : Int) :
    (w.remove_box_from_grid x y).width = w.width ∧
    (w.remove_box_from_grid x y).height = w.height := by
  unfold Warehouse.remove_box_from_grid
  cases halx : alGet? ((x : Int), (y : Int)) w.box_locations with
  | none => exact ⟨rfl, rfl⟩
  | some ids =>
    cases ids with
    | nil => exact ⟨rfl, rfl⟩
    | cons id0 ids' =>
      dsimp only
      split <;> exact ⟨rfl, rfl⟩

theorem remove_grid_cases (w : Warehouse) (x y : Int) :
    (w.remove_box_from_grid x y).grid = w.grid ∨
    (w.grid ((x : Int), (y : Int)) = 2 ∧
      (w.remove_box_from_grid x y).grid = gset w.grid ((x : Int), (y : Int)) 0) := by
  unfold Warehouse.remove_box_from_grid
  cases halx : alGet? ((x : Int), (y : Int)) w.box_locations with
  | none => exact Or.inl rfl
  | some ids =>
    cases ids with
    | nil => exact Or.inl rfl
    | cons id0 ids' =>
      dsimp only
      split
      · by_cases h2 : w.grid ((x : Int), (y : Int)) = 2
        · exact Or.inr ⟨h2, by rw [if_pos h2]⟩
        · exact Or.inl (by rw [if_neg h2])
      · exact Or.inl rfl

theorem place_dims (w : Warehouse) (x y : Int) (bid : Nat) (aid : Option Nat) :
    (w.place_box x y bid aid).width = w.width ∧
    (w.place_box x y bid aid).height = w.height := by
  unfold Warehouse.place_box
  cases aid <;> by_cases h : w.grid (x, y) < 3 <;> simp [h]

theorem place_grid_cases (w : Warehouse) (x y : Int) (bid : Nat) (aid : Option Nat) :
    (w.place_box x y bid aid).grid = w.grid ∨
    (w.grid ((x : Int), (y : Int)) < 3 ∧
      (w.place_box x y bid aid).grid = gset w.grid ((x : Int), (y : Int)) 2) := by
  unfold Warehouse.place_box
  by_cases h : w.grid (x, y) < 3
  · right
    cases aid <;> simp [h]
  · left
    cases aid <;> simp [h]

theorem can_move_facts (w : Warehouse) (x y : Int) (aid : Nat)
    (h : w.can_move_to x y aid = true) :
    w.is_valid_position x y = true ∧ (w.grid (x, y) = 0 ∨ w.grid (x, y) = 2) := by
  unfold Warehouse.can_move_to at h
  by_cases hv : ¬ w.is_valid_position x y
  · rw [if_pos hv] at h
    cases h
  · rw [if_neg hv] at h
    refine ⟨by simpa using hv, ?_⟩
    have := h
    simp only [Bool.or_eq_true, beq_iff_eq] at this
    exact this

theorem getAgent?_mem {w : Warehouse} {i : Nat} {a : Agent}
    (hg : getAgent? w i = some a) : a ∈ w.agents := by
  unfold getAgent? at hg
  exact List.mem_of_find?_eq_some hg

theorem pick_invCore (w : Warehouse) (i : Nat) (x y : Int) (hc : invCore w) :
    invCore (Agent.pick_up_box w i x y).1 := by
  cases hg : getAgent? w i with
  | none => rw [show Agent.pick_up_box w i x y = (w, false) by simp [Agent.pick_up_box, hg]]; exact hc
  | some a =>
    by_cases hcb : a.carrying_box
    · rw [show Agent.pick_up_box w i x y = (w, false) by simp [Agent.pick_up_box, hg, hcb]]
      exact hc
    · cases hbox : w.get_box_at x y with
      | none =>
        rw [show Agent.pick_up_box w i x y = (w, false) by simp [Agent.pick_up_box, hg, hcb, hbox]]
        exact hc
      | some box =>
        by_cases hcp : w.can_pick_up_box x y = true
        · have hcb' : a.carrying_box = false := by simpa using hcb
          rw [pick_up_box_success w i x y a box hg hcb' hbox hcp]
          dsimp only
          set f1 : Agent → Agent := fun b => { b with carrying_box := true, carried_box_id := some box.id } with hf1
          set f2 : Agent → Agent := fun b => { b with known_unassigned_boxes := if (x, y) ∈ b.known_unassigned_boxes then b.known_unassigned_boxes.erase (x, y) else b.known_unassigned_boxes } with hf2
          set wr := (updAgent w i f1).remove_box_from_grid x y with hwr
          have hks := kshape_broadcast (updAgent wr i f2) i ⟨MsgType.BOX_PICKED, (x, y), i⟩
          have hdims := remove_dims (updAgent w i f1) x y
          have hw : (Agent.broadcast_message (updAgent wr i f2) i ⟨MsgType.BOX_PICKED, (x, y), i⟩).width = w.width := by
            rw [hks.1]
            exact hdims.1
          have hh : (Agent.broadcast_message (updAgent wr i f2) i ⟨MsgType.BOX_PICKED, (x, y), i⟩).height = w.height := by
            rw [hks.2.1]
            exact hdims.2
          have hapos : aposOf (Agent.broadcast_message (updAgent wr i f2) i ⟨MsgType.BOX_PICKED, (x, y), i⟩) = aposOf w := by
            rw [kshape_apos hks, apos_updAgent_keep wr i f2 (fun b => ⟨rfl, rfl, rfl⟩)]
            have hra : aposOf wr = aposOf (updAgent w i f1) := by
              unfold aposOf
              rw [hwr, remove_agents]
            rw [hra, apos_updAgent_keep w i f1 (fun b => ⟨rfl, rfl, rfl⟩)]
          have hgr : (Agent.broadcast_message (updAgent wr i f2) i ⟨MsgType.BOX_PICKED, (x, y), i⟩).grid = wr.grid := by
            rw [hks.2.2.1]
            rfl
          rcases remove_grid_cases (updAgent w i f1) x y with hgc | ⟨h2, hgc⟩
          · exact invCore_transport hw hh (by rw [hgr, ← hwr] at *; rw [hgc]; rfl) hapos hc
          · refine invCore_from_gset ((x : Int), (y : Int)) 0 hw hh hapos ?_ (by
              rw [show (updAgent w i f1).grid = w.grid from rfl] at h2
              omega) hc
            rw [hgr, hwr, hgc]
            rfl
        · rw [show Agent.pick_up_box w i x y = (w, false) by
            simp [Agent.pick_up_box, hg, hcb, hbox, hcp]]
          exact hc

theorem drop_invCore (w : Warehouse) (i : Nat) (hc : invCore w) :
    invCore (Agent.drop_box w i).1 := by
  cases hg : getAgent? w i with
  | none => rw [show Agent.drop_box w i = (w, false) by simp [Agent.drop_box, hg]]; exact hc
  | some a =>
    by_cases hcb : a.carrying_box
    · by_cases hcp : w.can_place_box a.x a.y a.id = true
      · rw [drop_box_success w i a hg hcb hcp]
        dsimp only
        set wp := w.place_box a.x a.y (a.carried_box_id.getD 0) (some a.id) with hwp
        have hdims := place_dims w a.x a.y (a.carried_box_id.getD 0) (some a.id)
        have hapos : aposOf (updAgent wp i (fun b => { b with carrying_box := false, carried_box_id := none })) = aposOf w := by
          rw [apos_updAgent_keep wp i (fun b => { b with carrying_box := false, carried_box_id := none }) (fun b => ⟨rfl, rfl, rfl⟩)]
          unfold aposOf
          rw [hwp, place_box_agents]
        have hgr : (updAgent wp i (fun b => { b with carrying_box := false, carried_box_id := none })).grid = wp.grid := rfl
        rcases place_grid_cases w a.x a.y (a.carried_box_id.getD 0) (some a.id) with hgc | ⟨h3, hgc⟩
        · exact invCore_transport (by rw [show (updAgent wp i (fun b => { b with carrying_box := false, carried_box_id := none })).width = wp.width from rfl]; exact hdims.1) (by rw [show (updAgent wp i (fun b => { b with carrying_box := false, carried_box_id := none })).height = wp.height from rfl]; exact hdims.2) (by rw [hgr, hwp, hgc]) hapos hc
        · exact invCore_from_gset ((a.x : Int), (a.y : Int)) 2 (by rw [show (updAgent wp i (fun b => { b with carrying_box := false, carried_box_id := none })).width = wp.width from rfl]; exact hdims.1) (by rw [show (updAgent wp i (fun b => { b with carrying_box := false, carried_box_id := none })).height = wp.height from rfl]; exact hdims.2) hapos (by rw [hgr, hwp, hgc]) h3 hc
      · rw [show Agent.drop_box w i = (w, false) by simp [Agent.drop_box, hg, hcb, hcp]]
        exact hc
    · have hcb' : a.carrying_box = false := by simpa using hcb
      rw [show Agent.drop_box w i = (w, false) by simp [Agent.drop_box, hg, hcb']]
      exact hc

theorem move_success_shape (w : Warehouse) (i : Nat) (d : Pos) (a : Agent)
    (hg : getAgent? w i = some a)
    (hcm : w.can_move_to (a.x + d.1) (a.y + d.2) a.id = true)
    (hold : w.grid (a.x, a.y) ≥ 3) :
    ∃ c : Nat, c < 3 ∧
      (Agent.move w i d).1.width = w.width ∧ (Agent.move w i d).1.height = w.height ∧
      aposOf (Agent.move w i d).1
        = (aposOf w).map (fun t => if t.1 = i then (t.1, a.x + d.1, a.y + d.2) else t) ∧
      (Agent.move w i d).1.grid
        = gset (gset w.grid (a.x, a.y) c) (a.x + d.1, a.y + d.2) (3 + i) := by
  have hshape : ∀ c : Nat,
      ∀ w1 : Warehouse, w1 = { w with grid := gset w.grid (a.x, a.y) c } →
      (Agent.sense_environment (updAgent ({ (updAgent w1 i (fun b => { b with x := a.x + d.1, y := a.y + d.2 })) with grid := gset (updAgent w1 i (fun b => { b with x := a.x + d.1, y := a.y + d.2 })).grid (a.x + d.1, a.y + d.2) (3 + i) }) i (fun b => { b with movements := b.movements + 1 })) i).width = w.width ∧
      (Agent.sense_environment (updAgent ({ (updAgent w1 i (fun b => { b with x := a.x + d.1, y := a.y + d.2 })) with grid := gset (updAgent w1 i (fun b => { b with x := a.x + d.1, y := a.y + d.2 })).grid (a.x + d.1, a.y + d.2) (3 + i) }) i (fun b => { b with movements := b.movements + 1 })) i).height = w.height ∧
      aposOf (Agent.sense_environment (updAgent ({ (updAgent w1 i (fun b => { b with x := a.x + d.1, y := a.y + d.2 })) with grid := gset (updAgent w1 i (fun b => { b with x := a.x + d.1, y := a.y + d.2 })).grid (a.x + d.1, a.y + d.2) (3 + i) }) i (fun b => { b with movements := b.movements + 1 })) i)
        = (aposOf w).map (fun t => if t.1 = i then (t.1, a.x + d.1, a.y + d.2) else t) ∧
      (Agent.sense_environment (updAgent ({ (updAgent w1 i (fun b => { b with x := a.x + d.1, y := a.y + d.2 })) with grid := gset (updAgent w1 i (fun b => { b with x := a.x + d.1, y := a.y + d.2 })).grid (a.x + d.1, a.y + d.2) (3 + i) }) i (fun b => { b with movements := b.movements + 1 })) i).grid
        = gset (gset w.grid (a.x, a.y) c) (a.x + d.1, a.y + d.2) (3 + i) := by
    intro c w1 hw1
    have hks := kshape_sense (updAgent ({ (updAgent w1 i (fun b => { b with x := a.x + d.1, y := a.y + d.2 })) with grid := gset (updAgent w1 i (fun b => { b with x := a.x + d.1, y := a.y + d.2 })).grid (a.x + d.1, a.y + d.2) (3 + i) }) i (fun b => { b with movements := b.movements + 1 })) i
    refine ⟨?_, ?_, ?_, ?_⟩
    · rw [hks.1, hw1]
      rfl
    · rw [hks.2.1, hw1]
      rfl
    · rw [kshape_apos hks, apos_updAgent_keep _ i (fun b => { b with movements := b.movements + 1 }) (fun b => ⟨rfl, rfl, rfl⟩)]
      have hm : aposOf ({ (updAgent w1 i (fun b => { b with x := a.x + d.1, y := a.y + d.2 })) with grid := gset (updAgent w1 i (fun b => { b with x := a.x + d.1, y := a.y + d.2 })).grid (a.x + d.1, a.y + d.2) (3 + i) }) = aposOf (updAgent w1 i (fun b => { b with x := a.x + d.1, y := a.y + d.2 })) := rfl
      rw [hm, apos_updAgent_move w1 i (fun b => { b with x := a.x + d.1, y := a.y + d.2 }) (a.x + d.1) (a.y + d.2) (fun b => ⟨rfl, rfl, rfl⟩)]
      rw [show aposOf w1 = aposOf w by rw [hw1]; rfl]
    · rw [hks.2.2.1]
      have hgg : (updAgent w1 i (fun b => { b with x := a.x + d.1, y := a.y + d.2 })).grid = w1.grid := rfl
      rw [show (updAgent ({ (updAgent w1 i (fun b => { b with x := a.x + d.1, y := a.y + d.2 })) with grid := gset (updAgent w1 i (fun b => { b with x := a.x + d.1, y := a.y + d.2 })).grid (a.x + d.1, a.y + d.2) (3 + i) }) i (fun b => { b with movements := b.movements + 1 })).grid = gset (updAgent w1 i (fun b => { b with x := a.x + d.1, y := a.y + d.2 })).grid (a.x + d.1, a.y + d.2) (3 + i) from rfl]
      rw [hgg, hw1]
  by_cases hcnt : w.count_stack_size a.x a.y > 0
  · have heq : (Agent.move w i d).1 = Agent.sense_environment (updAgent ({ (updAgent { w with grid := gset w.grid (a.x, a.y) 2 } i (fun b => { b with x := a.x + d.1, y := a.y + d.2 })) with grid := gset (updAgent { w with grid := gset w.grid (a.x, a.y) 2 } i (fun b => { b with x := a.x + d.1, y := a.y + d.2 })).grid (a.x + d.1, a.y + d.2) (3 + i) }) i (fun b => { b with movements := b.movements + 1 })) i := by
      simp [Agent.move, hg, hcm, hold, hcnt]
    refine ⟨2, by omega, ?_⟩
    rw [heq]
    exact hshape 2 _ rfl
  · have heq : (Agent.move w i d).1 = Agent.sense_environment (updAgent ({ (updAgent { w with grid := gset w.grid (a.x, a.y) 0 } i (fun b => { b with x := a.x + d.1, y := a.y + d.2 })) with grid := gset (updAgent { w with grid := gset w.grid (a.x, a.y) 0 } i (fun b => { b with x := a.x + d.1, y := a.y + d.2 })).grid (a.x + d.1, a.y + d.2) (3 + i) }) i (fun b => { b with movements := b.movements + 1 })) i := by
      simp [Agent.move, hg, hcm, hold, hcnt]
    refine ⟨0, by omega, ?_⟩
    rw [heq]
    exact hshape 0 _ rfl

theorem apos_id_inj {w : Warehouse} (hnd : idsNodup w) {t t' : Nat × Int × Int}
    (ht : t ∈ aposOf w) (ht' : t' ∈ aposOf w) (h1 : t.1 = t'.1) : t = t' := by
  have hnd2 : ((aposOf w).map (fun t => t.1)).Nodup := by
    rw [← ids_of_apos]
    exact hnd
  exact List.inj_on_of_nodup_map hnd2 ht ht' h1

theorem move_invCore (w : Warehouse) (i : Nat) (d : Pos) (hc : invCore w) :
    invCore (Agent.move w i d).1 := by
  cases hg : getAgent? w i with
  | none => rw [show (Agent.move w i d).1 = w by simp [Agent.move, hg]]; exact hc
  | some a =>
    by_cases hcm : w.can_move_to (a.x + d.1) (a.y + d.2) a.id = true
    · have hmem : a ∈ w.agents := getAgent?_mem hg
      have hidi : a.id = i := getAgent?_id hg
      have hta : (a.id, a.x, a.y) ∈ aposOf w := List.mem_map_of_mem _ hmem
      have hmk := hc.2 _ hta
      have hmk2 : w.grid (a.x, a.y) = 3 + a.id := hmk.2
      have hold : w.grid (a.x, a.y) ≥ 3 := by
        rw [hmk2]
        omega
      obtain ⟨c, hc3, hw, hh, hapos, hgrid⟩ := move_success_shape w i d a hg hcm hold
      have hmv := can_move_facts w (a.x + d.1) (a.y + d.2) a.id hcm
      have hids : (Agent.move w i d).1.agents.map Agent.id = w.agents.map Agent.id := by
        rw [ids_of_apos, hapos, List.map_map, ids_of_apos]
        refine List.map_congr_left ?_
        intro t _
        by_cases hti : t.1 = i <;> simp [Function.comp, hti]
      constructor
      · unfold idsNodup
        rw [hids]
        exact hc.1
      · intro t' ht'
        rw [hapos] at ht'
        obtain ⟨t, ht, hteq⟩ := List.mem_map.mp ht'
        by_cases hti : t.1 = i
        · rw [if_pos hti] at hteq
          subst hteq
          refine ⟨?_, ?_⟩
          · show (Agent.move w i d).1.is_valid_position (a.x + d.1) (a.y + d.2) = true
            rw [valid_congr hw hh]
            exact hmv.1
          · show (Agent.move w i d).1.grid (a.x + d.1, a.y + d.2) = 3 + t.1
            rw [hgrid]
            unfold gset
            rw [if_pos rfl, hti]
        · rw [if_neg hti] at hteq
          subst hteq
          have hmkt := hc.2 t ht
          refine ⟨?_, ?_⟩
          · rw [valid_congr hw hh]
            exact hmkt.1
          · have hmkt2 : w.grid (t.2.1, t.2.2) = 3 + t.1 := hmkt.2
            have hne2 : ((t.2.1 : Int), (t.2.2 : Int)) ≠ (a.x + d.1, a.y + d.2) := by
              intro he
              rw [he] at hmkt2
              rcases hmv.2 with h0 | h0 <;> rw [h0] at hmkt2 <;> omega
            have hne1 : ((t.2.1 : Int), (t.2.2 : Int)) ≠ (a.x, a.y) := by
              intro he
              rw [he] at hmkt2
              rw [hmkt2] at hmk2
              have : t.1 = a.id := by omega
              exact hti (by rw [this, hidi])
            show (Agent.move w i d).1.grid (t.2.1, t.2.2) = 3 + t.1
            rw [hgrid]
            unfold gset
            rw [if_neg hne2, if_neg hne1]
            exact hmkt2
    · rw [show (Agent.move w i d).1 = w by simp [Agent.move, hg, hcm]]
      exact hc

theorem prim_invCore {w w' : Warehouse} (h : Prim w w') (hc : invCore w) : invCore w' := by
  cases h with
  | agents g hg =>
    refine invCore_transport ?_ ?_ ?_ (apos_agents_map w g ?_) hc
    · rfl
    · rfl
    · rfl
    intro a
    have h1 := congrArg (fun t => t.1) (hg a)
    have h2 := congrArg (fun t => t.2.1) (hg a)
    have h3 := congrArg (fun t => t.2.2.1) (hg a)
    exact ⟨by simpa [agentPhys] using h1, by simpa [agentPhys] using h2,
      by simpa [agentPhys] using h3⟩
  | pick i x y => exact pick_invCore w i x y hc
  | drop i => exact drop_invCore w i hc
  | mv i d => exact move_invCore w i d hc

theorem steps_invCore {w w' : Warehouse} (h : Steps w w') (hc : invCore w) : invCore w' := by
  induction h with
  | refl => exact hc
  | tail hst hp ih => exact prim_invCore hp ih

theorem reach_invCore {w0 w : Warehouse} (h : ReachableFrom w0 w) (hc : invCore w0) :
    invCore w := by
  induction h with
  | refl => exact hc
  | step i j sp hr ih => exact steps_invCore (steps_turn _ i j sp) ih

theorem randint_valid (w : Warehouse) (p : Pos) (h : randintSupport w p = true) :
    w.is_valid_position p.1 p.2 = true := by
  unfold randintSupport at h
  unfold Warehouse.is_valid_position
  simp only [Bool.and_eq_true, decide_eq_true_eq] at h ⊢
  omega

theorem invCore_place_agent (w w' : Warehouse) (aid : Nat) (p : Pos)
    (hag : w'.agents = w.agents ++ [mkAgent aid p.1 p.2])
    (hgr : w'.grid = gset w.grid p (3 + aid))
    (hwd : w'.width = w.width) (hht : w'.height = w.height)
    (hc : invCore w) (hfresh : ∀ b ∈ w.agents, b.id ≠ aid)
    (hvalidp : w.is_valid_position p.1 p.2 = true) (hempty : w.grid p = 0) :
    invCore w' := by
  have hapos : aposOf w' = aposOf w ++ [(aid, p.1, p.2)] := by
    unfold aposOf
    rw [hag, List.map_append]
    rfl
  constructor
  · unfold idsNodup
    rw [hag, List.map_append]
    refine nodup_append_singleton _ _ hc.1 ?_
    intro hmem
    rw [List.mem_map] at hmem
    obtain ⟨b, hb, hidb⟩ := hmem
    exact hfresh b hb hidb
  · intro t ht
    rw [hapos] at ht
    rcases List.mem_append.mp ht with ht | ht
    · have h2 := hc.2 t ht
      refine ⟨by rw [valid_congr hwd hht]; exact h2.1, ?_⟩
      rw [hgr]
      unfold gset
      have hne : ((t.2.1 : Int), (t.2.2 : Int)) ≠ p := by
        intro he
        have h3 : w.grid (t.2.1, t.2.2) = 3 + t.1 := h2.2
        rw [he, hempty] at h3
        omega
      rw [if_neg hne]
      exact h2.2
    · rw [List.mem_singleton] at ht
      subst ht
      refine ⟨by rw [valid_congr hwd hht]; exact hvalidp, ?_⟩
      rw [hgr]
      unfold gset
      rw [if_pos rfl]

theorem tryPlaceAgent_invCore (w : Warehouse) (placed : List Pos) (aid : Nat)
    (trials : List Pos) (hc : invCore w) (hfresh : ∀ b ∈ w.agents, b.id ≠ aid) :
    invCore (tryPlaceAgent w placed aid trials).1 := by
  induction trials generalizing placed with
  | nil => exact hc
  | cons p rest ih =>
    rw [tryPlaceAgent]
    split
    case isTrue h =>
      dsimp only
      split
      · exact invCore_place_agent w _ aid p rfl rfl rfl rfl hc hfresh
          (randint_valid w p h.1) h.2.1
      · exact invCore_place_agent w _ aid p rfl rfl rfl rfl hc hfresh
          (randint_valid w p h.1) h.2.1
    case isFalse => exact ih placed

theorem agent_fold_invCore (trialsAll : List (List Pos)) (l : List Nat)
    (st : Warehouse × List Pos) (hc : invCore st.1)
    (hfresh : ∀ a ∈ st.1.agents, a.id ∉ l) (hl : l.Nodup) :
    invCore (l.foldl (fun st i => tryPlaceAgent st.1 st.2 i (trialsAll.getD i [])) st).1 := by
  induction l generalizing st with
  | nil => exact hc
  | cons i rest ih =>
    rw [List.foldl_cons]
    simp only [List.nodup_cons] at hl
    have hstep : invCore (tryPlaceAgent st.1 st.2 i (trialsAll.getD i [])).1 :=
      tryPlaceAgent_invCore st.1 st.2 i _ hc
        (fun b hb hbi => hfresh b hb (by rw [hbi]; exact List.mem_cons_self i rest))
    refine ih _ hstep ?_ hl.2
    rcases tryPlaceAgent_agents st.1 st.2 i (trialsAll.getD i []) with hag | ⟨p, hag⟩
    · rw [hag]
      intro a ha hai
      exact hfresh a ha (List.mem_cons_of_mem i hai)
    · rw [hag]
      intro a ha hai
      rcases List.mem_append.mp ha with ha | ha
      · exact hfresh a ha (List.mem_cons_of_mem i hai)
      · rw [List.mem_singleton] at ha
        subst ha
        exact hl.1 hai

theorem init_invCore (width height : Int) (nb na : Nat)
    (boxTrials agentTrials : List (List Pos)) :
    invCore (initialize_warehouse width height nb na boxTrials agentTrials) := by
  unfold initialize_warehouse
  dsimp only
  have hbox := box_fold_inv boxTrials (List.range nb)
    { width := width, height := height, num_boxes := nb, num_agents := na,
      grid := initGrid width height, agents := [], boxes := [], box_locations := [],
      processed_boxes := [],
      agent_deliveries := (List.range na).map (fun i => (i, 0)) }
    ⟨List.nodup_nil, fun p hp => absurd hp (List.not_mem_nil p), rfl⟩
  refine agent_fold_invCore agentTrials (List.range na) _ ?_ ?_ (List.nodup_range na)
  · constructor
    · unfold idsNodup
      rw [hbox.2.2]
      exact List.nodup_nil
    · intro t ht
      unfold aposOf at ht
      rw [hbox.2.2] at ht
      cases ht
  · rw [hbox.2.2]
    exact fun a ha => absurd ha (List.not_mem_nil a)

theorem can_move_to_iff (w : Warehouse) (x y : Int) (aid : Nat) :
    w.can_move_to x y aid = true ↔
      (w.get_cell_type x y = "empty" ∨ w.get_cell_type x y = "box") := by
  unfold Warehouse.can_move_to Warehouse.get_cell_type
  by_cases hv : ¬ w.is_valid_position x y
  · rw [if_pos hv, if_pos hv]
    constructor
    · intro h
      cases h
    · intro h
      rcases h with h | h <;> exact absurd h (by decide)
  · rw [if_neg hv, if_neg hv]
    dsimp only
    by_cases h0 : w.grid (x, y) = 0
    · simp [h0]
    · by_cases h1 : w.grid (x, y) = 1
      · rw [if_neg h0, if_pos h1]
        constructor
        · intro h
          rw [h1] at h
          simp at h
        · intro h
          rcases h with h | h <;> exact absurd h (by decide)
      · by_cases h2 : w.grid (x, y) = 2
        · simp [h0, h1, h2]
        · have h3 : w.grid (x, y) ≥ 3 := by omega
          rw [if_neg h0, if_neg h1, if_neg h2, if_pos h3]
          constructor
          · intro h
            simp only [Bool.or_eq_true, beq_iff_eq] at h
            rcases h with h | h <;> omega
          · intro h
            rcases h with h | h <;> exact absurd h (by decide)

/-- C5: `can_move_to` accepts exactly the cells whose type is empty or box
(never a wall or a robot cell), and consequently, in every reachable state,
no agent stands on a wall cell and no two distinct agents share a
coordinate. -/
theorem C5_no_illegal_moves (width height : Int) (nb na : Nat)
    (boxTrials agentTrials : List (List Pos)) (w : Warehouse)
    (hreach : ReachableFrom (initialize_warehouse width height nb na boxTrials agentTrials) w) :
    (∀ (x y : Int) (aid : Nat), w.can_move_to x y aid = true ↔
      (w.get_cell_type x y = "empty" ∨ w.get_cell_type x y = "box")) ∧
    (∀ a ∈ w.agents, w.get_cell_type a.x a.y ≠ "wall") ∧
    (∀ a b : Agent, a ∈ w.agents → b ∈ w.agents → a.id ≠ b.id →
      ((a.x : Int), (a.y : Int)) ≠ ((b.x : Int), (b.y : Int))) := by
  have hcore := reach_invCore hreach (init_invCore width height nb na boxTrials agentTrials)
  refine ⟨fun x y aid => can_move_to_iff w x y aid, ?_, ?_⟩
  · intro a ha
    have hta : (a.id, a.x, a.y) ∈ aposOf w := List.mem_map_of_mem _ ha
    have h2 := hcore.2 _ hta
    have hval : w.is_valid_position a.x a.y = true := h2.1
    have hmark : w.grid (a.x, a.y) = 3 + a.id := h2.2
    unfold Warehouse.get_cell_type
    rw [if_neg (by simp [hval])]
    dsimp only
    rw [if_neg (by omega), if_neg (by omega), if_neg (by omega), if_pos (by omega)]
    decide
  · intro a b ha hb hab hpos
    have h2a := (hcore.2 _ (List.mem_map_of_mem (fun a => (a.id, a.x, a.y)) ha)).2
    have h2b := (hcore.2 _ (List.mem_map_of_mem (fun a => (a.id, a.x, a.y)) hb)).2
    have hga : w.grid (a.x, a.y) = 3 + a.id := h2a
    have hgb : w.grid (b.x, b.y) = 3 + b.id := h2b
    rw [hpos, hgb] at hga
    exact hab (by omega)

/-- Witness for C5 at the concrete initialized warehouse, reached by zero
turns: the cell predicate agrees with the cell type at (2,1), the agent at
(1,1) is not on a wall, and distinct ids sit on distinct cells. -/
theorem C5_no_illegal_moves_witness :
    ((initialize_warehouse 5 5 1 1 [[(3, 1)]] [[(1, 1)]]).can_move_to 2 1 0 = true ↔
      ((initialize_warehouse 5 5 1 1 [[(3, 1)]] [[(1, 1)]]).get_cell_type 2 1 = "empty" ∨
        (initialize_warehouse 5 5 1 1 [[(3, 1)]] [[(1, 1)]]).get_cell_type 2 1 = "box")) ∧
    (∀ a ∈ (initialize_warehouse 5 5 1 1 [[(3, 1)]] [[(1, 1)]]).agents,
      (initialize_warehouse 5 5 1 1 [[(3, 1)]] [[(1, 1)]]).get_cell_type a.x a.y ≠ "wall") := by
  have h := C5_no_illegal_moves 5 5 1 1 [[(3, 1)]] [[(1, 1)]] _ ReachableFrom.refl
  exact ⟨h.1 2 1 0, h.2.1⟩

theorem delivInv_iff (w : Warehouse) : delivering_implies_carrying w ↔ delivInv w := by
  constructor
  · intro h t ht
    unfold cslOf at ht
    rw [List.mem_map] at ht
    obtain ⟨a, ha, hta⟩ := ht
    rw [← hta]
    exact h a ha
  · intro h a ha
    exact h (a.id, a.carrying_box, a.state) (List.mem_map_of_mem _ ha)

theorem cslOf_core {w w' : Warehouse}
    (h : w'.agents.map agentCore = w.agents.map agentCore) : cslOf w' = cslOf w := by
  have e : ∀ v : Warehouse,
      cslOf v = (v.agents.map agentCore).map (fun c => (c.1, c.2.2.2.1, c.2.2.2.2)) := by
    intro v
    unfold cslOf
    rw [List.map_map]
    rfl
  rw [e, e, h]

theorem cslOf_agents_eq {w w' : Warehouse} (h : w'.agents = w.agents) :
    cslOf w' = cslOf w := by
  unfold cslOf
  rw [h]

theorem cslOf_grid (v : Warehouse) (g : Pos → Nat) : cslOf { v with grid := g } = cslOf v :=
  rfl

theorem ids_of_csl {w w' : Warehouse} (h : cslOf w' = cslOf w) : idsOf w' = idsOf w := by
  have e : ∀ v : Warehouse, idsOf v = (cslOf v).map (fun c => c.1) := by
    intro v
    unfold idsOf cslOf
    rw [List.map_map]
    rfl
  rw [e, e, h]

theorem delivInv_csl {w w' : Warehouse} (h : cslOf w' = cslOf w) :
    delivInv w → delivInv w' := by
  unfold delivInv
  rw [h]
  exact id

theorem delivExcept_csl {w w' : Warehouse} {i : Nat} (h : cslOf w' = cslOf w) :
    delivExcept w i → delivExcept w' i := by
  unfold delivExcept
  rw [h]
  exact id

theorem carryAt_csl {w w' : Warehouse} {i : Nat} (h : cslOf w' = cslOf w) :
    carryAt w i → carryAt w' i := by
  unfold carryAt
  rw [h]
  exact id

theorem delivExcept_of_inv {w : Warehouse} (i : Nat) (h : delivInv w) : delivExcept w i :=
  fun t ht _ => h t ht

theorem delivInv_kshape {w w' : Warehouse} (h : kshape w w') : delivInv w → delivInv w' :=
  delivInv_csl (cslOf_core h.2.2.2.2)

theorem delivExcept_kshape {w w' : Warehouse} {i : Nat} (h : kshape w w') :
    delivExcept w i → delivExcept w' i :=
  delivExcept_csl (cslOf_core h.2.2.2.2)

theorem carryAt_kshape {w w' : Warehouse} {i : Nat} (h : kshape w w') :
    carryAt w i → carryAt w' i :=
  carryAt_csl (cslOf_core h.2.2.2.2)

theorem cslOf_updAgent_cases {w : Warehouse} {i : Nat} {f : Agent → Agent}
    {t : Nat × Bool × AgentState} (ht : t ∈ cslOf (updAgent w i f)) :
    (∃ a ∈ w.agents, a.id = i ∧ t = ((f a).id, (f a).carrying_box, (f a).state)) ∨
      (∃ a ∈ w.agents, a.id ≠ i ∧ t = (a.id, a.carrying_box, a.state)) := by
  unfold cslOf updAgent at ht
  dsimp only at ht
  rw [List.map_map, List.mem_map] at ht
  obtain ⟨a, ha, hta⟩ := ht
  simp only [Function.comp] at hta
  by_cases hai : a.id = i
  · rw [if_pos hai] at hta
    exact Or.inl ⟨a, ha, hai, hta.symm⟩
  · rw [if_neg hai] at hta
    exact Or.inr ⟨a, ha, hai, hta.symm⟩

theorem cslOf_updAgent (w : Warehouse) (i : Nat) (f : Agent → Agent)
    (h : ∀ b, (f b).id = b.id ∧ (f b).carrying_box = b.carrying_box ∧
      (f b).state = b.state) :
    cslOf (updAgent w i f) = cslOf w := by
  unfold cslOf updAgent
  dsimp only
  rw [List.map_map]
  refine List.map_congr_left ?_
  intro a _
  by_cases hai : a.id = i <;>
    simp [Function.comp, hai, (h a).1, (h a).2.1, (h a).2.2]

theorem delivInv_upd_nondeliv (w : Warehouse) (i : Nat) (f : Agent → Agent)
    (hst : ∀ b, (f b).state ≠ AgentState.DELIVERING)
    (h : delivExcept w i) : delivInv (updAgent w i f) := by
  intro t ht hdel
  rcases cslOf_updAgent_cases ht with ⟨a, ha, hai, hta⟩ | ⟨a, ha, hai, hta⟩
  · rw [hta] at hdel
    exact absurd hdel (hst a)
  · rw [hta] at hdel ⊢
    exact h _ (List.mem_map_of_mem _ ha) hai hdel

theorem delivInv_upd_carry (w : Warehouse) (i : Nat) (f : Agent → Agent)
    (hc : ∀ b, (f b).carrying_box = true)
    (h : delivExcept w i) : delivInv (updAgent w i f) := by
  intro t ht hdel
  rcases cslOf_updAgent_cases ht with ⟨a, ha, hai, hta⟩ | ⟨a, ha, hai, hta⟩
  · rw [hta]
    exact hc a
  · rw [hta] at hdel ⊢
    exact h _ (List.mem_map_of_mem _ ha) hai hdel

theorem carryAt_upd_carry (w : Warehouse) (i : Nat) (f : Agent → Agent)
    (hc : ∀ b, (f b).carrying_box = true) : carryAt (updAgent w i f) i := by
  intro t ht hti
  rcases cslOf_updAgent_cases ht with ⟨a, ha, hai, hta⟩ | ⟨a, ha, hai, hta⟩
  · rw [hta]
    exact hc a
  · rw [hta] at hti
    exact absurd hti hai

theorem delivInv_upd_carryAt (w : Warehouse) (i : Nat) (f : Agent → Agent)
    (hc : ∀ b, (f b).carrying_box = b.carrying_box)
    (hca : carryAt w i) (h : delivExcept w i) : delivInv (updAgent w i f) := by
  intro t ht hdel
  rcases cslOf_updAgent_cases ht with ⟨a, ha, hai, hta⟩ | ⟨a, ha, hai, hta⟩
  · rw [hta]
    dsimp only
    rw [hc a]
    exact hca _ (List.mem_map_of_mem _ ha) hai
  · rw [hta] at hdel ⊢
    exact h _ (List.mem_map_of_mem _ ha) hai hdel

theorem delivExcept_upd (w : Warehouse) (i : Nat) (f : Agent → Agent)
    (hid : ∀ b, (f b).id = b.id)
    (h : delivExcept w i) : delivExcept (updAgent w i f) i := by
  intro t ht hti hdel
  rcases cslOf_updAgent_cases ht with ⟨a, ha, hai, hta⟩ | ⟨a, ha, hai, hta⟩
  · refine absurd hai ?_
    intro he
    refine hti ?_
    rw [hta]
    dsimp only
    rw [hid a, he]
  · rw [hta] at hti hdel ⊢
    exact h _ (List.mem_map_of_mem _ ha) hti hdel

theorem carryAt_upd_keep (w : Warehouse) (i : Nat) (f : Agent → Agent)
    (hc : ∀ b, (f b).carrying_box = b.carrying_box)
    (hca : carryAt w i) : carryAt (updAgent w i f) i := by
  intro t ht hti
  rcases cslOf_updAgent_cases ht with ⟨a, ha, hai, hta⟩ | ⟨a, ha, hai, hta⟩
  · rw [hta]
    dsimp only
    rw [hc a]
    exact hca _ (List.mem_map_of_mem _ ha) hai
  · rw [hta] at hti ⊢
    exact hca _ (List.mem_map_of_mem _ ha) hti

theorem move_csl (w : Warehouse) (i : Nat) (d : Pos) :
    cslOf (Agent.move w i d).1 = cslOf w := by
  cases hg : getAgent? w i with
  | none => rw [show (Agent.move w i d).1 = w by simp [Agent.move, hg]]
  | some a =>
    by_cases hcm : w.can_move_to (a.x + d.1) (a.y + d.2) a.id = true
    · have hone : ∀ w1 : Warehouse, w1.agents = w.agents →
          cslOf (Agent.sense_environment (updAgent ({ (updAgent w1 i (fun b => { b with x := a.x + d.1, y := a.y + d.2 })) with grid := gset (updAgent w1 i (fun b => { b with x := a.x + d.1, y := a.y + d.2 })).grid (a.x + d.1, a.y + d.2) (3 + i) }) i (fun b => { b with movements := b.movements + 1 })) i) = cslOf w := by
        intro w1 hw1
        rw [cslOf_core (kshape_sense _ i).2.2.2.2]
        rw [cslOf_updAgent _ i (fun b => { b with movements := b.movements + 1 }) (fun b => ⟨rfl, rfl, rfl⟩)]
        rw [cslOf_grid]
        rw [cslOf_updAgent _ i (fun b => { b with x := a.x + d.1, y := a.y + d.2 }) (fun b => ⟨rfl, rfl, rfl⟩)]
        exact cslOf_agents_eq hw1
      by_cases hold : w.grid (a.x, a.y) ≥ 3
      · by_cases hcnt : w.count_stack_size a.x a.y > 0
        · rw [show (Agent.move w i d).1 = Agent.sense_environment (updAgent ({ (updAgent { w with grid := gset w.grid (a.x, a.y) 2 } i (fun b => { b with x := a.x + d.1, y := a.y + d.2 })) with grid := gset (updAgent { w with grid := gset w.grid (a.x, a.y) 2 } i (fun b => { b with x := a.x + d.1, y := a.y + d.2 })).grid (a.x + d.1, a.y + d.2) (3 + i) }) i (fun b => { b with movements := b.movements + 1 })) i by simp [Agent.move, hg, hcm, hold, hcnt]]
          exact hone _ rfl
        · rw [show (Agent.move w i d).1 = Agent.sense_environment (updAgent ({ (updAgent { w with grid := gset w.grid (a.x, a.y) 0 } i (fun b => { b with x := a.x + d.1, y := a.y + d.2 })) with grid := gset (updAgent { w with grid := gset w.grid (a.x, a.y) 0 } i (fun b => { b with x := a.x + d.1, y := a.y + d.2 })).grid (a.x + d.1, a.y + d.2) (3 + i) }) i (fun b => { b with movements := b.movements + 1 })) i by simp [Agent.move, hg, hcm, hold, hcnt]]
          exact hone _ rfl
      · rw [show (Agent.move w i d).1 = Agent.sense_environment (updAgent ({ (updAgent w i (fun b => { b with x := a.x + d.1, y := a.y + d.2 })) with grid := gset (updAgent w i (fun b => { b with x := a.x + d.1, y := a.y + d.2 })).grid (a.x + d.1, a.y + d.2) (3 + i) }) i (fun b => { b with movements := b.movements + 1 })) i by simp [Agent.move, hg, hcm, hold]]
        exact hone w rfl
    · rw [show (Agent.move w i d).1 = w by simp [Agent.move, hg, hcm]]

theorem pick_deliv (w : Warehouse) (i : Nat) (x y : Int) (h : delivExcept w i) :
    delivExcept (Agent.pick_up_box w i x y).1 i ∧
      ((Agent.pick_up_box w i x y).2 = true → carryAt (Agent.pick_up_box w i x y).1 i) := by
  cases hg : getAgent? w i with
  | none =>
    rw [show Agent.pick_up_box w i x y = (w, false) by simp [Agent.pick_up_box, hg]]
    exact ⟨h, fun hc => by cases hc⟩
  | some a =>
    by_cases hcb : a.carrying_box
    · rw [show Agent.pick_up_box w i x y = (w, false) by simp [Agent.pick_up_box, hg, hcb]]
      exact ⟨h, fun hc => by cases hc⟩
    · have hcb' : a.carrying_box = false := by simpa using hcb
      cases hbox : w.get_box_at x y with
      | none =>
        rw [show Agent.pick_up_box w i x y = (w, false) by
          simp [Agent.pick_up_box, hg, hcb', hbox]]
        exact ⟨h, fun hc => by cases hc⟩
      | some box =>
        by_cases hcp : w.can_pick_up_box x y = true
        · rw [pick_up_box_success w i x y a box hg hcb' hbox hcp]
          dsimp only
          constructor
          · refine delivExcept_kshape (kshape_broadcast _ i _) ?_
            refine delivExcept_upd _ i _ (fun b => rfl) ?_
            refine delivExcept_csl (cslOf_agents_eq (remove_agents _ x y)) ?_
            exact delivExcept_upd _ i _ (fun b => rfl) h
          · intro hsucc
            refine carryAt_kshape (kshape_broadcast _ i _) ?_
            refine carryAt_upd_keep _ i _ (fun b => rfl) ?_
            refine carryAt_csl (cslOf_agents_eq (remove_agents _ x y)) ?_
            exact carryAt_upd_carry _ i _ (fun b => rfl)
        · rw [show Agent.pick_up_box w i x y = (w, false) by
            simp [Agent.pick_up_box, hg, hcb', hbox, hcp]]
          exact ⟨h, fun hc => by cases hc⟩

theorem drop_delivExcept (w : Warehouse) (i : Nat) (h : delivExcept w i) :
    delivExcept (Agent.drop_box w i).1 i := by
  cases hg : getAgent? w i with
  | none => rw [show Agent.drop_box w i = (w, false) by simp [Agent.drop_box, hg]]; exact h
  | some a =>
    by_cases hcb : a.carrying_box
    · by_cases hcp : w.can_place_box a.x a.y a.id = true
      · rw [drop_box_success w i a hg hcb hcp]
        dsimp only
        refine delivExcept_upd _ i _ (fun b => rfl) ?_
        exact delivExcept_csl (cslOf_agents_eq (place_box_agents w a.x a.y _ _)) h
      · rw [show Agent.drop_box w i = (w, false) by simp [Agent.drop_box, hg, hcb, hcp]]
        exact h
    · have hcb' : a.carrying_box = false := by simpa using hcb
      rw [show Agent.drop_box w i = (w, false) by simp [Agent.drop_box, hg, hcb']]
      exact h

theorem ids_kshape {w w' : Warehouse} (h : kshape w w') : idsOf w' = idsOf w :=
  ids_of_csl (cslOf_core h.2.2.2.2)

theorem ids_drop (w : Warehouse) (i : Nat) : idsOf (Agent.drop_box w i).1 = idsOf w := by
  cases hg : getAgent? w i with
  | none => rw [show Agent.drop_box w i = (w, false) by simp [Agent.drop_box, hg]]
  | some a =>
    by_cases hcb : a.carrying_box
    · by_cases hcp : w.can_place_box a.x a.y a.id = true
      · rw [drop_box_success w i a hg hcb hcp]
        dsimp only
        rw [ids_updAgent _ i (fun b => { b with carrying_box := false, carried_box_id := none }) (fun b => rfl)]
        unfold idsOf
        rw [place_box_agents]
      · rw [show Agent.drop_box w i = (w, false) by simp [Agent.drop_box, hg, hcb, hcp]]
    · have hcb' : a.carrying_box = false := by simpa using hcb
      rw [show Agent.drop_box w i = (w, false) by simp [Agent.drop_box, hg, hcb']]

theorem getAgent?_of_ids {w : Warehouse} {i : Nat} (h : i ∈ idsOf w) :
    ∃ a, getAgent? w i = some a := by
  unfold idsOf at h
  rw [List.mem_map] at h
  obtain ⟨a, ha, hai⟩ := h
  unfold getAgent?
  cases hf : w.agents.find? (fun b => b.id == i) with
  | some b => exact ⟨b, rfl⟩
  | none =>
    have hnone := List.find?_eq_none.mp hf a ha
    simp [hai] at hnone

theorem arrival_deliv (w : Warehouse) (i : Nat) (a2 : Agent) (tgt : Pos)
    (hg : getAgent? w i = some a2) (h : delivInv w) :
    delivInv (Agent.execute_arrival w i a2 tgt) := by
  unfold Agent.execute_arrival
  cases hst : a2.state with
  | PICKING_UP =>
    dsimp only
    have hpd := pick_deliv w i a2.x a2.y (delivExcept_of_inv i h)
    have hk5 := kshape_release (Agent.pick_up_box w i a2.x a2.y).1 i tgt
    have hex5 : delivExcept (Agent.release_target (Agent.pick_up_box w i a2.x a2.y).1 i tgt) i :=
      delivExcept_kshape hk5 hpd.1
    by_cases hpu : (Agent.pick_up_box w i a2.x a2.y).2 = true
    · refine delivInv_upd_carryAt _ i _ (fun b => rfl) ?_ hex5
      exact carryAt_kshape hk5 (hpd.2 hpu)
    · refine delivInv_upd_nondeliv _ i _ ?_ hex5
      intro b hx
      have hfalse : (Agent.pick_up_box w i a2.x a2.y).2 = false := by
        revert hpu
        cases (Agent.pick_up_box w i a2.x a2.y).2 <;> simp
      rw [hfalse] at hx
      simp at hx
  | DELIVERING =>
    dsimp only
    have hex := delivExcept_of_inv i h
    have hexd := drop_delivExcept w i hex
    have hk4 := kshape_release (Agent.drop_box w i).1 i tgt
    have hex4 := delivExcept_kshape hk4 hexd
    have hex5 := delivExcept_upd _ i (fun b => { b with target := none }) (fun b => rfl) hex4
    have hids : i ∈ idsOf (updAgent (Agent.release_target (Agent.drop_box w i).1 i tgt) i (fun b => { b with target := none })) := by
      rw [ids_updAgent _ i (fun b => { b with target := none }) (fun b => rfl), ids_kshape hk4, ids_drop]
      unfold idsOf
      rw [List.mem_map]
      exact ⟨a2, getAgent?_mem hg, getAgent?_id hg⟩
    cases hg5 : getAgent? (updAgent (Agent.release_target (Agent.drop_box w i).1 i tgt) i (fun b => { b with target := none })) i with
    | none =>
      obtain ⟨b, hb⟩ := getAgent?_of_ids hids
      rw [hg5] at hb
      cases hb
    | some a3 =>
      dsimp only
      cases hfk : (Agent.find_nearest_known_box (updAgent (Agent.release_target (Agent.drop_box w i).1 i tgt) i (fun b => { b with target := none })) a3).2 with
      | some kb =>
        dsimp only
        refine delivInv_kshape (kshape_retarget _ i kb) ?_
        refine delivInv_upd_nondeliv _ i _ (fun b hx => AgentState.noConfusion hx) ?_
        exact delivExcept_upd _ i _ (fun b => rfl) hex5
      | none =>
        refine delivInv_upd_nondeliv _ i _ (fun b hx => AgentState.noConfusion hx) ?_
        exact delivExcept_upd _ i _ (fun b => rfl) hex5
  | SEARCHING =>
    dsimp only
    exact delivInv_kshape (kshape_updAgent w i _ (fun b _ => rfl)) h

theorem decide_searching_deliv (w : Warehouse) (i : Nat) (a : Agent) (j : Bool) (sp : Pos)
    (h : delivInv w) : delivInv (Agent.decide_searching w i a j sp) := by
  unfold Agent.decide_searching
  dsimp only
  have h3 : delivInv (updAgent w i (fun b => { b with known_unassigned_boxes := (Agent.find_nearest_known_box w a).1.known_unassigned_boxes })) :=
    delivInv_kshape (kshape_updAgent w i _ (fun b _ => rfl)) h
  cases hfk : (Agent.find_nearest_known_box w a).2 with
  | some kb =>
    dsimp only
    refine delivInv_kshape (kshape_retarget _ i kb) ?_
    exact delivInv_upd_nondeliv _ i _ (fun b hx => AgentState.noConfusion hx)
      (delivExcept_of_inv i h3)
  | none =>
    dsimp only
    split
    · split
      · exact delivInv_kshape (kshape_updAgent _ i _ (fun b _ => rfl)) h3
      · exact delivInv_kshape (kshape_updAgent _ i _ (fun b _ => rfl))
          (delivInv_kshape (kshape_updAgent _ i _ (fun b _ => rfl)) h3)
    · exact h3

theorem decide_delivering_deliv (w : Warehouse) (i : Nat) (a : Agent)
    (h : delivInv w) : delivInv (Agent.decide_delivering w i a) := by
  unfold Agent.decide_delivering
  cases hfs : Agent.find_nearest_shelf w a with
  | some shelf =>
    dsimp only
    split
    · refine delivInv_kshape (kshape_retarget _ i shelf) ?_
      refine delivInv_kshape (kshape_updAgent _ i _ (fun b _ => rfl)) ?_
      split
      · exact delivInv_kshape (kshape_release w i _) h
      · exact h
    · split
      · exact delivInv_kshape (kshape_updAgent _ i _ (fun b _ => rfl)) h
      · exact h
  | none =>
    dsimp only
    refine delivInv_upd_nondeliv _ i _ (fun b hx => AgentState.noConfusion hx) ?_
    exact drop_delivExcept w i (delivExcept_of_inv i h)

theorem decide_picking_up_deliv (w : Warehouse) (i : Nat) (a : Agent)
    (h : delivInv w) : delivInv (Agent.decide_picking_up w i a) := by
  unfold Agent.decide_picking_up
  dsimp only
  split
  · split
    · exact delivInv_kshape (kshape_updAgent _ i _ (fun b _ => rfl)) h
    · exact h
  · cases hta : a.target with
    | some t =>
      dsimp only
      have h3 : delivInv (Agent.release_target w i t) :=
        delivInv_kshape (kshape_release w i t) h
      split
      · exact h3
      · split
        · refine delivInv_kshape (kshape_retarget _ i _) ?_
          refine delivInv_kshape (kshape_updAgent _ i _ (fun b _ => rfl)) ?_
          exact delivInv_kshape (kshape_updAgent _ i _ (fun b _ => rfl)) h3
        · refine delivInv_upd_nondeliv _ i _ (fun b hx => AgentState.noConfusion hx) ?_
          exact delivExcept_upd _ i _ (fun b => rfl) (delivExcept_of_inv i h3)
    | none =>
      dsimp only
      split
      · exact h
      · split
        · refine delivInv_kshape (kshape_retarget _ i _) ?_
          refine delivInv_kshape (kshape_updAgent _ i _ (fun b _ => rfl)) ?_
          exact delivInv_kshape (kshape_updAgent _ i _ (fun b _ => rfl)) h
        · refine delivInv_upd_nondeliv _ i _ (fun b hx => AgentState.noConfusion hx) ?_
          exact delivExcept_upd _ i _ (fun b => rfl) (delivExcept_of_inv i h)

theorem decide_action_deliv (w : Warehouse) (i : Nat) (j : Bool) (sp : Pos)
    (h : delivInv w) : delivInv (Agent.decide_action w i j sp) := by
  unfold Agent.decide_action
  dsimp only
  have h2 : delivInv (Agent.sense_environment (updAgent w i Agent.process_messages) i) :=
    delivInv_kshape (kshape_sense _ i)
      (delivInv_kshape (kshape_updAgent w i _ (fun b _ => rfl)) h)
  cases hg2 : getAgent? (Agent.sense_environment (updAgent w i Agent.process_messages) i) i with
  | none => exact h2
  | some a =>
    dsimp only
    cases hst : a.state with
    | SEARCHING => exact decide_searching_deliv _ i a j sp h2
    | DELIVERING => exact decide_delivering_deliv _ i a h2
    | PICKING_UP => exact decide_picking_up_deliv _ i a h2

theorem execute_action_deliv (w : Warehouse) (i : Nat) (h : delivInv w) :
    delivInv (Agent.execute_action w i) := by
  unfold Agent.execute_action
  cases hg : getAgent? w i with
  | none => exact h
  | some a =>
    dsimp only
    cases hpath : a.path with
    | nil => exact delivInv_kshape (kshape_sense w i) h
    | cons dir rest =>
      dsimp only
      have h2 : delivInv (Agent.move (updAgent w i (fun b => { b with path := rest })) i dir).1 :=
        delivInv_csl (move_csl _ i dir)
          (delivInv_kshape (kshape_updAgent w i _ (fun b _ => rfl)) h)
      by_cases hmv : (Agent.move (updAgent w i (fun b => { b with path := rest })) i dir).2 = true
      · rw [if_neg (fun hn => hn hmv)]
        split
        · exact h2
        · rename_i a2 hg3
          split
          · exact h2
          · rename_i tgt htgt
            split
            · exact arrival_deliv _ i a2 tgt hg3 h2
            · exact h2
      · rw [if_pos hmv]
        have h3 : delivInv (updAgent (Agent.move (updAgent w i (fun b => { b with path := rest })) i dir).1 i (fun b => { b with path := [] })) :=
          delivInv_kshape (kshape_updAgent _ i _ (fun b _ => rfl)) h2
        split
        · exact h3
        · rename_i a2 hg3
          split
          · exact h3
          · rename_i tgt htgt
            split
            · exact arrival_deliv _ i a2 tgt hg3 h3
            · exact h3

theorem turn_deliv (w : Warehouse) (i : Nat) (j : Bool) (sp : Pos) (h : delivInv w) :
    delivInv (turn w i j sp) :=
  execute_action_deliv _ i (decide_action_deliv w i j sp h)

theorem reach_deliv {w0 w : Warehouse} (h : ReachableFrom w0 w) (h0 : delivInv w0) :
    delivInv w := by
  induction h with
  | refl => exact h0
  | step i j sp hr ih => exact turn_deliv _ i j sp ih

theorem delivInv_append_searching (w w' : Warehouse) (aid : Nat) (x y : Int)
    (hag : w'.agents = w.agents ++ [mkAgent aid x y]) (h : delivInv w) : delivInv w' := by
  intro t ht
  unfold cslOf at ht
  rw [hag, List.map_append] at ht
  rcases List.mem_append.mp ht with ht | ht
  · exact h t ht
  · simp only [List.map_cons, List.map_nil, List.mem_singleton] at ht
    intro hx
    rw [ht] at hx
    exact AgentState.noConfusion hx

theorem tryPlaceAgent_deliv (w : Warehouse) (placed : List Pos) (aid : Nat)
    (trials : List Pos) (h : delivInv w) :
    delivInv (tryPlaceAgent w placed aid trials).1 := by
  induction trials generalizing placed with
  | nil => exact h
  | cons p rest ih =>
    rw [tryPlaceAgent]
    split
    case isTrue hcond =>
      dsimp only
      split
      · exact delivInv_append_searching w _ aid p.1 p.2 rfl h
      · exact delivInv_append_searching w _ aid p.1 p.2 rfl h
    case isFalse => exact ih placed

theorem agent_fold_deliv (trialsAll : List (List Pos)) (l : List Nat)
    (st : Warehouse × List Pos) (h : delivInv st.1) :
    delivInv ((l.foldl (fun st i => tryPlaceAgent st.1 st.2 i (trialsAll.getD i [])) st)).1 := by
  induction l generalizing st with
  | nil => exact h
  | cons i rest ih =>
    rw [List.foldl_cons]
    exact ih _ (tryPlaceAgent_deliv st.1 st.2 i _ h)

theorem init_deliv (width height : Int) (nb na : Nat)
    (boxTrials agentTrials : List (List Pos)) :
    delivInv (initialize_warehouse width height nb na boxTrials agentTrials) := by
  unfold initialize_warehouse
  dsimp only
  have hbox := box_fold_inv boxTrials (List.range nb)
    { width := width, height := height, num_boxes := nb, num_agents := na,
      grid := initGrid width height, agents := [], boxes := [], box_locations := [],
      processed_boxes := [],
      agent_deliveries := (List.range na).map (fun i => (i, 0)) }
    ⟨List.nodup_nil, fun p hp => absurd hp (List.not_mem_nil p), rfl⟩
  refine agent_fold_deliv agentTrials (List.range na) _ ?_
  intro t ht
  unfold cslOf at ht
  rw [hbox.2.2] at ht
  cases ht

/-- C9: in every state reachable from an initialized warehouse, every agent
whose state is `DELIVERING` has `carrying_box = true` (`DELIVERING` is
entered only right after a successful pickup and left in the same turn any
drop happens). -/
theorem C9_delivering_implies_carrying (width height : Int) (nb na : Nat)
    (boxTrials agentTrials : List (List Pos)) (w : Warehouse)
    (hreach : ReachableFrom (initialize_warehouse width height nb na boxTrials agentTrials) w) :
    delivering_implies_carrying w := by
  rw [delivInv_iff]
  exact reach_deliv hreach (init_deliv width height nb na boxTrials agentTrials)

/-- Witness for C9: the invariant holds of a concretely initialized 5×5
warehouse reached by zero turns. -/
theorem C9_delivering_implies_carrying_witness :
    delivering_implies_carrying (initialize_warehouse 5 5 1 1 [[(3, 1)]] [[(2, 3)]]) :=
  C9_delivering_implies_carrying 5 5 1 1 [[(3, 1)]] [[(2, 3)]] _ ReachableFrom.refl

/-- Counterexample to C6 as stated: in `c6w` agent 0 is `DELIVERING`,
`find_nearest_shelf` yields no candidate at all, yet after that turn's
`decide_action` the agent STILL carries its box — `drop_box` silently fails
because the stack beneath the agent is full — and only the state reverts to
`SEARCHING`; the stack is unchanged. -/
theorem C6_counterexample :
    (getAgent? c6w 0).map Agent.state = some AgentState.DELIVERING ∧
    Agent.find_nearest_shelf c6w c6agent = none ∧
    (getAgent? (Agent.decide_action c6w 0 false (1, 1)) 0).map
      (fun b => (b.carrying_box, b.state)) = some (true, AgentState.SEARCHING) ∧
    (Agent.decide_action c6w 0 false (1, 1)).box_locations = c6w.box_locations := by
  refine ⟨by decide, by decide, by decide, by decide⟩

/-- Amended C6: in the `DELIVERING` fallback (no shelf candidate at all) the
agent ATTEMPTS to drop the carried box at its current coordinate and reverts
to `SEARCHING` in every case; the box is actually dropped exactly when
`can_place_box` holds at the agent's cell (it is appended to the stack there
and the agent stops carrying), and when `can_place_box` fails — the stack
beneath the agent is already full — the warehouse is left unchanged and the
agent keeps carrying the box. -/
theorem C6_delivering_fallback (w : Warehouse) (i : Nat) (a : Agent)
    (hg : getAgent? w i = some a) (hst : a.state = AgentState.DELIVERING)
    (hcb : a.carrying_box = true)
    (hns : Agent.find_nearest_shelf w a = none) :
    Agent.decide_delivering w i a
      = updAgent (Agent.drop_box w i).1 i (fun b => { b with state := AgentState.SEARCHING }) ∧
    ((Agent.drop_box w i).2 = true ↔ w.can_place_box a.x a.y a.id = true) ∧
    (w.can_place_box a.x a.y a.id = true →
      (Agent.drop_box w i).1
        = updAgent (w.place_box a.x a.y (a.carried_box_id.getD 0) (some a.id)) i
            (fun b => { b with carrying_box := false, carried_box_id := none })) ∧
    (w.can_place_box a.x a.y a.id = false → (Agent.drop_box w i).1 = w) := by
  refine ⟨?_, ⟨?_, ?_⟩, ?_, ?_⟩
  · unfold Agent.decide_delivering
    rw [hns]
  · intro hsucc
    by_cases hcp : w.can_place_box a.x a.y a.id = true
    · exact hcp
    · rw [show Agent.drop_box w i = (w, false) by simp [Agent.drop_box, hg, hcb, hcp]] at hsucc
      cases hsucc
  · intro hcp
    rw [drop_box_success w i a hg hcb hcp]
  · intro hcp
    rw [drop_box_success w i a hg hcb hcp]
  · intro hcp
    rw [show Agent.drop_box w i = (w, false) by simp [Agent.drop_box, hg, hcb, hcp]]

/-- Witness for the amended C6 at the concrete state `c6w` (where the drop
fails and the warehouse is left unchanged). -/
theorem C6_delivering_fallback_witness :
    Agent.decide_delivering c6w 0 c6agent
        = updAgent (Agent.drop_box c6w 0).1 0 (fun b => { b with state := AgentState.SEARCHING }) ∧
      ((Agent.drop_box c6w 0).2 = true ↔ c6w.can_place_box c6agent.x c6agent.y c6agent.id = true) ∧
      (c6w.can_place_box c6agent.x c6agent.y c6agent.id = true →
        (Agent.drop_box c6w 0).1
          = updAgent (c6w.place_box c6agent.x c6agent.y (c6agent.carried_box_id.getD 0) (some c6agent.id)) 0
              (fun b => { b with carrying_box := false, carried_box_id := none })) ∧
      (c6w.can_place_box c6agent.x c6agent.y c6agent.id = false → (Agent.drop_box c6w 0).1 = c6w) :=
  C6_delivering_fallback c6w 0 c6agent rfl rfl rfl (by decide)

theorem sensedAgent_id (i : Nat) (st : AgentState) (sx sy : Int) (cr : Nat)
    (newly : List Pos) (b : Agent) : (sensedAgent i st sx sy cr newly b).id = b.id :=
  rfl

theorem sensedAgent_nil (i : Nat) (st : AgentState) (sx sy : Int) (cr : Nat)
    (b : Agent) : sensedAgent i st sx sy cr [] b = b := by
  unfold sensedAgent
  simp [ite_self]

theorem sensedView_nil (w : Warehouse) (i : Nat) (st : AgentState) (sx sy : Int)
    (cr : Nat) : sensedView w i st sx sy cr [] = w := by
  unfold sensedView
  have hm : w.agents.map (sensedAgent i st sx sy cr []) = w.agents := by
    rw [List.map_congr_left (fun b _ => sensedAgent_nil i st sx sy cr b)]
    exact List.map_id w.agents
  rw [hm]

theorem sensedAgent_comp (i : Nat) (st : AgentState) (sx sy : Int) (cr : Nat)
    (n1 n2 : List Pos) (b : Agent) :
    sensedAgent i st sx sy cr n2 (sensedAgent i st sx sy cr n1 b)
      = sensedAgent i st sx sy cr (n1 ++ n2) b := by
  unfold sensedAgent
  dsimp only
  by_cases hbi : b.id = i <;>
    by_cases hst : st = AgentState.SEARCHING <;>
      by_cases hrg : (b.x - sx).natAbs + (b.y - sy).natAbs ≤ cr <;>
        simp [hbi, hst, hrg, List.append_assoc, List.map_append]

theorem sensedView_comp (w : Warehouse) (i : Nat) (st : AgentState) (sx sy : Int)
    (cr : Nat) (n1 n2 : List Pos) :
    sensedView (sensedView w i st sx sy cr n1) i st sx sy cr n2
      = sensedView w i st sx sy cr (n1 ++ n2) := by
  unfold sensedView
  dsimp only
  rw [List.map_map]
  rw [List.map_congr_left (fun b _ => by
    simp only [Function.comp]
    exact sensedAgent_comp i st sx sy cr n1 n2 b)]

theorem getAgent?_sensedView (w : Warehouse) (i : Nat) (st : AgentState)
    (sx sy : Int) (cr : Nat) (newly : List Pos) (j : Nat) :
    getAgent? (sensedView w i st sx sy cr newly) j
      = (getAgent? w j).map (sensedAgent i st sx sy cr newly) := by
  unfold sensedView
  exact getAgent?_agents_map w j _ (fun b => rfl)

theorem sense_step_view (w : Warehouse) (i : Nat) (a : Agent) (p : Pos)
    (hg : getAgent? w i = some a) :
    (if a.state = AgentState.SEARCHING then
        Agent.broadcast_message
          (updAgent w i (fun b => { b with known_unassigned_boxes := b.known_unassigned_boxes ++ [p] })) i
          ⟨MsgType.BOX_DISCOVERED, p, i⟩
      else updAgent w i (fun b => { b with known_unassigned_boxes := b.known_unassigned_boxes ++ [p] }))
      = sensedView w i a.state a.x a.y a.communication_range [p] := by
  have hida : a.id = i := getAgent?_id hg
  by_cases hst : a.state = AgentState.SEARCHING
  · rw [if_pos hst]
    have h2 : getAgent? (updAgent w i (fun b => { b with known_unassigned_boxes := b.known_unassigned_boxes ++ [p] })) i = some { a with known_unassigned_boxes := a.known_unassigned_boxes ++ [p] } := by
      rw [getAgent?_updAgent_self w i (fun b => { b with known_unassigned_boxes := b.known_unassigned_boxes ++ [p] }) (fun b => rfl), hg]
      simp [hida]
    unfold Agent.broadcast_message
    rw [h2]
    unfold sensedView updAgent
    dsimp only
    rw [List.map_map]
    congr 1
    refine List.map_congr_left ?_
    intro b _
    by_cases hbi : b.id = i <;>
      by_cases hrg : (b.x - a.x).natAbs + (b.y - a.y).natAbs ≤ a.communication_range <;>
        simp [Function.comp, sensedAgent, Agent.receive_message, msgOfDiscovery, hbi, hst, hrg]
  · rw [if_neg hst]
    unfold sensedView updAgent
    dsimp only
    congr 1
    refine List.map_congr_left ?_
    intro b _
    by_cases hbi : b.id = i <;> simp [sensedAgent, hbi, hst]

theorem senseRay_view (i : Nat) (d : Pos) (st : AgentState) (sx sy : Int) (cr : Nat)
    (dists : List Nat) :
    ∀ (w : Warehouse) (a0 : Agent), getAgent? w i = some a0 →
      a0.state = st → a0.x = sx → a0.y = sy → a0.communication_range = cr →
      ∃ newly : List Pos,
        newly.Nodup ∧ (∀ p ∈ newly, p ∉ a0.known_unassigned_boxes) ∧
        senseRay i d dists w = sensedView w i st sx sy cr newly := by
  induction dists with
  | nil =>
    intro w a0 hg hst hsx hsy hcr
    exact ⟨[], List.nodup_nil, fun p hp => absurd hp (List.not_mem_nil p),
      by rw [senseRay]; exact (sensedView_nil w i st sx sy cr).symm⟩
  | cons dist rest ih =>
    intro w a0 hg hst hsx hsy hcr
    subst hst hsx hsy hcr
    rw [senseRay, hg]
    dsimp only
    by_cases hval : ¬ w.is_valid_position (a0.x + d.1 * (dist : Int)) (a0.y + d.2 * (dist : Int)) = true
    · rw [if_pos hval]
      exact ⟨[], List.nodup_nil, fun p hp => absurd hp (List.not_mem_nil p),
        (sensedView_nil w i a0.state a0.x a0.y a0.communication_range).symm⟩
    · rw [if_neg hval]
      by_cases hwall : w.get_cell_type (a0.x + d.1 * (dist : Int)) (a0.y + d.2 * (dist : Int)) = "wall"
      · rw [if_pos hwall]
        exact ⟨[], List.nodup_nil, fun p hp => absurd hp (List.not_mem_nil p),
          (sensedView_nil w i a0.state a0.x a0.y a0.communication_range).symm⟩
      · rw [if_neg hwall]
        by_cases hbox : w.get_cell_type (a0.x + d.1 * (dist : Int)) (a0.y + d.2 * (dist : Int)) = "box"
        · rw [if_pos hbox]
          by_cases hcnt : w.count_stack_size (a0.x + d.1 * (dist : Int)) (a0.y + d.2 * (dist : Int)) = 1
          · rw [if_pos hcnt]
            by_cases hguard : ¬ (w.agents.any (fun ag => ag.id != i && (ag.state == AgentState.DELIVERING && ag.target == some (a0.x + d.1 * (dist : Int), a0.y + d.2 * (dist : Int))))) = true ∧ (a0.x + d.1 * (dist : Int), a0.y + d.2 * (dist : Int)) ∉ a0.known_unassigned_boxes
            · rw [if_pos hguard]
              have hstep := sense_step_view w i a0 (a0.x + d.1 * (dist : Int), a0.y + d.2 * (dist : Int)) hg
              rw [hstep]
              have hgB : getAgent? (sensedView w i a0.state a0.x a0.y a0.communication_range [(a0.x + d.1 * (dist : Int), a0.y + d.2 * (dist : Int))]) i = some (sensedAgent i a0.state a0.x a0.y a0.communication_range [(a0.x + d.1 * (dist : Int), a0.y + d.2 * (dist : Int))] a0) := by
                rw [getAgent?_sensedView, hg]
                rfl
              obtain ⟨n2, hnd2, hf2, heq2⟩ :=
                ih (sensedView w i a0.state a0.x a0.y a0.communication_range [(a0.x + d.1 * (dist : Int), a0.y + d.2 * (dist : Int))])
                  (sensedAgent i a0.state a0.x a0.y a0.communication_range [(a0.x + d.1 * (dist : Int), a0.y + d.2 * (dist : Int))] a0)
                  hgB rfl rfl rfl rfl
              have hkB : (sensedAgent i a0.state a0.x a0.y a0.communication_range [(a0.x + d.1 * (dist : Int), a0.y + d.2 * (dist : Int))] a0).known_unassigned_boxes = a0.known_unassigned_boxes ++ [(a0.x + d.1 * (dist : Int), a0.y + d.2 * (dist : Int))] := by
                unfold sensedAgent
                dsimp only
                rw [if_pos (getAgent?_id hg)]
              refine ⟨(a0.x + d.1 * (dist : Int), a0.y + d.2 * (dist : Int)) :: n2, ?_, ?_, ?_⟩
              · rw [List.nodup_cons]
                refine ⟨?_, hnd2⟩
                intro hmem
                have := hf2 _ hmem
                rw [hkB] at this
                exact this (List.mem_append_right _ (List.mem_singleton_self _))
              · intro q hq
                rcases List.mem_cons.mp hq with hq | hq
                · rw [hq]
                  exact hguard.2
                · intro hqa
                  have := hf2 q hq
                  rw [hkB] at this
                  exact this (List.mem_append_left _ hqa)
              · rw [heq2, sensedView_comp]
                rfl
            · rw [if_neg hguard]
              exact ih w a0 hg rfl rfl rfl rfl
          · rw [if_neg hcnt]
            exact ih w a0 hg rfl rfl rfl rfl
        · rw [if_neg hbox]
          exact ih w a0 hg rfl rfl rfl rfl

theorem senseFold_view (i : Nat) (st : AgentState) (sx sy : Int) (cr : Nat)
    (dists : List Nat) (ds : List Pos) :
    ∀ (w : Warehouse) (a0 : Agent), getAgent? w i = some a0 →
      a0.state = st → a0.x = sx → a0.y = sy → a0.communication_range = cr →
      ∃ newly : List Pos,
        newly.Nodup ∧ (∀ p ∈ newly, p ∉ a0.known_unassigned_boxes) ∧
        ds.foldl (fun wacc dd => senseRay i dd dists wacc) w = sensedView w i st sx sy cr newly := by
  induction ds with
  | nil =>
    intro w a0 hg hst hsx hsy hcr
    exact ⟨[], List.nodup_nil, fun p hp => absurd hp (List.not_mem_nil p),
      (sensedView_nil w i st sx sy cr).symm⟩
  | cons d ds ih =>
    intro w a0 hg hst hsx hsy hcr
    subst hst hsx hsy hcr
    rw [List.foldl_cons]
    obtain ⟨n1, hnd1, hf1, he1⟩ := senseRay_view i d a0.state a0.x a0.y a0.communication_range dists w a0 hg rfl rfl rfl rfl
    rw [he1]
    have hgB : getAgent? (sensedView w i a0.state a0.x a0.y a0.communication_range n1) i
        = some (sensedAgent i a0.state a0.x a0.y a0.communication_range n1 a0) := by
      rw [getAgent?_sensedView, hg]
      rfl
    have hkB : (sensedAgent i a0.state a0.x a0.y a0.communication_range n1 a0).known_unassigned_boxes
        = a0.known_unassigned_boxes ++ n1 := by
      unfold sensedAgent
      dsimp only
      rw [if_pos (getAgent?_id hg)]
    obtain ⟨n2, hnd2, hf2, he2⟩ := ih (sensedView w i a0.state a0.x a0.y a0.communication_range n1)
      (sensedAgent i a0.state a0.x a0.y a0.communication_range n1 a0) hgB rfl rfl rfl rfl
    refine ⟨n1 ++ n2, ?_, ?_, ?_⟩
    · refine List.Nodup.append hnd1 hnd2 ?_
      intro q hq1 hq2
      have := hf2 q hq2
      rw [hkB] at this
      exact this (List.mem_append_right _ hq1)
    · intro q hq
      rcases List.mem_append.mp hq with hq | hq
      · exact hf1 q hq
      · intro hqa
        have := hf2 q hq
        rw [hkB] at this
        exact this (List.mem_append_left _ hqa)
    · rw [he2, sensedView_comp]

theorem sense_view (w : Warehouse) (i : Nat) (a : Agent)
    (hg : getAgent? w i = some a) :
    ∃ newly : List Pos,
      newly.Nodup ∧ (∀ p ∈ newly, p ∉ a.known_unassigned_boxes) ∧
      Agent.sense_environment w i
        = sensedView w i a.state a.x a.y a.communication_range newly := by
  unfold Agent.sense_environment
  rw [hg]
  exact senseFold_view i a.state a.x a.y a.communication_range
    ((List.range a.sensor_range).map (fun k => k + 1)) directions w a hg rfl rfl rfl rfl

/-- C7: one sensing pass of agent `i` changes the warehouse exactly as
`sensedView` describes for some list of freshly discovered coordinates —
each is recorded once in the sensing agent's own
`known_unassigned_boxes`, and every other agent within communication range
receives exactly one BOX_DISCOVERED message per discovered coordinate when
(and only when) the sensing agent is in the SEARCHING state; in particular
an agent in PICKING_UP or DELIVERING state sends zero outbound messages
while still recording what it senses. -/
theorem C7_message_suppression (w : Warehouse) (i : Nat) (a : Agent)
    (hg : getAgent? w i = some a) :
    ∃ newly : List Pos,
      newly.Nodup ∧ (∀ p ∈ newly, p ∉ a.known_unassigned_boxes) ∧
      Agent.sense_environment w i
        = sensedView w i a.state a.x a.y a.communication_range newly ∧
      (a.state ≠ AgentState.SEARCHING →
        (Agent.sense_environment w i).agents.map Agent.messages
          = w.agents.map Agent.messages) := by
  obtain ⟨newly, hnd, hf, heq⟩ := sense_view w i a hg
  refine ⟨newly, hnd, hf, heq, ?_⟩
  intro hst
  rw [heq]
  unfold sensedView
  dsimp only
  rw [List.map_map]
  refine List.map_congr_left ?_
  intro b _
  simp [Function.comp, sensedAgent, hst]

/-- Witness for C7 at the concrete warehouse `c6w`, whose agent 0 is in the
DELIVERING state. -/
theorem C7_message_suppression_witness :
    ∃ newly : List Pos,
      newly.Nodup ∧ (∀ p ∈ newly, p ∉ c6agent.known_unassigned_boxes) ∧
      Agent.sense_environment c6w 0
        = sensedView c6w 0 c6agent.state c6agent.x c6agent.y c6agent.communication_range newly ∧
      (c6agent.state ≠ AgentState.SEARCHING →
        (Agent.sense_environment c6w 0).agents.map Agent.messages
          = c6w.agents.map Agent.messages) :=
  C7_message_suppression c6w 0 c6agent rfl

theorem lexLtB_trans : ∀ (x y z : List Pos),
    lexLtB x y = true → lexLtB y z = true → lexLtB x z = true := by
  intro x
  induction x with
  | nil =>
    intro y z hxy hyz
    cases z with
    | nil => cases y <;> simp [lexLtB] at hyz
    | cons c cs => simp [lexLtB]
  | cons a as ih =>
    intro y z hxy hyz
    cases y with
    | nil => simp [lexLtB] at hxy
    | cons b bs =>
      cases z with
      | nil => simp [lexLtB] at hyz
      | cons c cs =>
        simp only [lexLtB, Bool.or_eq_true, Bool.and_eq_true, decide_eq_true_eq,
          beq_iff_eq] at hxy hyz ⊢
        rcases hxy with h1 | ⟨he1, hr1⟩
        · rcases hyz with h2 | ⟨he2, hr2⟩
          · exact Or.inl (by omega)
          · exact Or.inl (by omega)
        · rcases hyz with h2 | ⟨he2, hr2⟩
          · exact Or.inl (by omega)
          · exact Or.inr ⟨by omega, ih bs cs hr1 hr2⟩

theorem pathLtB_le_length {p q : List Pos} (h : pathLtB p q = true) :
    p.length ≤ q.length := by
  unfold pathLtB at h
  simp only [Bool.or_eq_true, Bool.and_eq_true, decide_eq_true_eq, beq_iff_eq] at h
  rcases h with h | ⟨h, _⟩ <;> omega

theorem pathLtB_of_length {p q : List Pos} (h : p.length < q.length) :
    pathLtB p q = true := by
  unfold pathLtB
  simp only [Bool.or_eq_true, Bool.and_eq_true, decide_eq_true_eq, beq_iff_eq]
  exact Or.inl h

theorem pathLtB_trans {p q r : List Pos} (h1 : pathLtB p q = true)
    (h2 : pathLtB q r = true) : pathLtB p r = true := by
  unfold pathLtB at h1 h2 ⊢
  simp only [Bool.or_eq_true, Bool.and_eq_true, decide_eq_true_eq, beq_iff_eq]
    at h1 h2 ⊢
  rcases h1 with h1 | ⟨h1, hl1⟩
  · rcases h2 with h2 | ⟨h2, _⟩
    · exact Or.inl (by omega)
    · exact Or.inl (by omega)
  · rcases h2 with h2 | ⟨h2, hl2⟩
    · exact Or.inl (by omega)
    · exact Or.inr ⟨by omega, lexLtB_trans p q r hl1 hl2⟩

theorem pathLeB_refl (p : List Pos) : pathLeB p p = true := by
  unfold pathLeB
  simp

theorem pathLeB_of_lt {p q : List Pos} (h : pathLtB p q = true) : pathLeB p q = true := by
  unfold pathLeB
  simp [h]

theorem pathLeB_cases {p q : List Pos} (h : pathLeB p q = true) :
    pathLtB p q = true ∨ p = q := by
  unfold pathLeB at h
  simp only [Bool.or_eq_true, decide_eq_true_eq] at h
  exact h

theorem pathLeB_le_length {p q : List Pos} (h : pathLeB p q = true) :
    p.length ≤ q.length := by
  rcases pathLeB_cases h with h | h
  · exact pathLtB_le_length h
  · rw [h]

theorem pathLtB_of_lt_of_le {p q r : List Pos} (h1 : pathLtB p q = true)
    (h2 : pathLeB q r = true) : pathLtB p r = true := by
  rcases pathLeB_cases h2 with h2 | h2
  · exact pathLtB_trans h1 h2
  · rw [← h2]
    exact h1

theorem pathLeB_trans {p q r : List Pos} (h1 : pathLeB p q = true)
    (h2 : pathLeB q r = true) : pathLeB p r = true := by
  rcases pathLeB_cases h1 with h1 | h1
  · exact pathLeB_of_lt (pathLtB_of_lt_of_le h1 h2)
  · rw [h1]
    exact h2

theorem lexLtB_append {p q : List Pos} (a b : Pos) (hlen : p.length = q.length)
    (h : lexLtB p q = true) : lexLtB (p ++ [a]) (q ++ [b]) = true := by
  induction p generalizing q with
  | nil =>
    cases q with
    | nil => simp [lexLtB] at h
    | cons c cs => simp at hlen
  | cons x xs ih =>
    cases q with
    | nil => simp at hlen
    | cons y ys =>
      simp only [List.cons_append]
      simp only [lexLtB, Bool.or_eq_true, Bool.and_eq_true, decide_eq_true_eq,
        beq_iff_eq] at h ⊢
      rcases h with h | ⟨he, hr⟩
      · exact Or.inl h
      · refine Or.inr ⟨he, ih ?_ hr⟩
        simpa using hlen

theorem pathLtB_append_both {p q : List Pos} (a b : Pos) (h : pathLtB p q = true) :
    pathLtB (p ++ [a]) (q ++ [b]) = true := by
  unfold pathLtB at h ⊢
  simp only [Bool.or_eq_true, Bool.and_eq_true, decide_eq_true_eq, beq_iff_eq,
    List.length_append, List.length_singleton] at h ⊢
  rcases h with h | ⟨hlen, hlex⟩
  · exact Or.inl (by omega)
  · exact Or.inr ⟨by omega, lexLtB_append a b hlen hlex⟩

theorem pathLeB_append_same {p q : List Pos} (a : Pos) (h : pathLeB p q = true) :
    pathLeB (p ++ [a]) (q ++ [a]) = true := by
  rcases pathLeB_cases h with h | h
  · exact pathLeB_of_lt (pathLtB_append_both a a h)
  · rw [h]
    exact pathLeB_refl _

theorem pathLtB_append_right {p q : List Pos} (d : Pos) (h : pathLtB p q = true) :
    pathLtB p (q ++ [d]) = true := by
  refine pathLtB_of_length ?_
  have := pathLtB_le_length h
  simp only [List.length_append, List.length_singleton]
  omega

theorem pathLtB_self_append (p : List Pos) (d : Pos) : pathLtB p (p ++ [d]) = true := by
  refine pathLtB_of_length ?_
  simp

theorem lexLtB_snoc_idx {a b : Pos} (h : dirIdx a < dirIdx b) (p : List Pos) :
    lexLtB (p ++ [a]) (p ++ [b]) = true := by
  induction p with
  | nil => simp [lexLtB, h]
  | cons x xs ih =>
    simp only [List.cons_append]
    simp only [lexLtB, Bool.or_eq_true, Bool.and_eq_true, decide_eq_true_eq, beq_iff_eq]
    exact Or.inr ⟨trivial, ih⟩

theorem pathLtB_snoc_idx {a b : Pos} (p : List Pos) (h : dirIdx a < dirIdx b) :
    pathLtB (p ++ [a]) (p ++ [b]) = true := by
  unfold pathLtB
  simp only [Bool.or_eq_true, Bool.and_eq_true, decide_eq_true_eq, beq_iff_eq]
  exact Or.inr ⟨by simp, lexLtB_snoc_idx h p⟩

theorem stepPos_inj_dir {m d1 d2 : Pos} (h : stepPos m d1 = stepPos m d2) :
    d1 = d2 := by
  obtain ⟨a1, a2⟩ := d1
  obtain ⟨b1, b2⟩ := d2
  simp only [stepPos, Prod.mk.injEq] at h ⊢
  omega

theorem FreePath.to_ok {w : Warehouse} {tgt s m : Pos} {q : List Pos}
    (h : FreePath w tgt s m q) : OkPath w tgt s m q := by
  induction h with
  | nil => exact OkPath.nil
  | snoc hfp hdir hfree ih =>
    refine OkPath.snoc ih hdir ⟨hfree.1, ?_⟩
    rcases hfree.2.1 with h2 | h2
    · exact Or.inl h2
    · exact Or.inr (Or.inl h2)

theorem clean_or_shortcut {w : Warehouse} {tgt s m : Pos} {q : List Pos}
    (h : OkPath w tgt s m q) (hm : m ≠ tgt) :
    FreePath w tgt s m q ∨
      ∃ q1 q2, q = q1 ++ q2 ∧ OkPath w tgt s tgt q1 ∧ q2 ≠ [] := by
  induction h with
  | nil => exact Or.inl FreePath.nil
  | snoc hOk hdir hok ih =>
    rename_i m' q' d
    by_cases hm' : m' = tgt
    · exact Or.inr ⟨q', [d], rfl, hm' ▸ hOk, by simp⟩
    · rcases ih hm' with hf | ⟨q1, q2, hsplit, hok1, hne⟩
      · refine Or.inl (FreePath.snoc hf hdir ⟨hok.1, ?_, hm⟩)
        rcases hok.2 with h2 | h2 | h2
        · exact Or.inl h2
        · exact Or.inr h2
        · exact absurd h2 hm
      · refine Or.inr ⟨q1, q2 ++ [d], by rw [hsplit, List.append_assoc], hok1, by simp [hne]⟩

theorem directions_nodup : directions.Nodup := by decide

theorem directions_pairwise_idx :
    List.Pairwise (fun d1 d2 => dirIdx d1 < dirIdx d2) directions := by decide

theorem visited_card (w : Warehouse) (V : List Pos) (hnd : V.Nodup)
    (hval : ∀ v ∈ V, w.is_valid_position v.1 v.2 = true) :
    V.length ≤ w.width.toNat * w.height.toNat := by
  classical
  have hsub : V.toFinset ⊆ Finset.Ico (0 : Int) w.width ×ˢ Finset.Ico (0 : Int) w.height := by
    intro v hv
    rw [List.mem_toFinset] at hv
    have hvv := hval v hv
    unfold Warehouse.is_valid_position at hvv
    simp only [Bool.and_eq_true, decide_eq_true_eq] at hvv
    rw [Finset.mem_product, Finset.mem_Ico, Finset.mem_Ico]
    exact ⟨⟨hvv.1.1.1, hvv.1.1.2⟩, hvv.1.2, hvv.2⟩
  have hcard := Finset.card_le_card hsub
  rw [List.toFinset_card_of_nodup hnd, Finset.card_product, Int.card_Ico,
    Int.card_Ico, sub_zero, sub_zero] at hcard
  exact hcard

theorem bfsExpand_spec (w : Warehouse) (tgt n0 : Pos) (p0 : List Pos) :
    ∀ (ds : List Pos) (Vc : List Pos) (acc : List BfsEntry),
      ds.Nodup →
      tgt ∉ Vc →
      (∃ d ∈ ds, (n0.1 + d.1, n0.2 + d.2) = tgt ∧
          w.is_valid_position tgt.1 tgt.2 = true ∧
          bfsExpand w tgt n0 p0 ds Vc acc = Sum.inl (p0 ++ [d])) ∨
      (bfsExpand w tgt n0 p0 ds Vc acc
          = Sum.inr
              (Vc ++ (ds.filter (enqCond w tgt n0 Vc)).map
                  (fun d => (n0.1 + d.1, n0.2 + d.2)),
                acc ++ (ds.filter (enqCond w tgt n0 Vc)).map
                  (fun d => ((n0.1 + d.1, n0.2 + d.2), p0 ++ [d]))) ∧
        ∀ d ∈ ds, w.is_valid_position (n0.1 + d.1) (n0.2 + d.2) = true →
          (n0.1 + d.1, n0.2 + d.2) ≠ tgt) := by
  intro ds
  induction ds with
  | nil =>
    intro Vc acc hnd htgt
    refine Or.inr ⟨?_, fun d hd => absurd hd (List.not_mem_nil d)⟩
    rw [bfsExpand]
    simp
  | cons d ds ih =>
    intro Vc acc hnd htgt
    rw [List.nodup_cons] at hnd
    rw [bfsExpand]
    dsimp only
    by_cases hmem : (n0.1 + d.1, n0.2 + d.2) ∈ Vc
    · rw [if_pos hmem]
      have hcond : enqCond w tgt n0 Vc d = false := by
        unfold enqCond
        simp [hmem]
      rcases ih Vc acc hnd.2 htgt with ⟨d', hd', he⟩ | ⟨he, hnt⟩
      · exact Or.inl ⟨d', List.mem_cons_of_mem d hd', he⟩
      · refine Or.inr ⟨?_, ?_⟩
        · rw [List.filter_cons, hcond]
          exact he
        · intro d' hd' hv
          rcases List.mem_cons.mp hd' with hd' | hd'
          · subst hd'
            intro hstep
            rw [hstep] at hmem
            exact htgt hmem
          · exact hnt d' hd' hv
    · rw [if_neg hmem]
      by_cases hval : ¬ w.is_valid_position (n0.1 + d.1) (n0.2 + d.2) = true
      · rw [if_pos hval]
        have hvf : w.is_valid_position (n0.1 + d.1) (n0.2 + d.2) = false := by
          revert hval
          cases w.is_valid_position (n0.1 + d.1) (n0.2 + d.2) <;> simp
        have hcond : enqCond w tgt n0 Vc d = false := by
          unfold enqCond
          simp [hvf]
        rcases ih Vc acc hnd.2 htgt with ⟨d', hd', he⟩ | ⟨he, hnt⟩
        · exact Or.inl ⟨d', List.mem_cons_of_mem d hd', he⟩
        · refine Or.inr ⟨?_, ?_⟩
          · rw [List.filter_cons, hcond]
            exact he
          · intro d' hd' hv
            rcases List.mem_cons.mp hd' with hd' | hd'
            · subst hd'
              exact absurd hv hval
            · exact hnt d' hd' hv
      · rw [if_neg hval]
        by_cases htgtd : (n0.1 + d.1, n0.2 + d.2) = tgt
        · rw [if_pos (Or.inr (Or.inr htgtd)), if_pos htgtd]
          refine Or.inl ⟨d, List.mem_cons_self d ds, htgtd, ?_, rfl⟩
          rw [← htgtd]
          simpa using hval
        · by_cases hcell : w.grid (n0.1 + d.1, n0.2 + d.2) = 0 ∨
              w.grid (n0.1 + d.1, n0.2 + d.2) = 2
          · rw [if_pos (by rcases hcell with h | h; exact Or.inl h; exact Or.inr (Or.inl h))]
            rw [if_neg htgtd]
            have hcond : enqCond w tgt n0 Vc d = true := by
              unfold enqCond
              have hvt : w.is_valid_position (n0.1 + d.1) (n0.2 + d.2) = true := by
                simpa using hval
              rcases hcell with h | h <;> simp [hmem, hvt, h, htgtd]
            have htgt2 : tgt ∉ Vc ++ [(n0.1 + d.1, n0.2 + d.2)] := by
              intro hc
              rcases List.mem_append.mp hc with hc | hc
              · exact htgt hc
              · rw [List.mem_singleton] at hc
                exact htgtd hc.symm
            have hfe : ds.filter (enqCond w tgt n0 (Vc ++ [(n0.1 + d.1, n0.2 + d.2)]))
                = ds.filter (enqCond w tgt n0 Vc) := by
              refine List.filter_congr ?_
              intro d' hd'
              have hne : (n0.1 + d'.1, n0.2 + d'.2) ≠ (n0.1 + d.1, n0.2 + d.2) := by
                intro hcon
                refine hnd.1 ?_
                have : d' = d := @stepPos_inj_dir n0 d' d hcon
                rw [← this]
                exact hd'
              unfold enqCond
              by_cases hin : (n0.1 + d'.1, n0.2 + d'.2) ∈ Vc <;>
                simp [List.mem_append, hin, hne]
            rcases ih (Vc ++ [(n0.1 + d.1, n0.2 + d.2)])
                (acc ++ [((n0.1 + d.1, n0.2 + d.2), p0 ++ [d])]) hnd.2 htgt2 with
              ⟨d', hd', hs', hv', he⟩ | ⟨he, hnt⟩
            · exact Or.inl ⟨d', List.mem_cons_of_mem d hd', hs', hv', he⟩
            · refine Or.inr ⟨?_, ?_⟩
              · rw [he, hfe, List.filter_cons, hcond]
                simp [List.append_assoc]
              · intro d' hd' hv
                rcases List.mem_cons.mp hd' with hd' | hd'
                · subst hd'
                  exact htgtd
                · exact hnt d' hd' hv
          · have hnok : ¬ (w.grid (n0.1 + d.1, n0.2 + d.2) = 0 ∨
                w.grid (n0.1 + d.1, n0.2 + d.2) = 2 ∨ (n0.1 + d.1, n0.2 + d.2) = tgt) := by
              intro hc
              rcases hc with h | h | h
              · exact hcell (Or.inl h)
              · exact hcell (Or.inr h)
              · exact htgtd h
            rw [if_neg hnok]
            have hcond : enqCond w tgt n0 Vc d = false := by
              unfold enqCond
              have h0 : ¬ w.grid (n0.1 + d.1, n0.2 + d.2) = 0 := fun h => hcell (Or.inl h)
              have h2 : ¬ w.grid (n0.1 + d.1, n0.2 + d.2) = 2 := fun h => hcell (Or.inr h)
              simp [h0, h2]
            rcases ih Vc acc hnd.2 htgt with ⟨d', hd', he⟩ | ⟨he, hnt⟩
            · exact Or.inl ⟨d', List.mem_cons_of_mem d hd', he⟩
            · refine Or.inr ⟨?_, ?_⟩
              · rw [List.filter_cons, hcond]
                exact he
              · intro d' hd' hv
                rcases List.mem_cons.mp hd' with hd' | hd'
                · subst hd'
                  exact htgtd
                · exact hnt d' hd' hv

theorem bfs_walk {w : Warehouse} {tgt s : Pos} {Q : List BfsEntry} {V : List Pos}
    (inv : BfsInv w tgt s Q V) :
    ∀ {q : List Pos} {m : Pos}, FreePath w tgt s m q → m ∉ V →
      ∃ e ∈ Q, ∃ q1 q2, q = q1 ++ q2 ∧ q2 ≠ [] ∧ FreePath w tgt s e.1 q1 ∧
        pathLeB e.2 q1 = true := by
  intro q m h
  induction h with
  | nil => intro hs; exact absurd inv.sV hs
  | snoc hfp hdir hfree ih =>
    rename_i m' q' d
    intro hm
    by_cases hm' : m' ∈ V
    · by_cases hQ : ∃ e ∈ Q, e.1 = m'
      · obtain ⟨e, heQ, heq⟩ := hQ
        exact ⟨e, heQ, q', [d], rfl, by simp, heq ▸ hfp,
          inv.minimal e heQ q' (heq ▸ hfp)⟩
      · push_neg at hQ
        have hcl := inv.closure m' hm' hQ d hdir hfree.1
        exact absurd (hcl.2 hfree.2.1) hm
    · obtain ⟨e, heQ, q1, q2, hsplit, hne, hf1, hle⟩ := ih hm'
      exact ⟨e, heQ, q1, q2 ++ [d], by rw [hsplit, List.append_assoc], by simp, hf1, hle⟩

theorem bfs_min {w : Warehouse} {tgt s : Pos} {e0 : BfsEntry} {rest : List BfsEntry}
    {V : List Pos} (inv : BfsInv w tgt s (e0 :: rest) V)
    {z : Pos} (hzv : w.is_valid_position z.1 z.2 = true)
    (hzcase : z = tgt ∨ (z ∉ V ∧ (w.grid z = 0 ∨ w.grid z = 2)))
    {dz : Pos} (hdz : stepPos e0.1 dz = z)
    {q' : List Pos} {m : Pos} (hq' : FreePath w tgt s m q')
    {d'' : Pos} (hd'' : d'' ∈ directions) (hmz : stepPos m d'' = z) :
    pathLeB (e0.2 ++ [dz]) (q' ++ [d'']) = true := by
  by_cases hm0 : m = e0.1
  · subst hm0
    have hdd : dz = d'' := stepPos_inj_dir (hdz.trans hmz.symm)
    rw [hdd]
    exact pathLeB_append_same d'' (inv.minimal e0 (List.mem_cons_self _ _) q' hq')
  · by_cases hQm : ∃ e ∈ rest, e.1 = m
    · obtain ⟨e, heQ, heq⟩ := hQm
      have hpm : pathLeB e.2 q' = true :=
        inv.minimal e (List.mem_cons_of_mem _ heQ) q' (heq ▸ hq')
      have hp0 : pathLtB e0.2 e.2 = true := by
        have hs := inv.sorted
        rw [List.pairwise_cons] at hs
        exact hs.1 e heQ
      exact pathLeB_of_lt (pathLtB_append_both dz d'' (pathLtB_of_lt_of_le hp0 hpm))
    · by_cases hmV : m ∈ V
      · push_neg at hQm
        have hQm' : ∀ e ∈ e0 :: rest, e.1 ≠ m := by
          intro e he
          rcases List.mem_cons.mp he with he | he
          · rw [he]
            exact fun hc => hm0 hc.symm
          · exact hQm e he
        have hcl := inv.closure m hmV hQm' d'' hd'' (by rw [hmz]; exact hzv)
        rcases hzcase with hzt | ⟨hznv, hzok⟩
        · exact absurd (hmz.trans hzt) hcl.1
        · refine absurd (hcl.2 ?_) ?_
          · rw [hmz]
            exact hzok
          · rw [hmz]
            exact hznv
      · obtain ⟨e, heQ, q1, q2, hsplit, hne, hf1, hle⟩ := bfs_walk inv hq' hmV
        have hlen1 : e.2.length ≤ q1.length := pathLeB_le_length hle
        have hlen0 : e0.2.length ≤ e.2.length := by
          rcases List.mem_cons.mp heQ with he | he
          · rw [he]
          · have hs := inv.sorted
            rw [List.pairwise_cons] at hs
            exact pathLtB_le_length (hs.1 e he)
        refine pathLeB_of_lt (pathLtB_of_length ?_)
        have hq2 : 1 ≤ q2.length := by
          cases q2 with
          | nil => exact absurd rfl hne
          | cons x xs => simp
        have hql : q'.length = q1.length + q2.length := by
          rw [hsplit]
          simp
        simp only [List.length_append, List.length_singleton]
        omega

theorem okPath_nil_eq {w : Warehouse} {tgt s m : Pos} {q : List Pos}
    (h : OkPath w tgt s m q) : q = [] → m = s := by
  induction h with
  | nil => intro _; rfl
  | snoc hOk hdir hok ih => intro hq; exact absurd hq (by simp)

theorem bfs_nopath {w : Warehouse} {tgt s : Pos} {V : List Pos}
    (inv : BfsInv w tgt s [] V) :
    ∀ (n : Nat) (q : List Pos), q.length ≤ n → ¬ OkPath w tgt s tgt q := by
  have hst : s ≠ tgt := fun h => inv.tgtV (h ▸ inv.sV)
  intro n
  induction n with
  | zero =>
    intro q hq hok
    have hq0 : q = [] := List.length_eq_zero.mp (Nat.le_zero.mp hq)
    exact hst (okPath_nil_eq hok hq0).symm
  | succ n ih =>
    intro q hq hok
    cases hok with
    | nil => exact hst rfl
    | snoc hOk hdir hok2 =>
      rename_i m' q' d
      by_cases hm' : m' = stepPos m' d
      · refine ih q' ?_ (hm' ▸ hOk)
        have : (q' ++ [d]).length ≤ n + 1 := hq
        simp only [List.length_append, List.length_singleton] at this
        omega
      · rcases clean_or_shortcut hOk hm' with hf | ⟨q1, q2, hsplit, hok1, hne⟩
        · by_cases hmV : m' ∈ V
          · have hcl := inv.closure m' hmV
              (fun e he => absurd he (List.not_mem_nil e)) d hdir hok2.1
            exact hcl.1 rfl
          · obtain ⟨e, heQ, _⟩ := bfs_walk inv hf hmV
            exact absurd heQ (List.not_mem_nil e)
        · refine ih q1 ?_ hok1
          have h1 : (q' ++ [d]).length ≤ n + 1 := hq
          have h2 : q'.length = q1.length + q2.length := by
            rw [hsplit]
            simp
          have h3 : 1 ≤ q2.length := by
            cases q2 with
            | nil => exact absurd rfl hne
            | cons x xs => simp
          simp only [List.length_append, List.length_singleton] at h1
          omega

theorem bfs_found_min {w : Warehouse} {tgt s : Pos} {e0 : BfsEntry}
    {rest : List BfsEntry} {V : List Pos} (inv : BfsInv w tgt s (e0 :: rest) V)
    {dz : Pos} (hdz : stepPos e0.1 dz = tgt) :
    ∀ (n : Nat) (q : List Pos), q.length ≤ n → OkPath w tgt s tgt q →
      pathLeB (e0.2 ++ [dz]) q = true := by
  have hst : s ≠ tgt := fun h => inv.tgtV (h ▸ inv.sV)
  intro n
  induction n with
  | zero =>
    intro q hq hok
    have hq0 : q = [] := List.length_eq_zero.mp (Nat.le_zero.mp hq)
    exact absurd (okPath_nil_eq hok hq0).symm hst
  | succ n ih =>
    intro q hq hok
    cases hok with
    | nil => exact absurd rfl hst
    | snoc hOk hdir hok2 =>
      rename_i m' q' d
      by_cases hm' : m' = stepPos m' d
      · have hfound : pathLeB (e0.2 ++ [dz]) q' = true := by
          refine ih q' ?_ (hm' ▸ hOk)
          have h1 : (q' ++ [d]).length ≤ n + 1 := hq
          simp only [List.length_append, List.length_singleton] at h1
          omega
        exact pathLeB_trans hfound (pathLeB_of_lt (pathLtB_self_append q' d))
      · rcases clean_or_shortcut hOk hm' with hf | ⟨q1, q2, hsplit, hok1, hne⟩
        · exact bfs_min inv hok2.1 (Or.inl rfl) hdz hf hdir rfl
        · have hlen : q1.length ≤ n := by
            have h1 : (q' ++ [d]).length ≤ n + 1 := hq
            have h2 : q'.length = q1.length + q2.length := by
              rw [hsplit]
              simp
            have h3 : 1 ≤ q2.length := by
              cases q2 with
              | nil => exact absurd rfl hne
              | cons x xs => simp
            simp only [List.length_append, List.length_singleton] at h1
            omega
          refine pathLeB_trans (ih q1 hlen hok1) (pathLeB_of_lt (pathLtB_of_length ?_))
          have h2 : q'.length = q1.length + q2.length := by
            rw [hsplit]
            simp
          have h3 : 1 ≤ q2.length := by
            cases q2 with
            | nil => exact absurd rfl hne
            | cons x xs => simp
          simp only [List.length_append, List.length_singleton]
          omega

theorem freePath_inv {w : Warehouse} {tgt s z : Pos} {q : List Pos}
    (h : FreePath w tgt s z q) :
    (q = [] ∧ z = s) ∨
      ∃ m q' d, q = q' ++ [d] ∧ FreePath w tgt s m q' ∧ d ∈ directions ∧
        stepPos m d = z := by
  cases h with
  | nil => exact Or.inl ⟨rfl, rfl⟩
  | snoc hfp hdir hfree => exact Or.inr ⟨_, _, _, rfl, hfp, hdir, rfl⟩

theorem bfsLoop_spec (w : Warehouse) (tgt s : Pos) :
    ∀ (fuel : Nat) (Q : List BfsEntry) (V : List Pos),
      BfsInv w tgt s Q V →
      Q.length + (w.width.toNat * w.height.toNat - V.length) < fuel →
      (bfsLoop w tgt fuel Q V = [] ∧ ∀ q, ¬ OkPath w tgt s tgt q) ∨
      (OkPath w tgt s tgt (bfsLoop w tgt fuel Q V) ∧ bfsLoop w tgt fuel Q V ≠ [] ∧
        ∀ q, OkPath w tgt s tgt q → pathLeB (bfsLoop w tgt fuel Q V) q = true) := by
  intro fuel
  induction fuel with
  | zero =>
    intro Q V inv hfuel
    omega
  | succ fuel ih =>
    intro Q V inv hfuel
    cases Q with
    | nil =>
      rw [bfsLoop]
      exact Or.inl ⟨rfl, fun q hq => bfs_nopath inv q.length q (le_refl _) hq⟩
    | cons e0 rest =>
      rw [bfsLoop]
      rcases bfsExpand_spec w tgt e0.1 e0.2 directions V [] directions_nodup inv.tgtV with
        ⟨d, hd, hstep, hvt, he⟩ | ⟨he, hnt⟩
      · rw [he]
        have hstep' : stepPos e0.1 d = tgt := hstep
        refine Or.inr ⟨?_, by simp, ?_⟩
        · have hfp := (inv.entries e0 (List.mem_cons_self _ _)).to_ok
          have hok2 : okPos w tgt (stepPos e0.1 d) := by
            refine ⟨?_, Or.inr (Or.inr hstep')⟩
            rw [hstep']
            exact hvt
          have := OkPath.snoc hfp hd hok2
          rw [hstep'] at this
          exact this
        · intro q hq
          exact bfs_found_min inv hstep' q.length q (le_refl _) hq
      · rw [he]
        simp only [List.nil_append]
        have hFdir : ∀ d ∈ directions.filter (enqCond w tgt e0.1 V), d ∈ directions :=
          fun d hd => List.mem_of_mem_filter hd
        have hFmem : ∀ d ∈ directions.filter (enqCond w tgt e0.1 V),
            (e0.1.1 + d.1, e0.1.2 + d.2) ∉ V ∧
            w.is_valid_position (e0.1.1 + d.1) (e0.1.2 + d.2) = true ∧
            (w.grid (e0.1.1 + d.1, e0.1.2 + d.2) = 0 ∨
              w.grid (e0.1.1 + d.1, e0.1.2 + d.2) = 2) ∧
            (e0.1.1 + d.1, e0.1.2 + d.2) ≠ tgt := by
          intro d hd
          have h2 := List.of_mem_filter hd
          unfold enqCond at h2
          simp only [Bool.and_eq_true, Bool.or_eq_true, decide_eq_true_eq] at h2
          exact ⟨h2.1.1.1, h2.1.1.2, h2.1.2, h2.2⟩
        have hFnodup : (directions.filter (enqCond w tgt e0.1 V)).Nodup :=
          directions_nodup.filter _
        have hFpair : List.Pairwise (fun d1 d2 => dirIdx d1 < dirIdx d2)
            (directions.filter (enqCond w tgt e0.1 V)) :=
          directions_pairwise_idx.sublist (List.filter_sublist directions)
        have hposinj : ∀ d1 ∈ directions.filter (enqCond w tgt e0.1 V),
            ∀ d2 ∈ directions.filter (enqCond w tgt e0.1 V),
            (e0.1.1 + d1.1, e0.1.2 + d1.2) = (e0.1.1 + d2.1, e0.1.2 + d2.2) → d1 = d2 :=
          fun d1 _ d2 _ hcon => @stepPos_inj_dir e0.1 d1 d2 hcon
        have hDposnodup : ((directions.filter (enqCond w tgt e0.1 V)).map
            (fun d => (e0.1.1 + d.1, e0.1.2 + d.2))).Nodup :=
          List.Nodup.map_on hposinj hFnodup
        have hrestQ : ∀ e ∈ rest, e ∈ e0 :: rest := fun e he => List.mem_cons_of_mem _ he
        have hsortedrest : List.Pairwise (fun e1 e2 => pathLtB e1.2 e2.2 = true) rest :=
          (List.pairwise_cons.mp inv.sorted).2
        have hheadlt : ∀ e ∈ rest, pathLtB e0.2 e.2 = true :=
          (List.pairwise_cons.mp inv.sorted).1
        have hDmem : ∀ en ∈ (directions.filter (enqCond w tgt e0.1 V)).map
            (fun d => ((e0.1.1 + d.1, e0.1.2 + d.2), e0.2 ++ [d])),
            ∃ d ∈ directions.filter (enqCond w tgt e0.1 V),
              en = ((e0.1.1 + d.1, e0.1.2 + d.2), e0.2 ++ [d]) := by
          intro en hen
          rw [List.mem_map] at hen
          obtain ⟨d, hdF, hde⟩ := hen
          exact ⟨d, hdF, hde.symm⟩
        have hnewfree : ∀ d ∈ directions.filter (enqCond w tgt e0.1 V),
            FreePath w tgt s (e0.1.1 + d.1, e0.1.2 + d.2) (e0.2 ++ [d]) := by
          intro d hd
          obtain ⟨hfr, hv, hc, hnt2⟩ := hFmem d hd
          exact FreePath.snoc (inv.entries e0 (List.mem_cons_self _ _)) (hFdir d hd)
            ⟨hv, hc, hnt2⟩
        have inv' : BfsInv w tgt s
            (rest ++ (directions.filter (enqCond w tgt e0.1 V)).map
              (fun d => ((e0.1.1 + d.1, e0.1.2 + d.2), e0.2 ++ [d])))
            (V ++ (directions.filter (enqCond w tgt e0.1 V)).map
              (fun d => (e0.1.1 + d.1, e0.1.2 + d.2))) := by
          constructor
          · intro e hee
            rcases List.mem_append.mp hee with hee | hee
            · exact inv.entries e (hrestQ e hee)
            · obtain ⟨d, hdF, hde⟩ := hDmem e hee
              rw [hde]
              exact hnewfree d hdF
          · intro e hee
            rcases List.mem_append.mp hee with hee | hee
            · exact List.mem_append_left _ (inv.entriesV e (hrestQ e hee))
            · obtain ⟨d, hdF, hde⟩ := hDmem e hee
              refine List.mem_append_right _ ?_
              rw [hde]
              exact List.mem_map_of_mem _ hdF
          · rw [List.pairwise_append]
            refine ⟨hsortedrest, ?_, ?_⟩
            · rw [List.pairwise_map]
              refine hFpair.imp ?_
              intro d1 d2 h12
              exact pathLtB_snoc_idx e0.2 h12
            · intro e1 he1 e2 he2
              obtain ⟨d, hdF, hde⟩ := hDmem e2 he2
              rw [hde]
              exact inv.bound e0 (List.mem_cons_self _ _) e1 (hrestQ e1 he1) d (hFdir d hdF)
          · intro e hee e' hee' d' hd'
            rcases List.mem_append.mp hee with hee | hee
            · rcases List.mem_append.mp hee' with hee' | hee'
              · exact inv.bound e (hrestQ e hee) e' (hrestQ e' hee') d' hd'
              · obtain ⟨d2, hdF2, hde2⟩ := hDmem e' hee'
                rw [hde2]
                refine pathLtB_append_both d2 d' ?_
                exact hheadlt e hee
            · obtain ⟨d1, hdF1, hde1⟩ := hDmem e hee
              rcases List.mem_append.mp hee' with hee' | hee'
              · rw [hde1]
                refine pathLtB_append_right d' ?_
                exact inv.bound e0 (List.mem_cons_self _ _) e' (hrestQ e' hee') d1 (hFdir d1 hdF1)
              · obtain ⟨d2, hdF2, hde2⟩ := hDmem e' hee'
                rw [hde1, hde2]
                refine pathLtB_of_length ?_
                simp only [List.length_append, List.length_singleton]
                omega
          · intro e hee q hq
            rcases List.mem_append.mp hee with hee | hee
            · exact inv.minimal e (hrestQ e hee) q hq
            · obtain ⟨d, hdF, hde⟩ := hDmem e hee
              obtain ⟨hfr, hv, hc, hnt2⟩ := hFmem d hdF
              rw [hde] at hq ⊢
              rcases freePath_inv hq with ⟨hq0, hzs⟩ | ⟨m, q', d'', hsplit, hq', hd'', hz⟩
              · have hz1 : (e0.1.1 + d.1, e0.1.2 + d.2) = s := hzs
                rw [hz1] at hfr
                exact absurd inv.sV hfr
              · rw [hsplit]
                exact bfs_min inv hv (Or.inr ⟨hfr, hc⟩) rfl hq' hd'' hz
          · intro hc
            rcases List.mem_append.mp hc with hc | hc
            · exact inv.tgtV hc
            · rw [List.mem_map] at hc
              obtain ⟨d, hdF, hde⟩ := hc
              exact (hFmem d hdF).2.2.2 hde
          · exact List.mem_append_left _ inv.sV
          · refine List.Nodup.append inv.nodupV hDposnodup ?_
            intro a haV haD
            rw [List.mem_map] at haD
            obtain ⟨d, hdF, hde⟩ := haD
            exact (hFmem d hdF).1 (hde ▸ haV)
          · intro v hv
            rcases List.mem_append.mp hv with hv | hv
            · exact inv.validV v hv
            · rw [List.mem_map] at hv
              obtain ⟨d, hdF, hde⟩ := hv
              rw [← hde]
              exact (hFmem d hdF).2.1
          · rw [List.map_append, List.map_map]
            refine List.Nodup.append ?_ ?_ ?_
            · exact ((List.map_cons Prod.fst e0 rest) ▸ inv.nodupQ).of_cons
            · refine List.Nodup.map_on ?_ hFnodup
              intro d1 h1 d2 h2 hcon
              exact hposinj d1 h1 d2 h2 hcon
            · intro a haR haD
              rw [List.mem_map] at haR haD
              obtain ⟨e, heR, hea⟩ := haR
              obtain ⟨d, hdF, hda⟩ := haD
              refine (hFmem d hdF).1 ?_
              have : a ∈ V := hea ▸ inv.entriesV e (hrestQ e heR)
              rw [← hda] at this
              exact this
          · intro m hmV hnotQ d' hd' hv
            have hnotD : m ∉ (directions.filter (enqCond w tgt e0.1 V)).map
                (fun d => (e0.1.1 + d.1, e0.1.2 + d.2)) := by
              intro hc
              rw [List.mem_map] at hc
              obtain ⟨d2, hdF2, hda⟩ := hc
              refine hnotQ ((e0.1.1 + d2.1, e0.1.2 + d2.2), e0.2 ++ [d2]) ?_ hda
              exact List.mem_append_right _ (List.mem_map_of_mem _ hdF2)
            rcases List.mem_append.mp hmV with hmV | hmV
            · by_cases hme0 : m = e0.1
              · subst hme0
                constructor
                · exact hnt d' hd' hv
                · intro hcell
                  by_cases hfresh : stepPos e0.1 d' ∈ V
                  · exact List.mem_append_left _ hfresh
                  · refine List.mem_append_right _ ?_
                    have hdF : d' ∈ directions.filter (enqCond w tgt e0.1 V) := by
                      rw [List.mem_filter]
                      refine ⟨hd', ?_⟩
                      unfold enqCond
                      simp only [Bool.and_eq_true, Bool.or_eq_true, decide_eq_true_eq]
                      refine ⟨⟨⟨hfresh, hv⟩, ?_⟩, hnt d' hd' hv⟩
                      rcases hcell with h | h
                      · exact Or.inl h
                      · exact Or.inr h
                    exact List.mem_map_of_mem _ hdF
              · have hnotold : ∀ e ∈ e0 :: rest, e.1 ≠ m := by
                  intro e hee
                  rcases List.mem_cons.mp hee with hee | hee
                  · rw [hee]
                    exact fun hc => hme0 hc.symm
                  · exact fun hc => hnotQ e (List.mem_append_left _ hee) hc
                have hcl := inv.closure m hmV hnotold d' hd' hv
                exact ⟨hcl.1, fun hcell => List.mem_append_left _ (hcl.2 hcell)⟩
            · exact absurd hmV hnotD
        have hVB : V.length ≤ w.width.toNat * w.height.toNat :=
          visited_card w V inv.nodupV inv.validV
        have hVB' : (V ++ (directions.filter (enqCond w tgt e0.1 V)).map
            (fun d => (e0.1.1 + d.1, e0.1.2 + d.2))).length
            ≤ w.width.toNat * w.height.toNat :=
          visited_card w _ inv'.nodupV inv'.validV
        refine ih _ _ inv' ?_
        have hlenQ : (rest ++ (directions.filter (enqCond w tgt e0.1 V)).map
            (fun d => ((e0.1.1 + d.1, e0.1.2 + d.2), e0.2 ++ [d]))).length
            = rest.length + (directions.filter (enqCond w tgt e0.1 V)).length := by
          simp
        have hlenV : (V ++ (directions.filter (enqCond w tgt e0.1 V)).map
            (fun d => (e0.1.1 + d.1, e0.1.2 + d.2))).length
            = V.length + (directions.filter (enqCond w tgt e0.1 V)).length := by
          simp
        rw [hlenQ]
        rw [hlenV] at hVB' ⊢
        simp only [List.length_cons] at hfuel
        omega

theorem pathLeB_nil (q : List Pos) : pathLeB [] q = true := by
  cases q with
  | nil => exact pathLeB_refl []
  | cons x xs =>
    refine pathLeB_of_lt (pathLtB_of_length ?_)
    simp

theorem bfsInv_init (w : Warehouse) (s tgt : Pos)
    (hs : w.is_valid_position s.1 s.2 = true) (hne : s ≠ tgt) :
    BfsInv w tgt s [(s, [])] [s] := by
  constructor
  · intro e he
    rw [List.mem_singleton] at he
    rw [he]
    exact FreePath.nil
  · intro e he
    rw [List.mem_singleton] at he
    rw [he]
    exact List.mem_singleton_self s
  · exact List.pairwise_singleton _ _
  · intro e he e' he' d hd
    rw [List.mem_singleton] at he he'
    rw [he, he']
    refine pathLtB_of_length ?_
    simp
  · intro e he q hq
    rw [List.mem_singleton] at he
    rw [he]
    exact pathLeB_nil q
  · intro hc
    rw [List.mem_singleton] at hc
    exact hne hc.symm
  · exact List.mem_singleton_self s
  · exact List.nodup_singleton s
  · intro v hv
    rw [List.mem_singleton] at hv
    rw [hv]
    exact hs
  · exact List.nodup_singleton s
  · intro m hm hnotQ d hd hv
    rw [List.mem_singleton] at hm
    exact absurd hm.symm (hnotQ (s, []) (List.mem_singleton_self _))

/-- C3: BFS route correctness.  `find_path_to` returns the empty sequence
when start equals target; returns the empty sequence when no 4-connected
route through cells that are empty, a box, or the target itself exists; and
otherwise returns such a route that is least in the order `pathLeB` — i.e.
of minimal length, with ties resolved by the fixed direction enumeration
order up, down, left, right. -/
theorem C3_bfs_route_correctness (w : Warehouse) (sx sy tx ty : Int)
    (hs : w.is_valid_position sx sy = true)
    (ht : w.is_valid_position tx ty = true) :
    ((sx, sy) = (tx, ty) → Agent.find_path_to w sx sy tx ty = []) ∧
    ((sx, sy) ≠ (tx, ty) →
      ((∀ q, ¬ OkPath w (tx, ty) (sx, sy) (tx, ty) q) →
        Agent.find_path_to w sx sy tx ty = []) ∧
      (∀ q, OkPath w (tx, ty) (sx, sy) (tx, ty) q →
        OkPath w (tx, ty) (sx, sy) (tx, ty) (Agent.find_path_to w sx sy tx ty) ∧
        Agent.find_path_to w sx sy tx ty ≠ [] ∧
        pathLeB (Agent.find_path_to w sx sy tx ty) q = true)) := by
  constructor
  · intro heq
    unfold Agent.find_path_to
    rw [if_pos heq]
  · intro hne
    unfold Agent.find_path_to
    rw [if_neg hne]
    have hB : 1 ≤ w.width.toNat * w.height.toNat := by
      unfold Warehouse.is_valid_position at hs
      simp only [Bool.and_eq_true, decide_eq_true_eq] at hs
      have h1 : 0 < w.width := by omega
      have h2 : 0 < w.height := by omega
      have h3 : 1 ≤ w.width.toNat := by omega
      have h4 : 1 ≤ w.height.toNat := by omega
      exact Nat.one_le_iff_ne_zero.mpr (by positivity)
    have hinit := bfsInv_init w (sx, sy) (tx, ty) hs (fun hc => hne hc)
    have hfuel : ([((sx, sy), ([] : List Pos))]).length +
        (w.width.toNat * w.height.toNat - ([(sx, sy)] : List Pos).length)
        < w.width.toNat * w.height.toNat + 1 := by
      simp only [List.length_singleton]
      omega
    rcases bfsLoop_spec w (tx, ty) (sx, sy) (w.width.toNat * w.height.toNat + 1)
        [((sx, sy), [])] [(sx, sy)] hinit hfuel with ⟨hres, hnop⟩ | ⟨hok, hne2, hmin⟩
    · exact ⟨fun _ => hres, fun q hq => absurd hq (hnop q)⟩
    · exact ⟨fun hnop2 => absurd hok (hnop2 _), fun q hq => ⟨hok, hne2, hmin q hq⟩⟩

/-- Witness for C3 at the concrete 3×3 warehouse with start = target. -/
theorem C3_bfs_route_correctness_witness :
    (((1 : Int), (1 : Int)) = ((1 : Int), (1 : Int)) →
      Agent.find_path_to c6w 1 1 1 1 = []) ∧
    (((1 : Int), (1 : Int)) ≠ ((1 : Int), (1 : Int)) →
      ((∀ q, ¬ OkPath c6w (1, 1) (1, 1) (1, 1) q) →
        Agent.find_path_to c6w 1 1 1 1 = []) ∧
      (∀ q, OkPath c6w (1, 1) (1, 1) (1, 1) q →
        OkPath c6w (1, 1) (1, 1) (1, 1) (Agent.find_path_to c6w 1 1 1 1) ∧
        Agent.find_path_to c6w 1 1 1 1 ≠ [] ∧
        pathLeB (Agent.find_path_to c6w 1 1 1 1) q = true)) :=
  C3_bfs_route_correctness c6w 1 1 1 1 (by decide) (by decide)

end Warehouse0
